import Mathlib

/-!
# SimpleIDE `SpinParser`: a shallow embedding of `propside/spinparser.cpp`

The Spin symbol extractor of SimpleIDE is embedded as pure functions.

* A `QString` is a list of characters; each Qt string primitive the parser calls
  (`trimmed`, `mid`, `indexOf`, `split`, `contains`, `compare`, `toInt`, the two `QRegExp`
  shapes) is a function on such lists following the Qt documentation.
* The `QMap<QString,QString>` database is a key-ordered association list.
* The file system (`QFile::exists`, reading a file, `QDir::entryList`) is an explicit
  read-only argument `FileSystem`.
* The mutually recursive walk `findSpinTags` / `match_object` takes a fuel argument that
  bounds the recursion depth; running out of it is reported as `Fault.outOfFuel`.
* An index outside a `QStringList` is reported as `Fault.indexOutOfRange`.
-/

namespace SimpleIDE

/-! ## Characters and strings -/

/-- A `QString`, as its sequence of `QChar`s. -/
abbrev QString := List Char

/-- `QChar::isSpace`: the ASCII white space characters, NEL, and the Unicode separators. -/
def isSpace (c : Char) : Bool :=
  let n := c.toNat
  n == 0x20 || (0x09 ≤ n && n ≤ 0x0d) || n == 0x85 || n == 0xa0 || n == 0x1680 ||
    (0x2000 ≤ n && n ≤ 0x200a) || n == 0x2028 || n == 0x2029 || n == 0x202f ||
    n == 0x205f || n == 0x3000

/-- C library `isspace` in the "C" locale. -/
def c_isspace (c : Char) : Bool :=
  let n := c.toNat
  n == 0x20 || (0x09 ≤ n && n ≤ 0x0d)

/-- C library `tolower` in the "C" locale. -/
def c_tolower (c : Char) : Char :=
  if 0x41 ≤ c.toNat ∧ c.toNat ≤ 0x5a then Char.ofNat (c.toNat + 32) else c

/-- Case folding used by Qt for `Qt::CaseInsensitive` comparisons.  It is spelled out on
ASCII and Latin-1 and on the characters outside Latin-1 that fold into it; every other
character is its own fold. -/
def foldCase (c : Char) : Char :=
  let n := c.toNat
  if 0x41 ≤ n ∧ n ≤ 0x5a then Char.ofNat (n + 32)
  else if 0xc0 ≤ n ∧ n ≤ 0xde ∧ n ≠ 0xd7 then Char.ofNat (n + 32)
  else if n = 0x17f then 's'
  else if n = 0x212a then 'k'
  else if n = 0x212b then Char.ofNat 0xe5
  else if n = 0x178 then Char.ofNat 0xff
  else c

/-- The word characters of `QRegExp` (`\w`): letters, digits, marks and the underscore.
Letters and digits are spelled out on ASCII and Latin-1. -/
def isWordChar (c : Char) : Bool :=
  let n := c.toNat
  (0x30 ≤ n && n ≤ 0x39) || (0x41 ≤ n && n ≤ 0x5a) || (0x61 ≤ n && n ≤ 0x7a) || n == 0x5f ||
    n == 0xaa || n == 0xb2 || n == 0xb3 || n == 0xb5 || n == 0xb9 || n == 0xba ||
    (0xbc ≤ n && n ≤ 0xbe) || (0xc0 ≤ n && n ≤ 0xd6) || (0xd8 ≤ n && n ≤ 0xf6) ||
    (0xf8 ≤ n && n ≤ 0xff)

/-- The `Qt::CaseSensitivity` argument. -/
inductive CaseSensitivity where
  | CaseInsensitive
  | CaseSensitive
  deriving DecidableEq, Repr

open CaseSensitivity

/-- Equality of two characters under a case sensitivity. -/
def charEq (cs : CaseSensitivity) (a b : Char) : Bool :=
  match cs with
  | CaseSensitive => a == b
  | CaseInsensitive => foldCase a == foldCase b

/-- Whether `pat` occurs at the very start of `s`. -/
def startsWith (cs : CaseSensitivity) : QString → QString → Bool
  | [], _ => true
  | _ :: _, [] => false
  | p :: ps, c :: s => charEq cs p c && startsWith cs ps s

/-- The position of the first occurrence of `pat` in `s`, if any. -/
def indexOfOpt (cs : CaseSensitivity) (pat : QString) : QString → Option Nat
  | [] => if pat.isEmpty then some 0 else none
  | c :: s =>
    if startsWith cs pat (c :: s) then some 0
    else (indexOfOpt cs pat s).map (· + 1)

/-- `QString::indexOf(str, 0, cs)`: the first position of `pat`, or `-1`. -/
def indexOf (s pat : QString) (cs : CaseSensitivity) : Int :=
  match indexOfOpt cs pat s with
  | some i => (i : Int)
  | none => -1

/-- `QString::contains(str, cs)`. -/
def contains (s pat : QString) (cs : CaseSensitivity) : Bool :=
  (indexOfOpt cs pat s).isSome

/-- The position of the last occurrence of the character `c` in `s`, if any. -/
def lastIndexOfOpt (c : Char) : QString → Option Nat
  | [] => none
  | d :: s =>
    match lastIndexOfOpt c s with
    | some i => some (i + 1)
    | none => if d = c then some 0 else none

/-- `QString::lastIndexOf(ch)` for a one-character pattern: the last position, or `-1`. -/
def lastIndexOf (s : QString) (c : Char) : Int :=
  match lastIndexOfOpt c s with
  | some i => (i : Int)
  | none => -1

/-- `QString::mid(position, n)`; a negative `n` asks for everything from `position` on. -/
def mid (s : QString) (position n : Int) : QString :=
  if position < 0 then
    if n < 0 ∨ (s.length : Int) ≤ n + position then s
    else s.take (n + position).toNat
  else if n < 0 then s.drop position.toNat
  else (s.drop position.toNat).take n.toNat

/-- `QString::mid(position)`. -/
def midFrom (s : QString) (position : Int) : QString :=
  mid s position (-1)

/-- `QString::trimmed`: white space removed from both ends. -/
def trimmed (s : QString) : QString :=
  ((s.dropWhile isSpace).reverse.dropWhile isSpace).reverse

/-- `QString::compare(other, cs) == 0`. -/
def compareEq (cs : CaseSensitivity) : QString → QString → Bool
  | [], [] => true
  | a :: s, b :: t => charEq cs a b && compareEq cs s t
  | _, _ => false

/-- `QString::split(sep, QString::KeepEmptyParts)` for a one-character separator. -/
def split (sep : Char) : QString → List QString
  | [] => [[]]
  | c :: s =>
    if c = sep then [] :: split sep s
    else
      match split sep s with
      | [] => [[c]]
      | h :: t => (c :: h) :: t

/-- `QString::split(sep, QString::SkipEmptyParts)` for a one-character separator. -/
def splitSkipEmpty (sep : Char) (s : QString) : List QString :=
  (split sep s).filter (fun part => !part.isEmpty)

/-- The value of a run of ASCII decimal digits, when `s` is one. -/
def digitsValue : Nat → QString → Option Nat
  | acc, [] => some acc
  | acc, c :: s =>
    if 0x30 ≤ c.toNat ∧ c.toNat ≤ 0x39 then digitsValue (acc * 10 + (c.toNat - 0x30)) s
    else none

/-- `QString::toInt(&ok)` in base 10: surrounding white space is ignored, an optional sign
is followed by at least one digit, and the value must fit a 32-bit `int`. -/
def toInt (s : QString) : Option Int :=
  match trimmed s with
  | [] => none
  | c :: rest =>
    if c = '-' then
      match rest, digitsValue 0 rest with
      | _ :: _, some v => if v ≤ 2147483648 then some (-(v : Int)) else none
      | _, _ => none
    else if c = '+' then
      match rest, digitsValue 0 rest with
      | _ :: _, some v => if v ≤ 2147483647 then some (v : Int) else none
      | _, _ => none
    else
      match digitsValue 0 (c :: rest) with
      | some v => if v ≤ 2147483647 then some (v : Int) else none
      | none => none

/-- `QString::operator<`: lexicographic comparison of the code units. -/
def qlt : QString → QString → Bool
  | _, [] => false
  | [], _ :: _ => true
  | a :: s, b :: t => a.toNat < b.toNat || (a.toNat == b.toNat && qlt s t)

/-- Whether a word boundary (`\b`) lies between a character that is a word character or
not (`before`) and the start of `s`. -/
def wordBoundary (before : Bool) (s : QString) : Bool :=
  match s with
  | [] => before
  | c :: _ => before != isWordChar c

/-- Whether one of the alternatives `words` matches case-insensitively at the start of
`s` and is followed by a word boundary. -/
def matchWordAt (words : List QString) (s : QString) : Bool :=
  words.any (fun w =>
    startsWith CaseInsensitive w s &&
      wordBoundary ((s.take w.length).getLast?.elim false isWordChar) (s.drop w.length))

/-- The position of the first match of the case-insensitive `QRegExp`
`\b(w1|w2|...)\b` in `s`; `before` tells whether the character in front of `s` is a word
character. -/
def indexOfWordsOpt (words : List QString) : Bool → QString → Option Nat
  | _, [] => none
  | before, c :: s =>
    if wordBoundary before (c :: s) && matchWordAt words (c :: s) then some 0
    else (indexOfWordsOpt words (isWordChar c) s).map (· + 1)

/-- `QString::indexOf(QRegExp("\\b(w1|w2|...)\\b"))`, case-insensitive. -/
def indexOfWords (s : QString) (words : List QString) : Int :=
  match indexOfWordsOpt words false s with
  | some i => (i : Int)
  | none => -1

/-- `QString::contains(QRegExp("\\b(w1|w2|...)\\b"))`, case-insensitive. -/
def containsWords (s : QString) (words : List QString) : Bool :=
  (indexOfWordsOpt words false s).isSome

/-- `QString::contains(QRegExp("\\b?=\\b"))`: the optional boundary in front constrains
nothing, so the pattern is an equals sign directly followed by a word boundary, that is
by a word character. -/
def containsEqualsBoundary : QString → Bool
  | [] => false
  | c :: s => (c == '=' && wordBoundary false s) || containsEqualsBoundary s

/-- `QString::toLatin1`: a character outside Latin-1 becomes a question mark. -/
def toLatin1 (s : QString) : QString :=
  s.map (fun c => if c.toNat ≤ 0xff then c else '?')

/-- The C string seen through a `const char *`: the bytes before the first NUL. -/
def cstr (s : QString) : QString :=
  s.takeWhile (fun c => c.toNat != 0)


/-! ## Faults, string lists -/

/-- What stops a run of the model short of a result. -/
inductive Fault where
  | outOfFuel
  | indexOutOfRange
  deriving DecidableEq, Repr

/-- `QStringList::at(i)` and `operator[](i)`: the index must be inside the list. -/
def listAt (l : List QString) (i : Nat) : Except Fault QString :=
  match l.get? i with
  | some s => .ok s
  | none => .error Fault.indexOutOfRange

/-! ## The symbol database (`QMap<QString,QString> db`) -/

/-- The database: the entries of the `QMap`, in ascending key order. -/
abbrev DB := List (QString × QString)

namespace DB

/-- `QMap::insert(key, value)`: a new entry at its place in the key order, or the value of
the entry that already has this key replaced. -/
def insert (key value : QString) : DB → DB
  | [] => [(key, value)]
  | (k, v) :: rest =>
    if qlt key k then (key, value) :: (k, v) :: rest
    else if qlt k key then (k, v) :: insert key value rest
    else (k, value) :: rest

/-- `QMap::keys()`: the keys in ascending order. -/
def keys (db : DB) : List QString :=
  db.map Prod.fst

/-- `QMap::operator[](key)` read access: the value stored under `key`, or a null string. -/
def value (db : DB) (key : QString) : QString :=
  match db with
  | [] => []
  | (k, v) :: rest => if k = key then v else value rest key

end DB

/-! ## The file system -/

/-- The part of the file system the parser looks at. -/
structure FileSystem where
  /-- `QFile::exists(path)`. -/
  fileExists : QString → Bool
  /-- The text `QTextStream::readAll` gives for the file at `path`, or `none` when
  `QFile::open(QFile::ReadOnly)` fails. -/
  readAll : QString → Option QString
  /-- `QDir(path).entryList()`. -/
  entryList : QString → List QString

/-- A file system holding the listed files (path and text) and directory listings. -/
def mkFS (files : List (QString × QString)) (dirs : List (QString × List QString)) :
    FileSystem where
  fileExists := fun path => files.any (fun f => f.1 == path)
  readAll := fun path => (files.find? (fun f => f.1 == path)).map Prod.snd
  entryList := fun path => ((dirs.find? (fun d => d.1 == path)).map Prod.snd).getD []

/-! ## Parser state, kinds and keywords -/

/-- The section kinds (`SpinParser::SpinKind`). -/
inductive SpinKind where
  | K_NONE
  | K_CONST
  | K_PUB
  | K_PRI
  | K_OBJECT
  | K_VAR
  | K_DAT
  deriving DecidableEq, Repr

open SpinKind

/-- The letter `setKind` gives each entry of `SpinKinds` in the constructor. -/
def SpinKinds_letter : SpinKind → Char
  | K_NONE => 'n'
  | K_CONST => 'c'
  | K_PUB => 'f'
  | K_PRI => 'p'
  | K_OBJECT => 'o'
  | K_VAR => 'v'
  | K_DAT => 'x'

/-- An entry of the keyword table (`KeyWord`). -/
structure KeyWord where
  token : QString
  kind : SpinKind
  skip : Nat
  deriving DecidableEq, Repr

def keyCon : KeyWord := ⟨"con".toList, K_CONST, 0⟩
def keyObj : KeyWord := ⟨"obj".toList, K_OBJECT, 0⟩
def keyPub : KeyWord := ⟨"pub".toList, K_PUB, 0⟩
def keyPri : KeyWord := ⟨"pri".toList, K_PRI, 0⟩
def keyVar : KeyWord := ⟨"var".toList, K_VAR, 0⟩
def keyDat : KeyWord := ⟨"dat".toList, K_DAT, 0⟩
/-- The terminating entry, whose token is `NULL`. -/
def keyNull : KeyWord := ⟨[], K_NONE, 0⟩

/-- The table `spin_keywords` as the constructor fills it. -/
def spin_keywords : List KeyWord :=
  [keyCon, keyObj, keyPub, keyPri, keyVar, keyDat, keyNull]

/-- `KEY_ELEMENT_SEP`. -/
def KEY_ELEMENT_SEP : QString := [':']

/-- The tab that separates the fields of a record. -/
def TAB : QString := ['\t']

/-- The instance state of a `SpinParser`. -/
structure SpinParser where
  db : DB
  spinFiles : List QString
  libraryPath : QString
  currentFile : QString
  objectNode : QString
  deriving DecidableEq, Repr

namespace SpinParser

/-- `SpinParser::clearDB`. -/
def clearDB (st : SpinParser) : SpinParser :=
  { st with db := [], spinFiles := [] }

/-- `SpinParser::tagItem`: the kind field, a tab, and the field `field`. -/
def tagItem (tabs : List QString) (field : Nat) : Except Fault QString :=
  if tabs.length > 2 then do
    let kind ← listAt tabs 3
    let item ← listAt tabs field
    pure (kind ++ TAB ++ item)
  else pure []

/-- The walk of `tokentype` through the keyword table, up to the `NULL` token. -/
def tokentypeLoop (tmp : QString) : List KeyWord → SpinKind
  | [] => K_NONE
  | kw :: rest =>
    if kw.token.isEmpty then K_NONE
    else if compareEq CaseInsensitive tmp kw.token then kw.kind
    else tokentypeLoop tmp rest

/-- `SpinParser::tokentype`. -/
def tokentype (tmp : QString) : SpinKind :=
  let tmp := if indexOf tmp [' '] CaseSensitive > 0
    then mid tmp 0 (indexOf tmp [' '] CaseSensitive) else tmp
  tokentypeLoop tmp spin_keywords

/-- `SpinParser::extract_name` on a C string: the rest of the input and the name. -/
def extract_name (pos : QString) : QString × QString :=
  let pos := pos.dropWhile c_isspace
  let stop := fun (c : Char) => c_isspace c || c == '(' || c == ','
  (pos.dropWhile (fun c => !stop c), pos.takeWhile (fun c => !stop c))

/-- The loop of `match_keyword` that calls `extract_name` `count` times. -/
def extract_names : Nat → QString → QString → QString × QString
  | 0, p, name => (p, name)
  | count + 1, p, _ =>
    let r := extract_name p
    extract_names count r.1 r.2

/-- Whether the C string `p` starts with `token` once its bytes are lower-cased. -/
def keywordAtStart : QString → QString → Bool
  | [], _ => true
  | _ :: _, [] => false
  | t :: ts, c :: p => c_tolower c == t && keywordAtStart ts p

/-- `SpinParser::match_keyword` on the C string `p`; the result is the returned kind (the
`tag` it also fills in is not read by any caller). -/
def match_keyword (p : QString) (kw : KeyWord) : SpinKind :=
  let tmp := p
  if !keywordAtStart kw.token p then K_NONE
  else
    let p := p.drop kw.token.length
    match p with
    | [] => tokentype tmp
    | c :: _ =>
      if !c_isspace c then K_NONE
      else
        let name := (extract_names (1 + kw.skip) p []).2
        if name.length > 0 then tokentype kw.token else K_NONE

/-! ## The extractors -/

/-- The record `name \t currentFile \t line \t letter` every extractor builds. -/
def mkTag (name file line letter : QString) : QString :=
  name ++ TAB ++ file ++ TAB ++ line ++ TAB ++ letter

/-- The body of the enum loop of `match_constant` for one item of the list. -/
def enumItem (st : SpinParser) (p : QString) (db : DB) (item : QString) : DB :=
  let s := trimmed item
  if (toInt s).isSome then db
  else
    let tag := mkTag s st.currentFile p ['e']
    DB.insert (st.objectNode ++ KEY_ELEMENT_SEP ++ s) tag db

/-- `SpinParser::match_constant`. -/
def match_constant (st : SpinParser) (p : QString) : SpinParser :=
  let p := trimmed p
  if indexOf p ['#'] CaseSensitive = 0 then
    let s := trimmed (midFrom p 1)
    let list := split ',' s
    { st with db := list.foldl (enumItem st p) st.db }
  else
    let len := indexOf p ['='] CaseSensitive
    if len > 0 then
      let len := if containsEqualsBoundary p then 0 else len
      if len > 0 then
        let s := trimmed (mid p 0 len)
        let s := if indexOf s "con".toList CaseInsensitive = 0 then midFrom s 4 else s
        let s := trimmed s
        let tag := mkTag s st.currentFile p [SpinKinds_letter K_CONST]
        { st with db := DB.insert (st.objectNode ++ KEY_ELEMENT_SEP ++ s) tag st.db }
      else st
    else st

/-- The alternatives of the `QRegExp` `\b(byte|long|word)\b`. -/
def typeWords : List QString := ["byte".toList, "long".toList, "word".toList]

/-- The body of the `foreach` of `match_dat` and `match_var` for one item of the list. -/
def declItem (st : SpinParser) (p : QString) (kind : SpinKind) (db : DB) (s : QString) : DB :=
  let s := if contains s ['['] CaseSensitive then mid s 0 (indexOf s ['['] CaseSensitive) else s
  let s := trimmed s
  let tag := mkTag s st.currentFile p [SpinKinds_letter kind]
  DB.insert (st.objectNode ++ KEY_ELEMENT_SEP ++ s) tag db

/-- `SpinParser::match_dat`. -/
def match_dat (st : SpinParser) (p : QString) : SpinParser :=
  let s := trimmed p
  let s := if indexOf s "dat".toList CaseInsensitive = 0 then midFrom s 4 else s
  let s := trimmed s
  if containsWords s typeWords then
    let s := mid s 0 (indexOfWords s typeWords)
    let s := trimmed s
    let list := splitSkipEmpty ',' s
    if list.length > 0 then
      { st with db := list.foldl (declItem st p K_DAT) st.db }
    else st
  else st

/-- `SpinParser::match_var`. -/
def match_var (st : SpinParser) (p : QString) : SpinParser :=
  let s := trimmed p
  let s := if indexOf s "var".toList CaseInsensitive = 0 then midFrom s 4 else s
  let s := trimmed s
  if containsWords s typeWords then
    let s := trimmed p
    let s := if indexOf s "var".toList CaseInsensitive = 0 then midFrom s 4 else s
    let s := trimmed s
    if indexOfWords s typeWords = 0 then
      let s := midFrom s (indexOfWords s typeWords + 4)
      let list := splitSkipEmpty ',' s
      if list.length > 0 then
        { st with db := list.foldl (declItem st p K_VAR) st.db }
      else st
    else st
  else st

/-- The method name `match_pri` and `match_pub` cut out of the line. -/
def methodName (p : QString) : QString :=
  let s := midFrom p 4
  let s := if indexOf s ['|'] CaseSensitive ≥ 0 then mid s 0 (indexOf s ['|'] CaseSensitive) else s
  let s := if indexOf s [':'] CaseSensitive ≥ 0 then mid s 0 (indexOf s [':'] CaseSensitive) else s
  let s := if indexOf s ['('] CaseSensitive ≥ 0 then mid s 0 (indexOf s ['('] CaseSensitive) else s
  trimmed s

/-- `SpinParser::match_pri`. -/
def match_pri (st : SpinParser) (p : QString) : SpinParser :=
  let len := indexOf p "pri".toList CaseInsensitive
  if len = 0 then
    let s := methodName p
    let tag := mkTag s st.currentFile p [SpinKinds_letter K_PRI]
    { st with db := DB.insert (st.objectNode ++ KEY_ELEMENT_SEP ++ s) tag st.db }
  else st

/-- `SpinParser::match_pub`. -/
def match_pub (st : SpinParser) (p : QString) : SpinParser :=
  let len := indexOf p "pub".toList CaseInsensitive
  if len = 0 then
    let s := methodName p
    let tag := mkTag s st.currentFile p [SpinKinds_letter K_PUB]
    { st with db := DB.insert (st.objectNode ++ KEY_ELEMENT_SEP ++ s) tag st.db }
  else st

/-- `SpinParser::objectInfo`: the returned count and the new values of the reference
parameters `name` and `file`. -/
def objectInfo (tag name file : QString) : Except Fault (Nat × QString × QString) :=
  let list := split '\t' tag
  if list.length = 0 then pure (0, name, file)
  else do
    let name := trimmed (← listAt list 0)
    let file := trimmed (← listAt list 2)
    let file := midFrom file (indexOf file ['"'] CaseSensitive + 1)
    let file := mid file 0 (indexOf file ['"'] CaseSensitive)
    let file := trimmed file
    let file := if contains file ".spin".toList CaseInsensitive = false
      then file ++ ".spin".toList else file
    pure (list.length, name, file)

/-- `SpinParser::checkFile`. -/
def checkFile (fs : FileSystem) (st : SpinParser) (fileName : QString) : QString :=
  let retfile := fileName
  if fs.fileExists fileName = true then retfile
  else if fs.fileExists (st.libraryPath ++ fileName) then st.libraryPath ++ fileName
  else
    let shortfile := midFrom fileName (lastIndexOf fileName '/' + 1)
    let path := mid st.currentFile 0 (lastIndexOf st.currentFile '/' + 1)
    match (fs.entryList path).find? (fun s => compareEq CaseInsensitive s shortfile) with
    | some s => path ++ s
    | none =>
      match (fs.entryList st.libraryPath).find?
          (fun s => contains s shortfile CaseInsensitive) with
      | some s => st.libraryPath ++ ['/'] ++ s
      | none => retfile

/-- `SpinParser::match_object`; `findSpinTags` is the recursive call. -/
def match_object (fs : FileSystem)
    (findSpinTags : QString → QString → SpinParser → Except Fault SpinParser)
    (st : SpinParser) (p : QString) : Except Fault SpinParser :=
  let len := indexOf p [':'] CaseSensitive
  let len := if indexOf p ":=".toList CaseSensitive > 0 then 0 else len
  if len > 0 then do
    let s := mid p 0 len
    let s := if contains s "OBJ".toList CaseInsensitive
      then midFrom s (indexOf s "OBJ".toList CaseInsensitive + 3) else s
    let s := if contains s ['['] CaseInsensitive
      then mid s 0 (indexOf s ['['] CaseInsensitive) else s
    let s := trimmed s
    let tag := mkTag s st.currentFile p [SpinKinds_letter K_OBJECT]
    let (_, subnode, subfile) ← objectInfo tag [] []
    let file := checkFile fs st subfile
    if fs.fileExists file = false then pure st
    else
      let key := st.objectNode ++ ['/'] ++ subnode ++ KEY_ELEMENT_SEP ++ s
      let st := { st with db := DB.insert key tag st.db }
      findSpinTags subfile (st.objectNode ++ ['/'] ++ subnode) st
  else pure st

/-! ## The walker -/

/-- The scan of `findSpinTags` over a line that holds a brace: `blockComment` is the flag,
`line` the text kept so far, and the list what is left of the line.  After a closing
brace the next character is appended unexamined; reading past the end of the line gives
the NUL character. -/
def braceScan : Bool → QString → QString → Bool × QString
  | blockComment, line, [] => (blockComment, line)
  | blockComment, line, c :: rest =>
    if c = '{' then braceScan true line rest
    else if c = '}' then
      match rest with
      | [] => (false, line ++ [Char.ofNat 0])
      | d :: rest => braceScan false (line ++ [d]) rest
    else braceScan blockComment (if blockComment = false then line ++ [c] else line) rest

/-- The comment stripping at the head of the loop body of `findSpinTags`: the new
block-comment flag and the line, or `none` for the line when the body leaves by one of
its two `continue` statements. -/
def stripLine (blockComment : Bool) (raw : QString) : Bool × Option QString :=
  let line := trimmed raw
  let r := if contains line ['{'] CaseSensitive || contains line ['}'] CaseSensitive
    then braceScan blockComment [] line else (blockComment, line)
  let blockComment := r.1
  let line := r.2
  if blockComment then (blockComment, none)
  else
    let line := if contains line [Char.ofNat 39] CaseSensitive
      then mid line 0 (indexOf line [Char.ofNat 39] CaseSensitive) else line
    if line.length < 1 then (blockComment, none)
    else (blockComment, some line)

/-- The keyword loop of `findSpinTags` when `SPIN_AUTOCOMPLETE` is defined: the section
state and the line after it. -/
def classifyLoop : List KeyWord → SpinKind → QString → SpinKind × QString
  | [], state, line => (state, line)
  | kw :: rest, state, line =>
    if kw.kind = K_NONE then classifyLoop rest state line
    else
      let line := trimmed line
      if indexOf line kw.token CaseInsensitive = 0 then
        let type := match_keyword (cstr (toLatin1 line)) kw
        if type ≠ K_NONE then (type, line)
        else classifyLoop rest state line
      else classifyLoop rest state line

/-- The alternatives of the `QRegExp` `\b(con|obj|pri|pub|dat|var)\b`. -/
def tokenWords : List QString :=
  ["con".toList, "obj".toList, "pri".toList, "pub".toList, "dat".toList, "var".toList]

/-- The classification of `findSpinTags` when `SPIN_AUTOCOMPLETE` is not defined. -/
def classifyTree (state : SpinKind) (line : QString) : SpinKind × QString :=
  let kw := keyObj
  let line := trimmed line
  if indexOfWords line tokenWords = 0 then
    let type := if indexOf line "obj".toList CaseInsensitive = 0
      then match_keyword (cstr (toLatin1 line)) kw else K_CONST
    if type ≠ K_NONE then (type, line) else (state, line)
  else (state, line)

/-- The `switch(state)` of `findSpinTags`; `autocomplete` tells whether
`SPIN_AUTOCOMPLETE` is defined. -/
def dispatch (fs : FileSystem) (autocomplete : Bool)
    (findSpinTags : QString → QString → SpinParser → Except Fault SpinParser)
    (state : SpinKind) (st : SpinParser) (line : QString) : Except Fault SpinParser :=
  if autocomplete then
    match state with
    | K_CONST => pure (match_constant st line)
    | K_DAT => pure (match_dat st line)
    | K_OBJECT => match_object fs findSpinTags st line
    | K_PRI => pure (match_pri st line)
    | K_PUB => pure (match_pub st line)
    | K_VAR => pure (match_var st line)
    | K_NONE => pure st
  else
    match state with
    | K_OBJECT => match_object fs findSpinTags st line
    | _ => pure st

/-- The loop of `findSpinTags` over the lines of the file. -/
def parseLines (fs : FileSystem) (autocomplete : Bool)
    (findSpinTags : QString → QString → SpinParser → Except Fault SpinParser)
    (fileName objnode : QString) :
    List QString → SpinKind → Bool → SpinParser → Except Fault SpinParser
  | [], _, _, st => pure st
  | raw :: rest, state, blockComment, st =>
    let st := { st with objectNode := objnode, currentFile := fileName }
    match stripLine blockComment raw with
    | (blockComment, none) =>
      parseLines fs autocomplete findSpinTags fileName objnode rest state blockComment st
    | (blockComment, some line) =>
      let r := if autocomplete then classifyLoop spin_keywords state line
        else classifyTree state line
      match dispatch fs autocomplete findSpinTags r.1 st r.2 with
      | .error e => .error e
      | .ok st =>
        parseLines fs autocomplete findSpinTags fileName objnode rest r.1 blockComment st

/-- The body of `SpinParser::findSpinTags`, with the recursive call as a parameter. -/
def findSpinTagsBody (fs : FileSystem) (autocomplete : Bool)
    (findSpinTags : QString → QString → SpinParser → Except Fault SpinParser)
    (fileName objnode : QString) (st : SpinParser) : Except Fault SpinParser :=
  let fileName := checkFile fs st fileName
  if fs.fileExists fileName = false then pure st
  else
    match fs.readAll fileName with
    | none => pure st
    | some filestr =>
      let list := splitSkipEmpty '\n' filestr
      let lst2 := splitSkipEmpty '\r' filestr
      let list := if lst2.length > list.length then splitSkipEmpty '\r' filestr else list
      parseLines fs autocomplete findSpinTags fileName objnode list K_CONST false st

/-- `SpinParser::findSpinTags`; `fuel` bounds the depth of the recursion through
`match_object`. -/
def findSpinTags (fs : FileSystem) (autocomplete : Bool) :
    Nat → QString → QString → SpinParser → Except Fault SpinParser
  | 0 => fun _ _ _ => .error Fault.outOfFuel
  | fuel + 1 => findSpinTagsBody fs autocomplete (findSpinTags fs autocomplete fuel)

/-- The body of the loop of `spinFileTree` over the keys, for one key: the new values of
`subnode`, `subfile` and `spinFiles`. -/
def fileTreeStep (db : DB) (acc : QString × QString × List QString) (key : QString) :
    Except Fault (QString × QString × List QString) :=
  let value := DB.value db key
  let levels := split '/' key
  let lcount := levels.length - 1
  do
    let keyel := split ':' (← listAt levels lcount)
    if keyel.length < 2 then pure acc
    else
      if (← listAt keyel 0) = (← listAt keyel 1) then
        let (_, subnode, subfile) ← objectInfo value acc.1 acc.2.1
        pure (subnode, subfile, acc.2.2 ++ [subfile])
      else pure acc

/-- `SpinParser::spinFileTree`: the returned list and the state left behind.  The `tags`
file that `makeTags` writes when `SPIN_AUTOCOMPLETE` is defined is not part of the
model. -/
def spinFileTree (fs : FileSystem) (autocomplete : Bool) (fuel : Nat)
    (st : SpinParser) (file libpath : QString) : Except Fault (List QString × SpinParser) := do
  let st := { st with libraryPath := libpath }
  let st := clearDB st
  let st ← findSpinTags fs autocomplete fuel file "root".toList st
  let st := { st with spinFiles := st.spinFiles ++ [midFrom file (lastIndexOf file '/' + 1)] }
  let keys := DB.keys st.db
  let r ← keys.foldlM (fileTreeStep st.db) ([], [], st.spinFiles)
  let st := { st with spinFiles := r.2.2 }
  pure (st.spinFiles, st)

/-! ## The query surface -/

/-- The body of the loop of `spinSymbols` for one key. -/
def spinSymbolsStep (db : DB) (file objname : QString) (list : List QString)
    (key : QString) : Except Fault (List QString) :=
  let value := DB.value db key
  if objname.length > 0 then
    if contains key (objname ++ [':']) CaseInsensitive then
      let tabs := split '\t' value
      if tabs.length > 2 then do pure (list ++ [← tagItem tabs 2]) else pure list
    else pure list
  else if contains value file CaseInsensitive then
    let tabs := split '\t' value
    if tabs.length > 2 then do pure (list ++ [← tagItem tabs 2]) else pure list
  else pure list

/-- `SpinParser::spinSymbols`. -/
def spinSymbols (db : DB) (file objname : QString) : Except Fault (List QString) :=
  (DB.keys db).foldlM (spinSymbolsStep db file objname) []

/-- The kind tests of `spinConstants` on the fields of one value. -/
def constantsItem (list : List QString) (tabs : List QString) : Except Fault (List QString) :=
  if tabs.length > 2 then do
    if contains (← listAt tabs 3) ['c'] CaseInsensitive then
      pure (list ++ [← tagItem tabs 2])
    else if contains (← listAt tabs 3) ['e'] CaseInsensitive then
      pure (list ++ [← tagItem tabs 0])
    else pure list
  else pure list

/-- The body of the loop of `spinConstants` for one key. -/
def spinConstantsStep (db : DB) (file objname : QString) (list : List QString)
    (key : QString) : Except Fault (List QString) :=
  let value := DB.value db key
  if objname.length > 0 then
    if contains key (objname ++ [':']) CaseInsensitive then
      constantsItem list (split '\t' value)
    else pure list
  else if contains value file CaseInsensitive then
    constantsItem list (split '\t' value)
  else pure list

/-- `SpinParser::spinConstants`. -/
def spinConstants (db : DB) (file objname : QString) : Except Fault (List QString) :=
  (DB.keys db).foldlM (spinConstantsStep db file objname) []

/-- One `if` of a query: the display entry is appended when the kind field holds
`letter`. -/
def appendIfKind (letter : Char) (tabs : List QString) (list : List QString) :
    Except Fault (List QString) := do
  if contains (← listAt tabs 3) [letter] CaseInsensitive then
    pure (list ++ [← tagItem tabs 2])
  else pure list

/-- The body of the loop of `spinMethods` for one key. -/
def spinMethodsStep (db : DB) (file objname : QString) (list : List QString)
    (key : QString) : Except Fault (List QString) :=
  let value := DB.value db key
  if objname.length > 0 then
    if contains key (objname ++ [':']) CaseInsensitive then
      let tabs := split '\t' value
      if tabs.length > 2 then do
        let list ← appendIfKind 'p' tabs list
        appendIfKind 'f' tabs list
      else pure list
    else pure list
  else if contains value file CaseInsensitive then
    let tabs := split '\t' value
    if tabs.length > 2 then do
      let list ← appendIfKind 'p' tabs list
      let list ← appendIfKind 'f' tabs list
      appendIfKind 'o' tabs list
    else pure list
  else pure list

/-- `SpinParser::spinMethods`. -/
def spinMethods (db : DB) (file objname : QString) : Except Fault (List QString) :=
  (DB.keys db).foldlM (spinMethodsStep db file objname) []

/-- The body of the loop shared by `spinDat`, `spinVars` and `spinObjects`, which differ
in the letter they look for. -/
def kindQueryStep (letter : Char) (db : DB) (objname : QString) (list : List QString)
    (key : QString) : Except Fault (List QString) :=
  let value := DB.value db key
  if contains key (objname ++ [':']) CaseInsensitive then
    let tabs := split '\t' value
    if tabs.length > 2 then appendIfKind letter tabs list else pure list
  else pure list

/-- `SpinParser::spinDat`; the argument `file` is not used. -/
def spinDat (db : DB) (_file objname : QString) : Except Fault (List QString) :=
  (DB.keys db).foldlM (kindQueryStep 'd' db objname) []

/-- `SpinParser::spinVars`; the argument `file` is not used. -/
def spinVars (db : DB) (_file objname : QString) : Except Fault (List QString) :=
  (DB.keys db).foldlM (kindQueryStep 'v' db objname) []

/-- `SpinParser::spinObjects`; the argument `file` is not used. -/
def spinObjects (db : DB) (_file objname : QString) : Except Fault (List QString) :=
  (DB.keys db).foldlM (kindQueryStep 'o' db objname) []

end SpinParser

deriving instance DecidableEq for Except

/-! ## Reading a record -/

/-- The first field of a record: the name. -/
def nameField (value : QString) : QString :=
  (split '\t' value).getD 0 []

/-- The third field of a record: the original line. -/
def originalLineField (value : QString) : QString :=
  (split '\t' value).getD 2 []

/-- The fourth field of a record: the kind letter. -/
def kindLetterField (value : QString) : QString :=
  (split '\t' value).getD 3 []

/-- The display form `kindLetter \t originalLine` of a record. -/
def displayForm (value : QString) : QString :=
  kindLetterField value ++ TAB ++ originalLineField value

/-- The scope filter of `spinSymbols`, `spinConstants` and `spinMethods` on an entry. -/
def inScope (file objname key value : QString) : Bool :=
  if objname.length > 0 then contains key (objname ++ [':']) CaseInsensitive
  else contains value file CaseInsensitive

/-- The scope filter of `spinDat`, `spinVars` and `spinObjects` on a key. -/
def inKeyScope (objname key : QString) : Bool :=
  contains key (objname ++ [':']) CaseInsensitive

/-- The keys of a database are in strictly ascending order. -/
def DB.Ordered (db : DB) : Prop :=
  db.Pairwise (fun a b => qlt a.1 b.1 = true)

/-- The test `spinFileTree` makes on a key: its last `/` segment splits on `:` into at
least two parts of which the first two are equal. -/
def isObjectKey (key : QString) : Bool :=
  match split ':' ((split '/' key).getLastD []) with
  | a :: b :: _ => a = b
  | _ => false

/-- The file `objectInfo` reads out of a record: the text between the first two double
quotes of the original line, with `.spin` appended when it is not there yet. -/
def referredFile (value : QString) : QString :=
  match SpinParser.objectInfo value [] [] with
  | .ok r => r.2.2
  | .error _ => []

/-! ## What `match_object` computes from a line -/

/-- The position `match_object` keeps in `len`: that of the first `:`, or `0` when the
line holds `:=` past its start. -/
def objectLen (p : QString) : Int :=
  if indexOf p ":=".toList CaseSensitive > 0 then 0 else indexOf p [':'] CaseSensitive

/-- The instance name `match_object` cuts out of the line. -/
def objectName (p : QString) : QString :=
  let s := mid p 0 (objectLen p)
  let s := if contains s "OBJ".toList CaseInsensitive
    then midFrom s (indexOf s "OBJ".toList CaseInsensitive + 3) else s
  let s := if contains s ['['] CaseInsensitive
    then mid s 0 (indexOf s ['['] CaseInsensitive) else s
  trimmed s

/-- The record `match_object` builds for the line while `currentFile` is parsed. -/
def objectTag (currentFile p : QString) : QString :=
  SpinParser.mkTag (objectName p) currentFile p [SpinKinds_letter K_OBJECT]

/-- The node name `objectInfo` reads out of a record: its first field, trimmed. -/
def subnodeOf (tag : QString) : QString :=
  trimmed ((split '\t' tag).getD 0 [])

/-- Whether `match_object` inserts the record of the line and descends into the file:
the `:` is past the start of the line and the file `checkFile` returns exists. -/
def descends (fs : FileSystem) (st : SpinParser) (p : QString) : Bool :=
  decide (objectLen p > 0) &&
    fs.fileExists (SpinParser.checkFile fs st (referredFile (objectTag st.currentFile p)))

/-! ## Lines and their classification -/

/-- The lines `findSpinTags` walks over: the text split on `\n`, or on `\r` when that
gives more parts, empty parts left out. -/
def fileLines (filestr : QString) : List QString :=
  let list := splitSkipEmpty '\n' filestr
  let lst2 := splitSkipEmpty '\r' filestr
  if lst2.length > list.length then splitSkipEmpty '\r' filestr else list

/-- The kind the keyword loop of the full mode leaves in `type` for a line: that of the
keyword it stopped at, or `K_NONE`. -/
def classifiedKind (line : QString) : SpinKind :=
  (SpinParser.classifyLoop spin_keywords K_NONE line).1

/-- Whether a name starts at the head of `x`: there is a character and it is neither `(`
nor `,`. -/
def nameFollows (x : QString) : Bool :=
  match x with
  | [] => false
  | d :: _ => d != '(' && d != ','

/-- Whether the C string `l` is a line `match_keyword` accepts for the keyword `token`:
it starts with the keyword in either case, and then either ends, or goes on with white
space and, after the white space, a character other than `(` and `,`. -/
def keywordLine (token l : QString) : Bool :=
  SpinParser.keywordAtStart token l &&
    match l.drop token.length with
    | [] => true
    | c :: rest => c_isspace c && nameFollows ((c :: rest).dropWhile c_isspace)

/-- The section state in force after a line in the full mode, said without the keyword
loop: the kind of the first keyword of `con`, `obj`, `pub`, `pri`, `var`, `dat` of which
the line is a keyword line, and the state before the line when it is a keyword line of
none of them. -/
def sectionAfter (state : SpinKind) (line : QString) : SpinKind :=
  match [keyCon, keyObj, keyPub, keyPri, keyVar, keyDat].find?
      (fun kw => keywordLine kw.token (cstr (toLatin1 (trimmed line)))) with
  | some kw => kw.kind
  | none => state

/-! ## The object references of a file -/

/-- The keyword classification of a line in either mode: the section state and the line
that `findSpinTags` dispatches on. -/
def classifyLine (autocomplete : Bool) (state : SpinKind) (line : QString) :
    SpinKind × QString :=
  if autocomplete then SpinParser.classifyLoop spin_keywords state line
  else SpinParser.classifyTree state line

/-- A parser state with the library path `lib` in which a line of `fileName` is handled;
`checkFile` reads nothing else of the state. -/
def lineContext (lib fileName : QString) : SpinParser :=
  ⟨[], [], lib, fileName, []⟩

/-- The file references at which the walk over the lines of `fileName` descends, in the
order of the lines: the loop of `findSpinTags` with the extractors and the recursive
calls left out. -/
def objectCalls (fs : FileSystem) (autocomplete : Bool) (lib fileName : QString) :
    List QString → SpinKind → Bool → List QString
  | [], _, _ => []
  | raw :: rest, state, blockComment =>
    match SpinParser.stripLine blockComment raw with
    | (blockComment, none) =>
      objectCalls fs autocomplete lib fileName rest state blockComment
    | (blockComment, some line) =>
      let r := classifyLine autocomplete state line
      (if r.1 = K_OBJECT ∧ descends fs (lineContext lib fileName) r.2 = true
        then [referredFile (objectTag fileName r.2)] else []) ++
        objectCalls fs autocomplete lib fileName rest r.1 blockComment

/-- The file references at which the walk of the file at the path `file` descends; none
when the file cannot be read. -/
def fileCalls (fs : FileSystem) (autocomplete : Bool) (lib file : QString) : List QString :=
  match fs.readAll file with
  | none => []
  | some filestr => objectCalls fs autocomplete lib file (fileLines filestr) K_CONST false

/-! ## Blocks of lines -/

/-- The records of a list inserted one after the other. -/
def DB.insertAll (recs : List (QString × QString)) (db : DB) : DB :=
  recs.foldl (fun d kv => DB.insert kv.1 kv.2 d) db

/-- The block-comment flag the loop of `findSpinTags` holds after the lines. -/
def flagAfter : List QString → Bool → Bool
  | [], blockComment => blockComment
  | raw :: rest, blockComment => flagAfter rest (SpinParser.stripLine blockComment raw).1

/-- The section state the loop of `findSpinTags` holds after the lines. -/
def stateAfter (autocomplete : Bool) : List QString → SpinKind → Bool → SpinKind
  | [], state, _ => state
  | raw :: rest, state, blockComment =>
    match SpinParser.stripLine blockComment raw with
    | (blockComment, none) => stateAfter autocomplete rest state blockComment
    | (blockComment, some line) =>
      stateAfter autocomplete rest (classifyLine autocomplete state line).1 blockComment

/-- A block introduced by a section-keyword line: reached with the block-comment flag
clear, its first line is not skipped and the keyword classification gives it a kind. -/
def sectionBlock (autocomplete : Bool) (block : List QString) : Bool :=
  match block with
  | [] => false
  | raw :: _ =>
    match SpinParser.stripLine false raw with
    | (_, none) => false
    | (_, some line) => decide ((classifyLine autocomplete K_NONE line).1 ≠ K_NONE)

/-- The database the lines of a block leave when they are parsed on their own, as lines
of `file` under the node `node`, into an empty database. -/
def blockRecords (fs : FileSystem) (autocomplete : Bool) (fuel : Nat)
    (lib file node : QString) (block : List QString) : Except Fault DB :=
  (SpinParser.parseLines fs autocomplete (SpinParser.findSpinTags fs autocomplete fuel)
    file node block K_CONST false ⟨[], [], lib, file, node⟩).map SpinParser.db

/-- Two blocks are independent: no key is stored with one value by the one and with
another value by the other. -/
def independentBlocks (fs : FileSystem) (autocomplete : Bool) (fuel : Nat)
    (lib file node : QString) (block1 block2 : List QString) : Prop :=
  ∀ d1 d2, blockRecords fs autocomplete fuel lib file node block1 = .ok d1 →
    blockRecords fs autocomplete fuel lib file node block2 = .ok d2 →
    ∀ k v1 v2, (k, v1) ∈ d1 → (k, v2) ∈ d2 → v1 = v2

/-- A step of the walk treats every database alike: for the states that satisfy `C` it
either runs out of fuel, or inserts one and the same list of records and keeps the
library path. -/
def Uniform (C : SpinParser → Prop) (f : SpinParser → Except Fault SpinParser) : Prop :=
  (∀ st, C st → f st = .error Fault.outOfFuel) ∨
    ∃ recs, ∀ st, C st → ∃ st', f st = .ok st' ∧ st'.db = DB.insertAll recs st.db ∧
      st'.libraryPath = st.libraryPath

/-! ## What `checkFile` looks at -/

/-- The part of a file reference after its last `/` (`shortfile` in `checkFile`). -/
def baseName (ref : QString) : QString :=
  midFrom ref (lastIndexOf ref '/' + 1)

/-- The part of a path up to and including its last `/` (`path` in `checkFile`); empty
when the path holds no `/`. -/
def dirPath (file : QString) : QString :=
  mid file 0 (lastIndexOf file '/' + 1)

/-- The entry `s` is the first entry of the list `l` that passes the test `p`. -/
def FirstSuch (p : QString → Bool) (l : List QString) (s : QString) : Prop :=
  ∃ pre post, l = pre ++ s :: post ∧ (∀ t ∈ pre, p t = false) ∧ p s = true

/-! ## The records of a walk -/

/-- A record as an extractor builds it from a line of `file` under the node `node`: the
key is `node:name` and the value holds `file` after the name. -/
def lineRecord (file node : QString) (kv : QString × QString) : Prop :=
  ∃ name line letter,
    kv = (node ++ KEY_ELEMENT_SEP ++ name, SpinParser.mkTag name file line [letter])

/-- A record as `match_object` builds it from a line of `file` under the node `node`: the
key is `node/sub:name`, the value holds `file` after the name, and the kind is `o`. -/
def objectRecord (file node : QString) (kv : QString × QString) : Prop :=
  ∃ sub name line,
    kv = (node ++ ['/'] ++ sub ++ KEY_ELEMENT_SEP ++ name,
      SpinParser.mkTag name file line [SpinKinds_letter K_OBJECT])

/-- A record of the walk of `file` under `node` with recursion depth at most `depth`: a
record of a line of `file`, or a record of the walk of a child file under a node
`node/sub`. -/
def walkRecord : Nat → QString → QString → QString × QString → Prop
  | 0, _, _, _ => False
  | depth + 1, file, node, kv =>
    lineRecord file node kv ∨ objectRecord file node kv ∨
      ∃ childFile sub, walkRecord depth childFile (node ++ ['/'] ++ sub) kv

/-- Every record of the database of the state satisfies `P`. -/
def AllRecords (P : QString × QString → Prop) (s : SpinParser) : Prop :=
  ∀ kv ∈ s.db, P kv

/-! ## Inputs used in the evaluations below -/

namespace Examples

/-- A parser that has not parsed anything yet. -/
def fresh : SpinParser := ⟨[], [], [], [], []⟩

/-- The context of a line of `root.spin` parsed under node `root`, database empty. -/
def atRoot : SpinParser := ⟨[], [], [], "root.spin".toList, "root".toList⟩

/-- A root file whose only line is a constant written with a tab before the `=`. -/
def fsTabLine : FileSystem :=
  mkFS [("root.spin".toList, "A\t= 1".toList)] []

/-- A root file whose `OBJ` line has tabs inside the instance name; `c.spin` exists and
`x.spin`, the file the line refers to, does not. -/
def fsTabObj : FileSystem :=
  mkFS [("root.spin".toList, "OBJ\n  a\tb\tc : \"x\"".toList),
        ("c.spin".toList, "PUB show".toList)] []

/-- A root file whose `DAT` section declares `buf byte 0`. -/
def fsDat : FileSystem :=
  mkFS [("root.spin".toList, "DAT\nbuf byte 0".toList)] []

/-- A root file that declares instance `b` of `first` and then instance `a` of
`lib/second`. -/
def fsTwoObjects : FileSystem :=
  mkFS [("root.spin".toList, "OBJ\n  b : \"first\"\n  a : \"lib/second\"".toList),
        ("first.spin".toList, "PUB f".toList),
        ("lib/second.spin".toList, "PUB s".toList)] []

/-- The database with which the walk over `fsTwoObjects` ends. -/
def dbTwoObjects : DB :=
  [("root/a:a".toList, "a\troot.spin\ta : \"lib/second\"\to".toList),
   ("root/a:s".toList, "s\tlib/second.spin\tPUB s\tf".toList),
   ("root/b:b".toList, "b\troot.spin\tb : \"first\"\to".toList),
   ("root/b:f".toList, "f\tfirst.spin\tPUB f\tf".toList)]

/-- A project directory `/proj/` and a library directory `/lib/`; `main.spin` declares an
object found only in the library. -/
def fsProject : FileSystem :=
  mkFS [("/proj/main.spin".toList, "OBJ\n  s : \"ser\"".toList),
        ("/proj/old.spin".toList, "PUB old".toList),
        ("/lib/ser.spin".toList, "PUB tx".toList)]
       [("/proj/".toList, [".".toList, "..".toList, "main.spin".toList, "old.spin".toList]),
        ("/lib/".toList, [".".toList, "..".toList, "ser.spin".toList])]

/-- Scenario E: the root declares `lcd` of `display`, which has `PUB show`. -/
def fsDisplay : FileSystem :=
  mkFS [("root.spin".toList, "OBJ lcd : \"display\"".toList),
        ("display.spin".toList, "PUB show".toList)] []

/-- As `fsDisplay`, but the child declares a method with the name of the instance. -/
def fsDisplayClash : FileSystem :=
  mkFS [("root.spin".toList, "OBJ lcd : \"display\"".toList),
        ("display.spin".toList, "PUB lcd".toList)] []

/-- A root file whose `OBJ` section declares the instance `myobj` of `ser`. -/
def fsMyObj : FileSystem :=
  mkFS [("root.spin".toList, "OBJ\n  myobj : \"ser\"".toList),
        ("ser.spin".toList, "PUB tx".toList)] []

/-- A root file that declares a method with the name of the root node. -/
def fsPubRoot : FileSystem :=
  mkFS [("root.spin".toList, "PUB root".toList)] []

/-- Scenario F: a `{` line, two `PUB foo` lines and a `}` line. -/
def fsBlockComment : FileSystem :=
  mkFS [("root.spin".toList, "\x7b\nPUB foo\nPUB foo\n\x7d".toList)] []

/-- A `CON` block that declares `x` followed by a `PUB` block that declares `x`. -/
def fsConThenPub : FileSystem :=
  mkFS [("root.spin".toList, "CON\n  x = 1\nPUB x".toList)] []

/-- The two blocks of `fsConThenPub` in the other order. -/
def fsPubThenCon : FileSystem :=
  mkFS [("root.spin".toList, "PUB x\nCON\n  x = 1".toList)] []

/-- A file that declares an object which resolves to the file itself. -/
def fsSelf : FileSystem :=
  mkFS [("a.spin".toList, "OBJ\n  me : \"a\"".toList)] []

/-- Two files each of which declares the other as an object. -/
def fsCycle : FileSystem :=
  mkFS [("a.spin".toList, "OBJ\n  b : \"b\"".toList),
        ("b.spin".toList, "OBJ\n  a : \"a\"".toList)] []

/-- A `CON` block that declares the constant `x`. -/
def blockCon : List QString := ["CON".toList, "  x = 1".toList]

/-- A `PUB` block that declares the method `x`. -/
def blockPubX : List QString := ["PUB x".toList]

/-- A `PUB` block that declares the method `y`. -/
def blockPubY : List QString := ["PUB y".toList]

/-- A project directory `src/` with the files `root.spin` and `Helper.spin`, and a
library directory `lib` with the file `Display.spin`. -/
def fsLibrary : FileSystem :=
  mkFS [("src/root.spin".toList, "PUB main".toList),
        ("src/Helper.spin".toList, "PUB help".toList),
        ("lib/Display.spin".toList, "PUB show".toList)]
    [("src/".toList, ["root.spin".toList, "Helper.spin".toList]),
     ("lib".toList, ["Display.spin".toList])]

/-- The parser while it parses `src/root.spin` with the library path `lib`. -/
def inSrc : SpinParser := ⟨[], [], "lib".toList, "src/root.spin".toList, "root".toList⟩

/-- A root file that declares the object `display` and, after it, the method `after`;
the child declares the method `show`. -/
def fsAfter : FileSystem :=
  mkFS [("root.spin".toList, "OBJ\n  lcd : \"display\"\nPUB after".toList),
        ("display.spin".toList, "PUB show".toList)] []

/-- The state a recursive call into `display.spin` under the node `root/lcd` leaves
behind: the records of the child are stored and the parse context is that of the
child. -/
def afterChild : SpinParser :=
  ⟨[("root/lcd:lcd".toList, "lcd\troot.spin\tlcd : \"display\"\to".toList),
    ("root/lcd:show".toList, "show\tdisplay.spin\tPUB show\tf".toList)],
   [], [], "display.spin".toList, "root/lcd".toList⟩

/-- A database holding one enum record. -/
def dbEnum : DB :=
  [("root:ONE".toList, "ONE\troot.spin\t#0, ONE\te".toList)]

/-- A database holding one `VAR` record. -/
def dbVar : DB :=
  [("root:x".toList, "x\troot.spin\tlong x\tv".toList)]

end Examples

open SpinParser CaseSensitivity SpinKind Examples

/-! ## Facts about the string primitives -/

theorem char_toNat_inj {a b : Char} (h : a.toNat = b.toNat) : a = b := by
  apply Char.ext
  apply UInt32.ext
  exact h

theorem qlt_irrefl (a : QString) : qlt a a = false := by
  induction a with
  | nil => rfl
  | cons c s ih => simp [qlt, ih]

theorem qlt_asymm : ∀ (a b : QString), qlt a b = true → qlt b a = false
  | _, [], h => by simp [qlt] at h
  | [], _ :: _, _ => by simp [qlt]
  | a :: s, b :: t, h => by
    simp only [qlt, Bool.or_eq_true, decide_eq_true_eq, Bool.and_eq_true, beq_iff_eq] at h
    simp only [qlt, Bool.or_eq_false_iff, decide_eq_false_iff_not, Bool.and_eq_false_imp,
      beq_iff_eq]
    rcases h with h | ⟨h1, h2⟩
    · exact ⟨by omega, fun h3 => by omega⟩
    · exact ⟨by omega, fun _ => qlt_asymm s t h2⟩

theorem qlt_trans : ∀ (a b c : QString), qlt a b = true → qlt b c = true → qlt a c = true
  | _, _, [], _, h => by simp [qlt] at h
  | _, [], _ :: _, h, _ => by simp [qlt] at h
  | [], _ :: _, _ :: _, _, _ => by simp [qlt]
  | a :: s, b :: t, c :: u, h1, h2 => by
    simp only [qlt, Bool.or_eq_true, decide_eq_true_eq, Bool.and_eq_true, beq_iff_eq] at h1 h2 ⊢
    rcases h1 with h1 | ⟨h1, h1'⟩ <;> rcases h2 with h2 | ⟨h2, h2'⟩
    · left; omega
    · left; omega
    · left; omega
    · right; exact ⟨by omega, qlt_trans s t u h1' h2'⟩

theorem qlt_total : ∀ (a b : QString), qlt a b = false → qlt b a = false → a = b
  | [], [], _, _ => rfl
  | [], _ :: _, h, _ => by simp [qlt] at h
  | _ :: _, [], _, h => by simp [qlt] at h
  | a :: s, b :: t, h1, h2 => by
    simp only [qlt, Bool.or_eq_false_iff, decide_eq_false_iff_not, Bool.and_eq_false_imp,
      beq_iff_eq] at h1 h2
    have hab : a.toNat = b.toNat := by omega
    rw [char_toNat_inj hab, qlt_total s t (h1.2 hab) (h2.2 hab.symm)]

/-! ## Facts about the database -/

namespace DB

theorem mem_keys_insert (key value : QString) (db : DB) (k : QString) :
    k ∈ keys (insert key value db) ↔ k = key ∨ k ∈ keys db := by
  induction db with
  | nil => simp [insert, keys]
  | cons e rest ih =>
    obtain ⟨k0, v0⟩ := e
    simp only [insert]
    split
    · simp [keys]
    · split
      · simp only [keys, List.map_cons, List.mem_cons] at ih ⊢
        rw [ih]; tauto
      · have hk : key = k0 := qlt_total key k0 (by simpa using ‹¬ qlt key k0 = true›)
          (by simpa using ‹¬ qlt k0 key = true›)
        subst hk
        simp [keys]

theorem value_insert_self (key value : QString) (db : DB) :
    DB.value (insert key value db) key = value := by
  induction db with
  | nil => simp [insert, DB.value]
  | cons e rest ih =>
    obtain ⟨k0, v0⟩ := e
    simp only [insert]
    split
    · simp [DB.value]
    · split
      · rename_i h1 h2
        have hne : k0 ≠ key := by
          rintro rfl
          simp [qlt_irrefl] at h2
        simp [DB.value, hne, ih]
      · have hk : key = k0 := qlt_total key k0 (by simpa using ‹¬ qlt key k0 = true›)
          (by simpa using ‹¬ qlt k0 key = true›)
        subst hk
        simp [DB.value]

theorem value_insert_of_ne (key value : QString) (db : DB) (k : QString) (h : k ≠ key) :
    DB.value (insert key value db) k = DB.value db k := by
  induction db with
  | nil => simp [insert, DB.value, Ne.symm h]
  | cons e rest ih =>
    obtain ⟨k0, v0⟩ := e
    simp only [insert]
    split
    · simp [DB.value, Ne.symm h]
    · split
      · simp [DB.value, ih]
      · have hk : key = k0 := qlt_total key k0 (by simpa using ‹¬ qlt key k0 = true›)
          (by simpa using ‹¬ qlt k0 key = true›)
        subst hk
        simp [DB.value, Ne.symm h]

end DB

theorem indexOf_head (c : Char) (s : QString) : indexOf (c :: s) [c] CaseSensitive = 0 := by
  simp [indexOf, indexOfOpt, startsWith, charEq]

theorem midFrom_natCast (s : QString) (n : Nat) : midFrom s (n : Int) = s.drop n := by
  simp [midFrom, mid]

theorem midFrom_one (s : QString) : midFrom s 1 = s.drop 1 := midFrom_natCast s 1

namespace SpinParser

/-- The key `objectNode:name` of a symbol. -/
theorem key_inj (node a b : QString) (h : node ++ KEY_ELEMENT_SEP ++ a = node ++ KEY_ELEMENT_SEP ++ b) :
    a = b := by
  simpa [List.append_assoc] using h

theorem mem_keys_foldl_enumItem (st : SpinParser) (p : QString) (items : List QString) :
    ∀ (db : DB) (key : QString),
      key ∈ DB.keys (items.foldl (enumItem st p) db) ↔
        key ∈ DB.keys db ∨ ∃ item ∈ items, toInt (trimmed item) = none ∧
          key = st.objectNode ++ KEY_ELEMENT_SEP ++ trimmed item := by
  induction items with
  | nil => intro db key; simp
  | cons i rest ih =>
    intro db key
    rw [List.foldl_cons, ih]
    by_cases hi : toInt (trimmed i) = none
    · simp only [enumItem, hi, Option.isSome_none, Bool.false_eq_true, ↓reduceIte,
        DB.mem_keys_insert, List.mem_cons, exists_eq_or_imp, true_and]
      tauto
    · have : (toInt (trimmed i)).isSome = true := by
        cases h : toInt (trimmed i) with
        | none => exact absurd h hi
        | some _ => rfl
      simp only [enumItem, this, ↓reduceIte, List.mem_cons, exists_eq_or_imp, hi, false_and,
        false_or]

theorem value_foldl_enumItem (st : SpinParser) (p : QString) (items : List QString)
    (name : QString) (hname : toInt name = none) :
    ∀ (db : DB),
      ((∃ item ∈ items, trimmed item = name) ∨
        DB.value db (st.objectNode ++ KEY_ELEMENT_SEP ++ name) = mkTag name st.currentFile p ['e']) →
      DB.value (items.foldl (enumItem st p) db) (st.objectNode ++ KEY_ELEMENT_SEP ++ name) =
        mkTag name st.currentFile p ['e'] := by
  induction items with
  | nil => intro db h; simpa using h
  | cons i rest ih =>
    intro db h
    rw [List.foldl_cons]
    apply ih
    by_cases hi : trimmed i = name
    · right
      simp only [enumItem, hi, hname, Option.isSome_none, Bool.false_eq_true, ↓reduceIte]
      exact DB.value_insert_self _ _ _
    · rcases h with ⟨item, hmem, hitem⟩ | h
      · rcases List.mem_cons.1 hmem with rfl | hmem
        · exact absurd hitem hi
        · exact Or.inl ⟨item, hmem, hitem⟩
      · right
        simp only [enumItem]
        split
        · exact h
        · rw [DB.value_insert_of_ne _ _ _ _ ?_]
          · exact h
          · intro heq
            exact hi (key_inj _ _ _ heq).symm

theorem value_foldl_enumItem_other (st : SpinParser) (p : QString) (items : List QString)
    (key : QString)
    (hkey : ¬ ∃ item ∈ items, toInt (trimmed item) = none ∧
      key = st.objectNode ++ KEY_ELEMENT_SEP ++ trimmed item) :
    ∀ (db : DB), DB.value (items.foldl (enumItem st p) db) key = DB.value db key := by
  induction items with
  | nil => intro db; rfl
  | cons i rest ih =>
    intro db
    rw [List.foldl_cons, ih (fun ⟨item, hm, h⟩ => hkey ⟨item, List.mem_cons_of_mem _ hm, h⟩)]
    simp only [enumItem]
    split
    · rfl
    · rename_i hint
      apply DB.value_insert_of_ne
      rintro rfl
      apply hkey
      refine ⟨i, List.mem_cons_self _ _, ?_, rfl⟩
      cases h : toInt (trimmed i) with
      | none => rfl
      | some _ => simp [h] at hint

theorem match_constant_enum_db (st : SpinParser) (p : QString)
    (h : (trimmed p).head? = some '#') :
    (match_constant st p).db =
      (split ',' (trimmed ((trimmed p).drop 1))).foldl (enumItem st (trimmed p)) st.db := by
  cases hp : trimmed p with
  | nil => simp [hp] at h
  | cons c rest =>
    simp only [hp, List.head?_cons, Option.some.injEq] at h
    subst h
    simp only [match_constant, hp, indexOf_head, ↓reduceIte, midFrom_one]

end SpinParser
namespace SpinParser

/-- C10: for every line whose first character is `#`, `match_constant` inserts, for each
comma-separated item of the text after the `#` that does not parse as an integer once
trimmed, the record `item \t currentFile \t line \t e` under the key `objectNode:item`,
and inserts nothing for an item that parses as an integer: the keys afterwards are the
keys before and those of the non-integer items, each such key holds that record, and
every other key keeps its value. -/
theorem match_constant_enum (st : SpinParser) (p : QString)
    (h : (trimmed p).head? = some '#') :
    (∀ key, key ∈ DB.keys (match_constant st p).db ↔
      key ∈ DB.keys st.db ∨
        ∃ item ∈ split ',' (trimmed ((trimmed p).drop 1)), toInt (trimmed item) = none ∧
          key = st.objectNode ++ [':'] ++ trimmed item) ∧
    (∀ item ∈ split ',' (trimmed ((trimmed p).drop 1)), toInt (trimmed item) = none →
      DB.value (match_constant st p).db (st.objectNode ++ [':'] ++ trimmed item) =
        trimmed item ++ ['\t'] ++ st.currentFile ++ ['\t'] ++ trimmed p ++ ['\t'] ++ ['e']) ∧
    (∀ key, (¬ ∃ item ∈ split ',' (trimmed ((trimmed p).drop 1)),
        toInt (trimmed item) = none ∧ key = st.objectNode ++ [':'] ++ trimmed item) →
      DB.value (match_constant st p).db key = DB.value st.db key) := by
  rw [match_constant_enum_db st p h]
  refine ⟨fun key => mem_keys_foldl_enumItem st _ _ _ key, fun item hmem hint => ?_,
    fun key hkey => value_foldl_enumItem_other st _ _ key hkey _⟩
  exact value_foldl_enumItem st _ _ (trimmed item) hint _ (Or.inl ⟨item, hmem, rfl⟩)

/-- C10, scenario A: the line `#0, ONE, TWO, THREE` under node `root` yields the keys
`root:ONE`, `root:TWO` and `root:THREE`, three keys in all, each with a record of kind `e`
that carries the line, and no key for the item `0`. -/
theorem match_constant_enum_scenario :
    (trimmed "#0, ONE, TWO, THREE".toList).head? = some '#' ∧
    "root:ONE".toList ∈ DB.keys (match_constant atRoot "#0, ONE, TWO, THREE".toList).db ∧
    "root:TWO".toList ∈ DB.keys (match_constant atRoot "#0, ONE, TWO, THREE".toList).db ∧
    "root:THREE".toList ∈ DB.keys (match_constant atRoot "#0, ONE, TWO, THREE".toList).db ∧
    "root:0".toList ∉ DB.keys (match_constant atRoot "#0, ONE, TWO, THREE".toList).db ∧
    (DB.keys (match_constant atRoot "#0, ONE, TWO, THREE".toList).db).length = 3 ∧
    DB.value (match_constant atRoot "#0, ONE, TWO, THREE".toList).db "root:ONE".toList =
      "ONE\troot.spin\t#0, ONE, TWO, THREE\te".toList ∧
    DB.value (match_constant atRoot "#0, ONE, TWO, THREE".toList).db "root:TWO".toList =
      "TWO\troot.spin\t#0, ONE, TWO, THREE\te".toList ∧
    DB.value (match_constant atRoot "#0, ONE, TWO, THREE".toList).db "root:THREE".toList =
      "THREE\troot.spin\t#0, ONE, TWO, THREE\te".toList :=
  have h := match_constant_enum atRoot "#0, ONE, TWO, THREE".toList (by decide)
  ⟨by decide,
   (h.1 _).2 (Or.inr ⟨" ONE".toList, by decide, by decide, by decide⟩),
   (h.1 _).2 (Or.inr ⟨" TWO".toList, by decide, by decide, by decide⟩),
   (h.1 _).2 (Or.inr ⟨" THREE".toList, by decide, by decide, by decide⟩),
   fun hmem => absurd ((h.1 _).1 hmem) (by decide),
   by decide,
   h.2.1 " ONE".toList (by decide) (by decide),
   h.2.1 " TWO".toList (by decide) (by decide),
   h.2.1 " THREE".toList (by decide) (by decide)⟩

end SpinParser
namespace SpinParser

/-! ## Evaluations -/

/-- C1: a root file whose single line is `A<TAB>= 1` leaves, after a top-level parse
from a cleared database, the value `A \t root.spin \t A<TAB>= 1 \t c` under `root:A`; it
holds four tab characters and splits into five fields, and the display entry built from
it shows `= 1` where the kind letter belongs. -/
theorem tab_in_line_gives_five_fields :
    (spinFileTree fsTabLine true 1 fresh "root.spin".toList []).map (fun r => r.2.db) =
      .ok [("root:A".toList, "A\troot.spin\tA\t= 1\tc".toList)] ∧
    (split '\t' "A\troot.spin\tA\t= 1\tc".toList).length = 5 ∧
    ("A\troot.spin\tA\t= 1\tc".toList).count '\t' = 4 ∧
    spinSymbols [("root:A".toList, "A\troot.spin\tA\t= 1\tc".toList)] "root.spin".toList
      "root".toList = .ok ["= 1\tA".toList] := by
  decide!

/-- C2: an `OBJ` line whose instance name is `a<TAB>b<TAB>c` and whose quoted file is `x`
is stored under the key `root/a:a<TAB>b<TAB>c`, not under
`root/a<TAB>b<TAB>c:a<TAB>b<TAB>c`, and the walk descends into `c.spin`, a file the line
does not mention, putting its `PUB show` under `root/a:show`. -/
theorem tab_in_instance_name_key :
    (spinFileTree fsTabObj true 2 fresh "root.spin".toList []).map (fun r => r.2.db) =
      .ok [("root/a:a\tb\tc".toList, "a\tb\tc\troot.spin\ta\tb\tc : \"x\"\to".toList),
           ("root/a:show".toList, "show\tc.spin\tPUB show\tf".toList)] := by
  decide!

/-- C4: after a full-mode parse of a root file whose `DAT` section declares `buf byte 0`
the database holds the record of `buf` under `root:buf` with kind letter `x`, and
`spinDat(file, "root")` returns the empty list. -/
theorem spinDat_misses_dat_record :
    (spinFileTree fsDat true 1 fresh "root.spin".toList []).map (fun r => r.2.db) =
      .ok [("root:buf".toList, "buf\troot.spin\tbuf byte 0\tx".toList)] ∧
    spinDat [("root:buf".toList, "buf\troot.spin\tbuf byte 0\tx".toList)] "root.spin".toList
      "root".toList = .ok [] := by
  decide!

/-- C5, refuted: the root declares `b : "first"` and then `a : "lib/second"`; the walk
reaches `first.spin` before `lib/second.spin`, and `spinFileTree` lists `lib/second.spin`
before `first.spin`, the former with its directory. -/
theorem spinFileTree_not_discovery_order :
    (spinFileTree fsTwoObjects true 2 fresh "root.spin".toList []).map Prod.fst =
      .ok ["root.spin".toList, "lib/second.spin".toList, "first.spin".toList] := by
  decide!

/-- C6: `spinFileTree("Main.spin", "/lib/")` where `Main.spin` exists neither as given
nor under the library path.  On a parser that has just parsed `/proj/old.spin` the file
resolves to `/proj/main.spin` and two records are stored; a second call right after that
one, and a call on a fresh parser, resolve nothing and leave the database empty. -/
theorem spinFileTree_depends_on_prior_currentFile :
    ((spinFileTree fsProject true 2 fresh "/proj/old.spin".toList "/lib/".toList).bind
        (fun r => spinFileTree fsProject true 2 r.2 "Main.spin".toList "/lib/".toList)).map
        (fun r => r.2.db) =
      .ok [("root/s:s".toList, "s\t/proj/main.spin\ts : \"ser\"\to".toList),
           ("root/s:tx".toList, "tx\t/lib/ser.spin\tPUB tx\tf".toList)] ∧
    (((spinFileTree fsProject true 2 fresh "/proj/old.spin".toList "/lib/".toList).bind
        (fun r => spinFileTree fsProject true 2 r.2 "Main.spin".toList "/lib/".toList)).bind
        (fun r => spinFileTree fsProject true 2 r.2 "Main.spin".toList "/lib/".toList)).map
        (fun r => r.2.db) = .ok [] ∧
    (spinFileTree fsProject true 2 fresh "Main.spin".toList "/lib/".toList).map
        (fun r => r.2.db) = .ok [] := by
  decide!

/-- C7: in scenario E the keys `root/lcd:lcd` (kind `o`) and `root/lcd:show` (kind `f`)
are present; when `display.spin` declares `PUB lcd` instead, the key `root/lcd:lcd`
holds the record of that method, of kind `f`, and no record of kind `o` is left. -/
theorem child_symbol_replaces_object_record :
    (spinFileTree fsDisplay true 2 fresh "root.spin".toList []).map (fun r => r.2.db) =
      .ok [("root/lcd:lcd".toList, "lcd\troot.spin\tOBJ lcd : \"display\"\to".toList),
           ("root/lcd:show".toList, "show\tdisplay.spin\tPUB show\tf".toList)] ∧
    (spinFileTree fsDisplayClash true 2 fresh "root.spin".toList []).map (fun r => r.2.db) =
      .ok [("root/lcd:lcd".toList, "lcd\tdisplay.spin\tPUB lcd\tf".toList)] := by
  decide!

/-- C8, refuted: the line `buf byte 0[16], flag` in DAT state under node `root` leaves
exactly one key, `root:buf`; there is no key `root:flag`. -/
theorem match_dat_drops_flag :
    DB.keys (match_dat atRoot "buf byte 0[16], flag".toList).db = ["root:buf".toList] ∧
    "root:flag".toList ∉ DB.keys (match_dat atRoot "buf byte 0[16], flag".toList).db := by
  decide!

/-- C8, amended: in every parse context the line `buf byte 0[16], flag` makes `match_dat`
insert exactly one record, for the name `buf` in front of the type word, of kind `x` and
under the key `objectNode:buf`. -/
theorem match_dat_buf (st : SpinParser) :
    (match_dat st "buf byte 0[16], flag".toList).db =
      DB.insert (st.objectNode ++ [':'] ++ "buf".toList)
        ("buf".toList ++ ['\t'] ++ st.currentFile ++ ['\t'] ++
          "buf byte 0[16], flag".toList ++ ['\t'] ++ ['x'])
        st.db := by
  rfl

/-- C9: the line `CONFIG = 1` under node `root` is stored under `root:IG` with the name
`IG`: the first four characters of the name `CONFIG` are dropped. -/
theorem match_constant_cuts_CONFIG :
    (match_constant atRoot "CONFIG = 1".toList).db =
      [("root:IG".toList, "IG\troot.spin\tCONFIG = 1\tc".toList)] ∧
    (match_constant atRoot "MAX = 100".toList).db =
      [("root:MAX".toList, "MAX\troot.spin\tMAX = 100\tc".toList)] := by
  decide!

end SpinParser

/-! ## Facts about the queries -/

theorem foldlM_ok_of_step {α β : Type} (P : β → Prop) (step : β → α → Except Fault β)
    (l : List α)
    (hstep : ∀ acc a, a ∈ l → P acc → ∃ acc', step acc a = .ok acc' ∧ P acc') :
    ∀ acc, P acc → ∃ out, l.foldlM step acc = .ok out ∧ P out := by
  induction l with
  | nil => intro acc h; exact ⟨acc, rfl, h⟩
  | cons a rest ih =>
    intro acc h
    obtain ⟨acc', h1, h2⟩ := hstep acc a (List.mem_cons_self _ _) h
    obtain ⟨out, h3, h4⟩ :=
      ih (fun acc a ha hP => hstep acc a (List.mem_cons_of_mem _ ha) hP) acc' h2
    refine ⟨out, ?_, h4⟩
    rw [List.foldlM_cons, h1]
    exact h3

namespace DB

theorem value_mem (db : DB) (key : QString) (h : key ∈ keys db) :
    (key, DB.value db key) ∈ db := by
  induction db with
  | nil => simp [keys] at h
  | cons e rest ih =>
    obtain ⟨k0, v0⟩ := e
    by_cases hk : k0 = key
    · subst hk; simp [DB.value]
    · have : key ∈ keys rest := by
        simp only [keys, List.map_cons, List.mem_cons] at h
        rcases h with h | h
        · exact absurd h.symm hk
        · exact h
      simp only [DB.value, hk, ↓reduceIte, List.mem_cons]
      exact Or.inr (ih this)

end DB

theorem four_fields (value : QString) (h : (split '\t' value).length = 4) :
    ∃ f0 f1 f2 f3, split '\t' value = [f0, f1, f2, f3] := by
  match hs : split '\t' value, h with
  | [f0, f1, f2, f3], _ => exact ⟨f0, f1, f2, f3, rfl⟩

namespace SpinParser

theorem spinSymbolsStep_ok (db : DB) (file objname : QString)
    (h : ∀ kv ∈ db, (split '\t' kv.2).length = 4) (list : List QString) (key : QString)
    (hkey : key ∈ DB.keys db)
    (hlist : ∀ x ∈ list, ∃ kv ∈ db, inScope file objname kv.1 kv.2 = true ∧
      x = displayForm kv.2) :
    ∃ list', spinSymbolsStep db file objname list key = .ok list' ∧
      ∀ x ∈ list', ∃ kv ∈ db, inScope file objname kv.1 kv.2 = true ∧
        x = displayForm kv.2 := by
  have hmem := DB.value_mem db key hkey
  obtain ⟨f0, f1, f2, f3, hs⟩ := four_fields _ (h _ hmem)
  have hdisp : displayForm (DB.value db key) = f3 ++ TAB ++ f2 := by
    simp [displayForm, kindLetterField, originalLineField, hs]
  by_cases hsc : inScope file objname key (DB.value db key) = true
  · refine ⟨list ++ [f3 ++ TAB ++ f2], ?_, ?_⟩
    · simp only [inScope] at hsc
      simp only [spinSymbolsStep, hs, tagItem, listAt]
      split at hsc <;> simp_all [bind, Except.bind, pure, Except.pure]
    · intro x hx
      rcases List.mem_append.1 hx with hx | hx
      · exact hlist x hx
      · simp only [List.mem_singleton] at hx
        exact ⟨_, hmem, hsc, by rw [hx, hdisp]⟩
  · refine ⟨list, ?_, hlist⟩
    simp only [inScope] at hsc
    simp only [spinSymbolsStep]
    split at hsc <;> simp_all [pure, Except.pure]

end SpinParser
namespace SpinParser

theorem appendIfKind_pres (Good : QString → Prop) (letter : Char) (f0 f1 f2 f3 : QString)
    (hgood : contains f3 [letter] CaseInsensitive = true → Good (f3 ++ TAB ++ f2))
    (list : List QString) (hl : ∀ x ∈ list, Good x) :
    ∃ list', appendIfKind letter [f0, f1, f2, f3] list = .ok list' ∧ ∀ x ∈ list', Good x := by
  by_cases hc : contains f3 [letter] CaseInsensitive = true
  · refine ⟨list ++ [f3 ++ TAB ++ f2], ?_, ?_⟩
    · simp [appendIfKind, listAt, tagItem, hc, bind, Except.bind, pure, Except.pure]
    · intro x hx
      rcases List.mem_append.1 hx with hx | hx
      · exact hl x hx
      · rw [List.mem_singleton.1 hx]; exact hgood hc
  · exact ⟨list, by simp [appendIfKind, listAt, hc, bind, Except.bind, pure, Except.pure], hl⟩

theorem spinMethodsStep_ok (db : DB) (file objname : QString)
    (h : ∀ kv ∈ db, (split '\t' kv.2).length = 4) (list : List QString) (key : QString)
    (hkey : key ∈ DB.keys db)
    (hlist : ∀ x ∈ list, ∃ kv ∈ db, inScope file objname kv.1 kv.2 = true ∧
      x = displayForm kv.2) :
    ∃ list', spinMethodsStep db file objname list key = .ok list' ∧
      ∀ x ∈ list', ∃ kv ∈ db, inScope file objname kv.1 kv.2 = true ∧
        x = displayForm kv.2 := by
  have hmem := DB.value_mem db key hkey
  obtain ⟨f0, f1, f2, f3, hs⟩ := four_fields _ (h _ hmem)
  have hdisp : displayForm (DB.value db key) = f3 ++ TAB ++ f2 := by
    simp [displayForm, kindLetterField, originalLineField, hs]
  by_cases ho : objname.length > 0
  · by_cases hc : contains key (objname ++ [':']) CaseInsensitive = true
    · have hnew : ∃ kv ∈ db, inScope file objname kv.1 kv.2 = true ∧
          f3 ++ TAB ++ f2 = displayForm kv.2 :=
        ⟨_, hmem, by simp [inScope, ho, hc], hdisp.symm⟩
      obtain ⟨l1, e1, p1⟩ := appendIfKind_pres _ 'p' f0 f1 f2 f3 (fun _ => hnew) list hlist
      obtain ⟨l2, e2, p2⟩ := appendIfKind_pres _ 'f' f0 f1 f2 f3 (fun _ => hnew) l1 p1
      exact ⟨l2, by simp [spinMethodsStep, ho, hc, hs, bind, Except.bind, e1, e2], p2⟩
    · exact ⟨list, by simp [spinMethodsStep, ho, hc, pure, Except.pure], hlist⟩
  · by_cases hc : contains (DB.value db key) file CaseInsensitive = true
    · have hnew : ∃ kv ∈ db, inScope file objname kv.1 kv.2 = true ∧
          f3 ++ TAB ++ f2 = displayForm kv.2 :=
        ⟨_, hmem, by simp [inScope, ho, hc], hdisp.symm⟩
      obtain ⟨l1, e1, p1⟩ := appendIfKind_pres _ 'p' f0 f1 f2 f3 (fun _ => hnew) list hlist
      obtain ⟨l2, e2, p2⟩ := appendIfKind_pres _ 'f' f0 f1 f2 f3 (fun _ => hnew) l1 p1
      obtain ⟨l3, e3, p3⟩ := appendIfKind_pres _ 'o' f0 f1 f2 f3 (fun _ => hnew) l2 p2
      exact ⟨l3, by simp [spinMethodsStep, ho, hc, hs, bind, Except.bind, e1, e2, e3], p3⟩
    · exact ⟨list, by simp [spinMethodsStep, ho, hc, pure, Except.pure], hlist⟩

theorem kindQueryStep_ok (letter : Char) (db : DB) (objname : QString)
    (h : ∀ kv ∈ db, (split '\t' kv.2).length = 4) (list : List QString) (key : QString)
    (hkey : key ∈ DB.keys db)
    (hlist : ∀ x ∈ list, ∃ kv ∈ db, inKeyScope objname kv.1 = true ∧
      contains (kindLetterField kv.2) [letter] CaseInsensitive = true ∧
      x = displayForm kv.2) :
    ∃ list', kindQueryStep letter db objname list key = .ok list' ∧
      ∀ x ∈ list', ∃ kv ∈ db, inKeyScope objname kv.1 = true ∧
        contains (kindLetterField kv.2) [letter] CaseInsensitive = true ∧
        x = displayForm kv.2 := by
  have hmem := DB.value_mem db key hkey
  obtain ⟨f0, f1, f2, f3, hs⟩ := four_fields _ (h _ hmem)
  have hdisp : displayForm (DB.value db key) = f3 ++ TAB ++ f2 := by
    simp [displayForm, kindLetterField, originalLineField, hs]
  have hkind : kindLetterField (DB.value db key) = f3 := by
    simp [kindLetterField, hs]
  by_cases hc : contains key (objname ++ [':']) CaseInsensitive = true
  · obtain ⟨l1, e1, p1⟩ := appendIfKind_pres _ letter f0 f1 f2 f3
      (fun hk => ⟨_, hmem, by simpa [inKeyScope] using hc, by rw [hkind]; exact hk,
        hdisp.symm⟩) list hlist
    exact ⟨l1, by simp [kindQueryStep, hc, hs, e1], p1⟩
  · exact ⟨list, by simp [kindQueryStep, hc, pure, Except.pure], hlist⟩

theorem constantsItem_ok (Good : QString → Prop) (f0 f1 f2 f3 : QString)
    (hc : contains f3 ['c'] CaseInsensitive = true → Good (f3 ++ TAB ++ f2))
    (he : contains f3 ['c'] CaseInsensitive = false →
      contains f3 ['e'] CaseInsensitive = true → Good (f3 ++ TAB ++ f0))
    (list : List QString) (hl : ∀ x ∈ list, Good x) :
    ∃ list', constantsItem list [f0, f1, f2, f3] = .ok list' ∧ ∀ x ∈ list', Good x := by
  by_cases h1 : contains f3 ['c'] CaseInsensitive = true
  · refine ⟨list ++ [f3 ++ TAB ++ f2], ?_, ?_⟩
    · simp [constantsItem, listAt, tagItem, h1, bind, Except.bind, pure, Except.pure]
    · intro x hx
      rcases List.mem_append.1 hx with hx | hx
      · exact hl x hx
      · rw [List.mem_singleton.1 hx]; exact hc h1
  · by_cases h2 : contains f3 ['e'] CaseInsensitive = true
    · refine ⟨list ++ [f3 ++ TAB ++ f0], ?_, ?_⟩
      · simp [constantsItem, listAt, tagItem, h1, h2, bind, Except.bind, pure, Except.pure]
      · intro x hx
        rcases List.mem_append.1 hx with hx | hx
        · exact hl x hx
        · rw [List.mem_singleton.1 hx]; exact he (by simpa using h1) h2
    · exact ⟨list, by
        simp [constantsItem, listAt, h1, h2, bind, Except.bind, pure, Except.pure], hl⟩

theorem spinConstantsStep_ok (db : DB) (file objname : QString)
    (h : ∀ kv ∈ db, (split '\t' kv.2).length = 4) (list : List QString) (key : QString)
    (hkey : key ∈ DB.keys db)
    (hlist : ∀ x ∈ list, ∃ kv ∈ db, inScope file objname kv.1 kv.2 = true ∧
      (x = displayForm kv.2 ∨
        (contains (kindLetterField kv.2) ['c'] CaseInsensitive = false ∧
          contains (kindLetterField kv.2) ['e'] CaseInsensitive = true ∧
          x = kindLetterField kv.2 ++ TAB ++ nameField kv.2))) :
    ∃ list', spinConstantsStep db file objname list key = .ok list' ∧
      ∀ x ∈ list', ∃ kv ∈ db, inScope file objname kv.1 kv.2 = true ∧
        (x = displayForm kv.2 ∨
          (contains (kindLetterField kv.2) ['c'] CaseInsensitive = false ∧
            contains (kindLetterField kv.2) ['e'] CaseInsensitive = true ∧
            x = kindLetterField kv.2 ++ TAB ++ nameField kv.2)) := by
  have hmem := DB.value_mem db key hkey
  obtain ⟨f0, f1, f2, f3, hs⟩ := four_fields _ (h _ hmem)
  have hdisp : displayForm (DB.value db key) = f3 ++ TAB ++ f2 := by
    simp [displayForm, kindLetterField, originalLineField, hs]
  have hkind : kindLetterField (DB.value db key) = f3 := by
    simp [kindLetterField, hs]
  have hname : nameField (DB.value db key) = f0 := by
    simp [nameField, hs]
  have hitem : inScope file objname key (DB.value db key) = true →
      ∃ list', constantsItem list [f0, f1, f2, f3] = .ok list' ∧
        ∀ x ∈ list', ∃ kv ∈ db, inScope file objname kv.1 kv.2 = true ∧
          (x = displayForm kv.2 ∨
            (contains (kindLetterField kv.2) ['c'] CaseInsensitive = false ∧
              contains (kindLetterField kv.2) ['e'] CaseInsensitive = true ∧
              x = kindLetterField kv.2 ++ TAB ++ nameField kv.2)) := fun hsc =>
    constantsItem_ok _ f0 f1 f2 f3
      (fun _ => ⟨_, hmem, hsc, Or.inl hdisp.symm⟩)
      (fun h1 h2 => ⟨_, hmem, hsc, Or.inr ⟨by rw [hkind]; exact h1, by rw [hkind]; exact h2,
        by rw [hkind, hname]⟩⟩) list hlist
  by_cases ho : objname.length > 0
  · by_cases hc : contains key (objname ++ [':']) CaseInsensitive = true
    · obtain ⟨l1, e1, p1⟩ := hitem (by simp [inScope, ho, hc])
      exact ⟨l1, by simp [spinConstantsStep, ho, hc, hs, e1], p1⟩
    · exact ⟨list, by simp [spinConstantsStep, ho, hc, pure, Except.pure], hlist⟩
  · by_cases hc : contains (DB.value db key) file CaseInsensitive = true
    · obtain ⟨l1, e1, p1⟩ := hitem (by simp [inScope, ho, hc])
      exact ⟨l1, by simp [spinConstantsStep, ho, hc, hs, e1], p1⟩
    · exact ⟨list, by simp [spinConstantsStep, ho, hc, pure, Except.pure], hlist⟩

end SpinParser
namespace SpinParser

/-- C3, refuted: on a database whose one value has four fields, `spinConstants` returns
for the enum record the entry `e \t ONE`, kind letter and name, which is not the display
form `e \t #0, ONE` of any stored record; and `spinVars` with an empty object name
returns the record of a file other than the one asked for, since it filters on the key
alone. -/
theorem spinConstants_enum_shows_name :
    dbEnum.all (fun kv => (split '\t' kv.2).length = 4) = true ∧
    spinConstants dbEnum "root.spin".toList "root".toList = .ok ["e\tONE".toList] ∧
    "e\tONE".toList ∉ dbEnum.map (fun kv => displayForm kv.2) ∧
    spinVars dbVar "other.spin".toList [] = .ok ["v\tlong x".toList] ∧
    dbVar.all (fun kv => inScope "other.spin".toList [] kv.1 kv.2) = false := by
  decide

/-- C3, amended: for every database whose values have four tab-separated fields every
query returns a list, and each string in it comes from a stored record that passes the
filter of that query.  For `spinSymbols` and `spinMethods` the filter is the one of the
claim and the string is `kindLetter \t originalLine`.  For `spinConstants` the filter is
the same and the string is `kindLetter \t originalLine`, or `kindLetter \t name` for a
record whose kind field holds `e` and not `c`.  For `spinDat`, `spinVars` and
`spinObjects` the filter is that the key contains `objname:`, whether or not `objname`
is empty, the kind field holds the letter `d`, `v` or `o`, and the string is
`kindLetter \t originalLine`. -/
theorem queries_return_display_forms (db : DB) (file objname : QString)
    (h : ∀ kv ∈ db, (split '\t' kv.2).length = 4) :
    (∃ out, spinSymbols db file objname = .ok out ∧
      ∀ x ∈ out, ∃ kv ∈ db, inScope file objname kv.1 kv.2 = true ∧ x = displayForm kv.2) ∧
    (∃ out, spinMethods db file objname = .ok out ∧
      ∀ x ∈ out, ∃ kv ∈ db, inScope file objname kv.1 kv.2 = true ∧ x = displayForm kv.2) ∧
    (∃ out, spinConstants db file objname = .ok out ∧
      ∀ x ∈ out, ∃ kv ∈ db, inScope file objname kv.1 kv.2 = true ∧
        (x = displayForm kv.2 ∨
          (contains (kindLetterField kv.2) ['c'] CaseInsensitive = false ∧
            contains (kindLetterField kv.2) ['e'] CaseInsensitive = true ∧
            x = kindLetterField kv.2 ++ ['\t'] ++ nameField kv.2))) ∧
    (∃ out, spinDat db file objname = .ok out ∧
      ∀ x ∈ out, ∃ kv ∈ db, inKeyScope objname kv.1 = true ∧
        contains (kindLetterField kv.2) ['d'] CaseInsensitive = true ∧
        x = displayForm kv.2) ∧
    (∃ out, spinVars db file objname = .ok out ∧
      ∀ x ∈ out, ∃ kv ∈ db, inKeyScope objname kv.1 = true ∧
        contains (kindLetterField kv.2) ['v'] CaseInsensitive = true ∧
        x = displayForm kv.2) ∧
    (∃ out, spinObjects db file objname = .ok out ∧
      ∀ x ∈ out, ∃ kv ∈ db, inKeyScope objname kv.1 = true ∧
        contains (kindLetterField kv.2) ['o'] CaseInsensitive = true ∧
        x = displayForm kv.2) := by
  refine ⟨?_, ?_, ?_, ?_, ?_, ?_⟩
  · exact foldlM_ok_of_step _ _ _
      (fun acc key hkey hacc => spinSymbolsStep_ok db file objname h acc key hkey hacc) []
      (fun x hx => absurd hx (List.not_mem_nil x))
  · exact foldlM_ok_of_step _ _ _
      (fun acc key hkey hacc => spinMethodsStep_ok db file objname h acc key hkey hacc) []
      (fun x hx => absurd hx (List.not_mem_nil x))
  · exact foldlM_ok_of_step _ _ _
      (fun acc key hkey hacc => spinConstantsStep_ok db file objname h acc key hkey hacc) []
      (fun x hx => absurd hx (List.not_mem_nil x))
  · exact foldlM_ok_of_step _ _ _
      (fun acc key hkey hacc => kindQueryStep_ok 'd' db objname h acc key hkey hacc) []
      (fun x hx => absurd hx (List.not_mem_nil x))
  · exact foldlM_ok_of_step _ _ _
      (fun acc key hkey hacc => kindQueryStep_ok 'v' db objname h acc key hkey hacc) []
      (fun x hx => absurd hx (List.not_mem_nil x))
  · exact foldlM_ok_of_step _ _ _
      (fun acc key hkey hacc => kindQueryStep_ok 'o' db objname h acc key hkey hacc) []
      (fun x hx => absurd hx (List.not_mem_nil x))

/-- C3, amended, at the database with the one enum record: its value has four fields,
and `spinSymbols` for `root` returns strings that are display forms of stored records
in scope. -/
theorem queries_return_display_forms_dbEnum :
    (∀ kv ∈ dbEnum, (split '\t' kv.2).length = 4) ∧
    (∃ out, spinSymbols dbEnum "root.spin".toList "root".toList = .ok out ∧
      ∀ x ∈ out, ∃ kv ∈ dbEnum,
        inScope "root.spin".toList "root".toList kv.1 kv.2 = true ∧ x = displayForm kv.2) :=
  ⟨by decide,
   (queries_return_display_forms dbEnum "root.spin".toList "root".toList (by decide)).1⟩

end SpinParser

/-! ## Fields of a record, order of the database -/

theorem split_ne_nil (sep : Char) (s : QString) : split sep s ≠ [] := by
  cases s with
  | nil => simp [split]
  | cons c s =>
    simp only [split]
    split
    · simp
    · split <;> simp

theorem length_split (sep : Char) (s : QString) :
    (split sep s).length = s.count sep + 1 := by
  induction s with
  | nil => simp [split]
  | cons c s ih =>
    simp only [split]
    by_cases h : c = sep
    · subst h; simp [ih]
    · have hc : (c == sep) = false := by simpa using h
      simp only [h, ↓reduceIte, List.count_cons, hc, Bool.false_eq_true, Nat.add_zero]
      split
      · rename_i hs; exact absurd hs (split_ne_nil sep s)
      · rename_i hd tl hs
        rw [hs] at ih
        simpa using ih

theorem four_le_length_split_mkTag (name file line letter : QString) :
    4 ≤ (split '\t' (SpinParser.mkTag name file line letter)).length := by
  rw [length_split]
  simp only [SpinParser.mkTag, TAB, List.count_append, List.count_singleton_self]
  omega

namespace DB

theorem mem_insert (key value : QString) (db : DB) (kv : QString × QString)
    (h : kv ∈ insert key value db) : kv = (key, value) ∨ kv ∈ db := by
  induction db with
  | nil => simpa [insert] using h
  | cons e rest ih =>
    obtain ⟨k0, v0⟩ := e
    simp only [insert] at h
    split at h
    · simpa using h
    · split at h
      · simp only [List.mem_cons] at h ⊢
        rcases h with h | h
        · exact Or.inr (Or.inl h)
        · rcases ih h with h | h
          · exact Or.inl h
          · exact Or.inr (Or.inr h)
      · have hk : key = k0 := qlt_total key k0 (by simpa using ‹¬ qlt key k0 = true›)
          (by simpa using ‹¬ qlt k0 key = true›)
        subst hk
        simp only [List.mem_cons] at h ⊢
        rcases h with h | h
        · exact Or.inl h
        · exact Or.inr (Or.inr h)

theorem ordered_insert (key value : QString) (db : DB) (h : Ordered db) :
    Ordered (insert key value db) := by
  induction db with
  | nil => simp [insert, Ordered]
  | cons e rest ih =>
    obtain ⟨k0, v0⟩ := e
    simp only [Ordered, List.pairwise_cons] at h
    obtain ⟨h1, h2⟩ := h
    simp only [insert]
    split
    · rename_i hlt
      simp only [Ordered, List.pairwise_cons, List.mem_cons, forall_eq_or_imp]
      exact ⟨⟨hlt, fun a ha => qlt_trans _ _ _ hlt (h1 a ha)⟩, h1, h2⟩
    · split
      · rename_i hlt
        simp only [Ordered, List.pairwise_cons]
        refine ⟨fun a ha => ?_, ih h2⟩
        rcases mem_insert _ _ _ _ ha with ha | ha
        · rw [ha]; exact hlt
        · exact h1 a ha
      · simp only [Ordered, List.pairwise_cons]
        exact ⟨h1, h2⟩

theorem value_of_mem (db : DB) (h : Ordered db) (kv : QString × QString) (hmem : kv ∈ db) :
    DB.value db kv.1 = kv.2 := by
  induction db with
  | nil => simp at hmem
  | cons e rest ih =>
    obtain ⟨k0, v0⟩ := e
    simp only [Ordered, List.pairwise_cons] at h
    rcases List.mem_cons.1 hmem with hm | hm
    · subst hm; simp [DB.value]
    · have hne : k0 ≠ kv.1 := by
        intro heq
        have := h.1 kv hm
        rw [← heq] at this
        simp [qlt_irrefl] at this
      simp only [DB.value, hne, ↓reduceIte]
      exact ih h.2 hm

end DB
namespace SpinParser

/-! ## What a walk preserves -/

theorem ite_state (R : SpinParser → Prop) {c : Prop} [Decidable c] {a b : SpinParser}
    (ha : c → R a) (hb : ¬ c → R b) : R (if c then a else b) := by
  split
  · exact ha ‹_›
  · exact hb ‹_›

theorem ite_ok {α : Type} (Q : α → Prop) {c : Prop} [Decidable c] {a b : Except Fault α}
    (ha : c → ∀ s, a = .ok s → Q s) (hb : ¬ c → ∀ s, b = .ok s → Q s) :
    ∀ s, (if c then a else b) = .ok s → Q s := by
  split
  · exact ha ‹_›
  · exact hb ‹_›

theorem bind_ok {α β : Type} (Q : β → Prop) {x : Except Fault α} {f : α → Except Fault β}
    (hf : ∀ r, x = .ok r → ∀ s, f r = .ok s → Q s) :
    ∀ s, (x >>= f) = .ok s → Q s := by
  intro s hs
  cases x with
  | error e => simp [bind, Except.bind] at hs
  | ok r => exact hf r rfl s hs

theorem pure_ok {α : Type} (Q : α → Prop) {a : α} (ha : Q a) :
    ∀ s, (pure a : Except Fault α) = .ok s → Q s := by
  intro s hs
  cases hs
  exact ha

section Preserved

variable (R : SpinParser → Prop)
variable (hctx : ∀ (s : SpinParser) (file node : QString), R s →
  R (SpinParser.mk s.db s.spinFiles s.libraryPath file node))
variable (hins : ∀ (s : SpinParser) (key name file line : QString) (letter : Char), R s →
  R (SpinParser.mk (DB.insert key (mkTag name file line [letter]) s.db) s.spinFiles
    s.libraryPath s.currentFile s.objectNode))

include hins

theorem foldl_enumItem_preserves (st : SpinParser) (p : QString) (items : List QString) :
    ∀ db, R (SpinParser.mk db st.spinFiles st.libraryPath st.currentFile st.objectNode) →
      R (SpinParser.mk (items.foldl (enumItem st p) db) st.spinFiles st.libraryPath
        st.currentFile st.objectNode) := by
  induction items with
  | nil => intro db h; exact h
  | cons i rest ih =>
    intro db h
    apply ih
    simp only [enumItem]
    split
    · exact h
    · exact hins _ _ _ _ _ _ h

theorem foldl_declItem_preserves (st : SpinParser) (p : QString) (kind : SpinKind)
    (items : List QString) :
    ∀ db, R (SpinParser.mk db st.spinFiles st.libraryPath st.currentFile st.objectNode) →
      R (SpinParser.mk (items.foldl (declItem st p kind) db) st.spinFiles st.libraryPath
        st.currentFile st.objectNode) := by
  induction items with
  | nil => intro db h; exact h
  | cons i rest ih =>
    intro db h
    apply ih
    exact hins _ _ _ _ _ _ h

theorem match_constant_preserves (st : SpinParser) (p : QString) (h : R st) :
    R (match_constant st p) := by
  unfold match_constant
  dsimp only
  refine ite_state R (fun _ => ?_) (fun _ => ite_state R (fun _ => ite_state R (fun _ => ?_)
    (fun _ => h)) (fun _ => h))
  · exact foldl_enumItem_preserves R hins st _ _ _ h
  · exact hins st _ _ _ _ _ h

theorem match_dat_preserves (st : SpinParser) (p : QString) (h : R st) :
    R (match_dat st p) := by
  unfold match_dat
  dsimp only
  refine ite_state R (fun _ => ite_state R (fun _ => ?_) (fun _ => h)) (fun _ => h)
  exact foldl_declItem_preserves R hins st p K_DAT _ _ h

theorem match_var_preserves (st : SpinParser) (p : QString) (h : R st) :
    R (match_var st p) := by
  unfold match_var
  dsimp only
  refine ite_state R (fun _ => ite_state R (fun _ => ite_state R (fun _ => ?_) (fun _ => h))
    (fun _ => h)) (fun _ => h)
  exact foldl_declItem_preserves R hins st p K_VAR _ _ h

theorem match_pri_preserves (st : SpinParser) (p : QString) (h : R st) :
    R (match_pri st p) := by
  unfold match_pri
  dsimp only
  exact ite_state R (fun _ => hins st _ _ _ _ _ h) (fun _ => h)

theorem match_pub_preserves (st : SpinParser) (p : QString) (h : R st) :
    R (match_pub st p) := by
  unfold match_pub
  dsimp only
  exact ite_state R (fun _ => hins st _ _ _ _ _ h) (fun _ => h)

theorem match_object_preserves (fs : FileSystem)
    (rec : QString → QString → SpinParser → Except Fault SpinParser)
    (hrec : ∀ f n s, R s → ∀ s', rec f n s = .ok s' → R s')
    (st : SpinParser) (p : QString) (h : R st) :
    ∀ st', match_object fs rec st p = .ok st' → R st' := by
  unfold match_object
  dsimp only
  refine ite_ok _ (fun _ => bind_ok _ (fun r _ => ?_)) (fun _ => pure_ok _ h)
  obtain ⟨n, subnode, subfile⟩ := r
  dsimp only
  refine ite_ok _ (fun _ => pure_ok _ h) (fun _ => ?_)
  exact hrec _ _ _ (hins st _ _ _ _ _ h)

theorem dispatch_preserves (fs : FileSystem) (autocomplete : Bool)
    (rec : QString → QString → SpinParser → Except Fault SpinParser)
    (hrec : ∀ f n s, R s → ∀ s', rec f n s = .ok s' → R s')
    (state : SpinKind) (st : SpinParser) (line : QString) (h : R st) :
    ∀ st', dispatch fs autocomplete rec state st line = .ok st' → R st' := by
  unfold dispatch
  refine ite_ok _ (fun _ => ?_) (fun _ => ?_)
  · cases state
    · exact pure_ok _ h
    · exact pure_ok _ (match_constant_preserves R hins st line h)
    · exact pure_ok _ (match_pub_preserves R hins st line h)
    · exact pure_ok _ (match_pri_preserves R hins st line h)
    · exact match_object_preserves R hins fs rec hrec st line h
    · exact pure_ok _ (match_var_preserves R hins st line h)
    · exact pure_ok _ (match_dat_preserves R hins st line h)
  · cases state
    case K_OBJECT => exact match_object_preserves R hins fs rec hrec st line h
    all_goals exact pure_ok _ h

include hctx

theorem parseLines_preserves (fs : FileSystem) (autocomplete : Bool)
    (rec : QString → QString → SpinParser → Except Fault SpinParser)
    (hrec : ∀ f n s, R s → ∀ s', rec f n s = .ok s' → R s')
    (fileName objnode : QString) (lines : List QString) :
    ∀ (state : SpinKind) (blockComment : Bool) (st : SpinParser), R st →
      ∀ st', parseLines fs autocomplete rec fileName objnode lines state blockComment st =
        .ok st' → R st' := by
  induction lines with
  | nil =>
    intro state blockComment st h
    exact pure_ok _ h
  | cons raw rest ih =>
    intro state blockComment st h st' hres
    unfold parseLines at hres
    dsimp only at hres
    have h0 : R (SpinParser.mk st.db st.spinFiles st.libraryPath fileName objnode) :=
      hctx st fileName objnode h
    split at hres
    · exact ih _ _ (SpinParser.mk st.db st.spinFiles st.libraryPath fileName objnode) h0 _ hres
    · split at hres
      · cases hres
      · rename_i st1 hd
        exact ih _ _ st1 (dispatch_preserves R hins fs autocomplete rec hrec _
          (SpinParser.mk st.db st.spinFiles st.libraryPath fileName objnode) _ h0 _ hd) _ hres

theorem findSpinTagsBody_preserves (fs : FileSystem) (autocomplete : Bool)
    (rec : QString → QString → SpinParser → Except Fault SpinParser)
    (hrec : ∀ f n s, R s → ∀ s', rec f n s = .ok s' → R s')
    (fileName objnode : QString) (st : SpinParser) (h : R st) :
    ∀ st', findSpinTagsBody fs autocomplete rec fileName objnode st = .ok st' → R st' := by
  unfold findSpinTagsBody
  dsimp only
  refine ite_ok _ (fun _ => pure_ok _ h) (fun _ => ?_)
  split
  · exact pure_ok _ h
  · exact parseLines_preserves R hctx hins fs autocomplete rec hrec _ _ _ _ _ _ h

/-- A property of the parser state that survives a change of the parse context and the
insertion of a record holds after a walk if it held before. -/
theorem findSpinTags_preserves (fs : FileSystem) (autocomplete : Bool) (fuel : Nat) :
    ∀ (fileName objnode : QString) (st : SpinParser), R st →
      ∀ st', findSpinTags fs autocomplete fuel fileName objnode st = .ok st' → R st' := by
  induction fuel with
  | zero =>
    intro fileName objnode st _ st' hres
    simp [findSpinTags] at hres
  | succ fuel ih =>
    intro fileName objnode st h
    exact findSpinTagsBody_preserves R hctx hins fs autocomplete _ ih fileName objnode st h

end Preserved

end SpinParser
namespace SpinParser

/-! ## The list `spinFileTree` returns -/

theorem listAt_of_lt (l : List QString) (i : Nat) (h : i < l.length) :
    listAt l i = .ok (l.getD i []) := by
  simp only [listAt, List.get?_eq_getElem?, List.getD_eq_getElem?_getD]
  rw [List.getElem?_eq_getElem h]
  rfl

theorem listAt_last (l : List QString) (h : l ≠ []) :
    listAt l (l.length - 1) = .ok (l.getLastD []) := by
  have hlen : l.length - 1 < l.length := by
    cases l with
    | nil => exact absurd rfl h
    | cons a t => simp
  rw [listAt_of_lt l _ hlen]
  congr 1
  cases l with
  | nil => exact absurd rfl h
  | cons a t =>
    rw [List.getD_eq_getElem?_getD, List.getElem?_eq_getElem hlen, List.getLastD_eq_getLast?,
      List.getLast?_eq_getElem?]
    simp

theorem objectInfo_ok (value : QString) (h : 3 ≤ (split '\t' value).length)
    (name file : QString) :
    ∃ n sub, objectInfo value name file = .ok (n, sub, referredFile value) := by
  have h0 : (split '\t' value).length ≠ 0 := by omega
  have e0 := listAt_of_lt (split '\t' value) 0 (by omega)
  have e2 := listAt_of_lt (split '\t' value) 2 (by omega)
  simp only [referredFile, objectInfo, h0, ↓reduceIte, e0, e2, bind, Except.bind, pure,
    Except.pure]
  exact ⟨_, _, rfl⟩

theorem fileTreeStep_ok (db : DB) (acc : QString × QString × List QString) (key : QString)
    (h : 3 ≤ (split '\t' (DB.value db key)).length) :
    ∃ sub file, fileTreeStep db acc key =
      .ok (sub, file, if isObjectKey key = true
        then acc.2.2 ++ [referredFile (DB.value db key)] else acc.2.2) := by
  obtain ⟨a, b, c⟩ := acc
  obtain ⟨n, sub, hoi⟩ := objectInfo_ok (DB.value db key) h a b
  simp only [fileTreeStep, isObjectKey, listAt_last _ (split_ne_nil '/' key), bind,
    Except.bind, pure, Except.pure]
  match hk : split ':' ((split '/' key).getLastD []) with
  | [] => exact ⟨a, b, by simp⟩
  | [x] => exact ⟨a, b, by simp⟩
  | x :: y :: rest =>
    by_cases hxy : x = y
    · refine ⟨sub, referredFile (DB.value db key), ?_⟩
      simp [listAt, hxy, hoi]
    · exact ⟨a, b, by simp [listAt, hxy]⟩

theorem foldlM_fileTreeStep (db : DB) (hord : DB.Ordered db)
    (hval : ∀ kv ∈ db, 3 ≤ (split '\t' kv.2).length) (l : DB) :
    (∀ kv ∈ l, kv ∈ db) → ∀ (acc : QString × QString × List QString),
      ∃ sub file, (DB.keys l).foldlM (fileTreeStep db) acc =
        .ok (sub, file, acc.2.2 ++
          (l.filter (fun kv => isObjectKey kv.1)).map (fun kv => referredFile kv.2)) := by
  induction l with
  | nil => intro _ acc; exact ⟨acc.1, acc.2.1, by simp [DB.keys, pure, Except.pure]⟩
  | cons e rest ih =>
    intro hsub acc
    have he : e ∈ db := hsub e (List.mem_cons_self _ _)
    have hv : DB.value db e.1 = e.2 := DB.value_of_mem db hord e he
    obtain ⟨sub, file, hstep⟩ := fileTreeStep_ok db acc e.1 (by rw [hv]; exact hval e he)
    obtain ⟨sub', file', hrest⟩ :=
      ih (fun kv hkv => hsub kv (List.mem_cons_of_mem _ hkv))
        (sub, file, if isObjectKey e.1 = true
          then acc.2.2 ++ [referredFile (DB.value db e.1)] else acc.2.2)
    refine ⟨sub', file', ?_⟩
    simp only [DB.keys, List.map_cons, List.foldlM_cons, hstep, bind, Except.bind]
    simp only [DB.keys, bind, Except.bind] at hrest
    rw [hrest, hv]
    by_cases hobj : isObjectKey e.1 = true
    · simp [List.filter_cons, hobj]
    · simp [List.filter_cons, hobj]

end SpinParser
namespace SpinParser

/-- The state of a parse that started from a cleared database: the keys are in ascending
order, every value has at least four fields, and the object-file list is still empty. -/
theorem findSpinTags_from_cleared (fs : FileSystem) (autocomplete : Bool) (fuel : Nat)
    (file node : QString) (st st1 : SpinParser)
    (h : findSpinTags fs autocomplete fuel file node (clearDB st) = .ok st1) :
    DB.Ordered st1.db ∧ (∀ kv ∈ st1.db, 4 ≤ (split '\t' kv.2).length) ∧
      st1.spinFiles = [] := by
  refine findSpinTags_preserves
    (fun s => DB.Ordered s.db ∧ (∀ kv ∈ s.db, 4 ≤ (split '\t' kv.2).length) ∧
      s.spinFiles = [])
    (fun s _ _ hs => hs) ?_ fs autocomplete fuel file node (clearDB st) ?_ st1 h
  · intro s key name file line letter hs
    refine ⟨DB.ordered_insert _ _ _ hs.1, fun kv hkv => ?_, hs.2.2⟩
    rcases DB.mem_insert _ _ _ _ hkv with hkv | hkv
    · rw [hkv]; exact four_le_length_split_mkTag _ _ _ _
    · exact hs.2.1 kv hkv
  · exact ⟨List.Pairwise.nil, fun kv hkv => absurd hkv (List.not_mem_nil kv), rfl⟩

theorem map_ok {α β : Type} (f : α → β) (r : Except Fault α) (b : β)
    (h : r.map f = .ok b) : ∃ a, r = .ok a ∧ f a = b := by
  cases r with
  | error e => simp [Except.map] at h
  | ok a =>
    simp only [Except.map, Except.ok.injEq] at h
    exact ⟨a, rfl, h⟩

/-- C5, amended: when the walk from the root file ends, `spinFileTree` returns the base
name of the root file followed by one entry for each database key whose last `/` segment
has the shape `name:name`, in the ascending order of the keys of the database (not in
the order in which the walk reached the `OBJ` lines); the entry is the file reference
read from the record, with `.spin` appended when missing and with its directory part
kept. -/
theorem spinFileTree_key_order (fs : FileSystem) (autocomplete : Bool) (fuel : Nat)
    (st : SpinParser) (file libpath : QString) (db1 : DB)
    (h : (findSpinTags fs autocomplete fuel file "root".toList
      (clearDB { st with libraryPath := libpath })).map SpinParser.db = .ok db1) :
    DB.Ordered db1 ∧
    (spinFileTree fs autocomplete fuel st file libpath).map Prod.fst =
      .ok (midFrom file (lastIndexOf file '/' + 1) ::
        (db1.filter (fun kv => isObjectKey kv.1)).map (fun kv => referredFile kv.2)) := by
  obtain ⟨st1, hst, hdb⟩ := map_ok _ _ _ h
  subst hdb
  obtain ⟨hord, hval, hfiles⟩ :=
    findSpinTags_from_cleared fs autocomplete fuel file _ _ st1 hst
  obtain ⟨sub, f, hfold⟩ := foldlM_fileTreeStep st1.db hord
    (fun kv hkv => Nat.le_of_succ_le (hval kv hkv)) st1.db (fun _ hkv => hkv)
    ([], [], st1.spinFiles ++ [midFrom file (lastIndexOf file '/' + 1)])
  refine ⟨hord, ?_⟩
  simp only [spinFileTree, hst, bind, Except.bind, hfold, pure, Except.pure, Except.map]
  rw [hfiles]
  rfl

/-- C5, amended, at the project with the instances `b` of `first` and `a` of
`lib/second`: the walk ends with the database `dbTwoObjects`, whose keys `root/a:a` and
`root/b:b` are in ascending order, and the list follows them. -/
theorem spinFileTree_key_order_two_objects :
    (findSpinTags fsTwoObjects true 2 "root.spin".toList "root".toList
      (clearDB { fresh with libraryPath := [] })).map SpinParser.db = .ok dbTwoObjects ∧
    DB.Ordered dbTwoObjects ∧
    (spinFileTree fsTwoObjects true 2 fresh "root.spin".toList []).map Prod.fst =
      .ok (midFrom "root.spin".toList (lastIndexOf "root.spin".toList '/' + 1) ::
        (dbTwoObjects.filter (fun kv => isObjectKey kv.1)).map
          (fun kv => referredFile kv.2)) :=
  ⟨by decide!,
   spinFileTree_key_order fsTwoObjects true 2 fresh "root.spin".toList [] dbTwoObjects
     (by decide!)⟩

end SpinParser
namespace SpinParser

/-! ## Evaluations of the extractors and of the object keys -/

/-- C12: the line `long a, , b` in VAR state under node `root` inserts, besides the
records of `a` and `b`, a record with an empty name under the key `root:`; so does the
line `long [3]`. -/
theorem match_var_inserts_empty_name :
    (match_var atRoot "long a, , b".toList).db =
      [("root:".toList, "\troot.spin\tlong a, , b\tv".toList),
       ("root:a".toList, "a\troot.spin\tlong a, , b\tv".toList),
       ("root:b".toList, "b\troot.spin\tlong a, , b\tv".toList)] ∧
    (match_var atRoot "long [3]".toList).db =
      [("root:".toList, "\troot.spin\tlong [3]\tv".toList)] := by
  decide

/-- C13: the `OBJ` line `myobj : "ser"`, whose file `ser.spin` exists, is stored with an
empty instance name under the key `root/:`, and the symbols of `ser.spin` go under the
node `root/`. -/
theorem match_object_cuts_myobj :
    (spinFileTree fsMyObj true 2 fresh "root.spin".toList []).map (fun r => r.2.db) =
      .ok [("root/:".toList, "\troot.spin\tmyobj : \"ser\"\to".toList),
           ("root/:tx".toList, "tx\tser.spin\tPUB tx\tf".toList)] := by
  decide!

/-- C15: a root file with the line `PUB root` leaves the key `root:root`, whose last
segment has the shape `name:name`, holding a record of kind `f`; `spinFileTree` takes it
for an object and appends `PUB root.spin` after the root. -/
theorem method_named_like_node_has_object_key :
    (spinFileTree fsPubRoot true 1 fresh "root.spin".toList []).map (fun r => r.2.db) =
      .ok [("root:root".toList, "root\troot.spin\tPUB root\tf".toList)] ∧
    isObjectKey "root:root".toList = true ∧
    (spinFileTree fsPubRoot true 1 fresh "root.spin".toList []).map Prod.fst =
      .ok ["root.spin".toList, "PUB root.spin".toList] := by
  decide!

end SpinParser

/-! ## Facts about `indexOf` and `mid` -/

theorem indexOfOpt_eq_zero_iff (cs : CaseSensitivity) (pat s : QString) :
    indexOfOpt cs pat s = some 0 ↔ startsWith cs pat s = true := by
  cases s with
  | nil => cases pat <;> simp [indexOfOpt, startsWith]
  | cons c s =>
    simp only [indexOfOpt]
    split
    · simp_all
    · rename_i h
      simp only [Bool.not_eq_true] at h
      simp [h]

theorem indexOf_eq_zero_iff (cs : CaseSensitivity) (pat s : QString) :
    indexOf s pat cs = 0 ↔ startsWith cs pat s = true := by
  rw [← indexOfOpt_eq_zero_iff]
  simp only [indexOf]
  split
  · rename_i i h
    rw [h]
    simp
  · rename_i h
    rw [h]
    simp

theorem indexOfOpt_char (c : Char) (s : QString) :
    indexOfOpt CaseSensitive [c] s =
      if c ∈ s then some (s.takeWhile (fun d => d != c)).length else none := by
  induction s with
  | nil => simp [indexOfOpt]
  | cons d s ih =>
    simp only [indexOfOpt, startsWith, charEq, Bool.and_true, beq_iff_eq, ih, List.mem_cons]
    by_cases h : c = d
    · subst h; simp
    · have h' : ¬ d = c := fun e => h e.symm
      by_cases hm : c ∈ s
      · simp [h, h', hm]
      · simp [h, h', hm]

theorem mid_zero_natCast (s : QString) (n : Nat) : mid s 0 (n : Int) = s.take n := by
  simp [mid]

/-- Cutting a string in front of the first `c`, as the extractors do. -/
theorem cut_at_char (c : Char) (s : QString) :
    (if indexOf s [c] CaseSensitive ≥ 0 then mid s 0 (indexOf s [c] CaseSensitive) else s) =
      s.takeWhile (fun d => d != c) := by
  simp only [indexOf, indexOfOpt_char]
  by_cases hm : c ∈ s
  · simp only [hm, ↓reduceIte, ge_iff_le, Int.natCast_nonneg, mid_zero_natCast]
    induction s with
    | nil => simp
    | cons d s ih =>
      by_cases h : d = c
      · simp [h]
      · have hm' : c ∈ s := by
          rcases List.mem_cons.1 hm with e | e
          · exact absurd e.symm h
          · exact e
        simp [h, ih hm']
  · simp only [hm, ↓reduceIte]
    have : ¬ ((-1 : Int) ≥ 0) := by decide
    simp only [this, ↓reduceIte]
    symm
    rw [List.takeWhile_eq_self_iff]
    intro d hd
    simp only [bne_iff_ne, ne_eq]
    rintro rfl
    exact hm hd

namespace SpinParser

theorem methodName_eq (p : QString) :
    methodName p =
      trimmed ((p.drop 4).takeWhile (fun c => c != '|' && c != ':' && c != '(')) := by
  have h4 : midFrom p 4 = p.drop 4 := midFrom_natCast p 4
  simp only [methodName, h4, cut_at_char, List.takeWhile_takeWhile]
  congr 2
  funext c
  simp only [Bool.decide_and, Bool.decide_eq_true, Bool.and_assoc]
  cases (c != '|') <;> cases (c != ':') <;> cases (c != '(') <;> rfl

end SpinParser
namespace SpinParser

/-- C11: for every line that begins case-insensitively with `pub` (resp. `pri`),
`match_pub` (resp. `match_pri`) inserts exactly one record; its name is the line with its
first four characters dropped, cut in front of the earliest `|`, `:` or `(` (the whole
remainder when there is none) and trimmed, its key is `objectNode:name` and its kind
letter is `f` (resp. `p`). -/
theorem match_pub_pri_name (st : SpinParser) (p : QString) :
    (startsWith CaseInsensitive "pub".toList p = true →
      (match_pub st p).db =
        DB.insert
          (st.objectNode ++ [':'] ++
            trimmed ((p.drop 4).takeWhile (fun c => c != '|' && c != ':' && c != '(')))
          (trimmed ((p.drop 4).takeWhile (fun c => c != '|' && c != ':' && c != '(')) ++
            ['\t'] ++ st.currentFile ++ ['\t'] ++ p ++ ['\t'] ++ ['f'])
          st.db) ∧
    (startsWith CaseInsensitive "pri".toList p = true →
      (match_pri st p).db =
        DB.insert
          (st.objectNode ++ [':'] ++
            trimmed ((p.drop 4).takeWhile (fun c => c != '|' && c != ':' && c != '(')))
          (trimmed ((p.drop 4).takeWhile (fun c => c != '|' && c != ':' && c != '(')) ++
            ['\t'] ++ st.currentFile ++ ['\t'] ++ p ++ ['\t'] ++ ['p'])
          st.db) := by
  constructor
  · intro h
    have h0 := (indexOf_eq_zero_iff CaseInsensitive "pub".toList p).2 h
    simp only [match_pub, h0, ↓reduceIte, methodName_eq]
    rfl
  · intro h
    have h0 := (indexOf_eq_zero_iff CaseInsensitive "pri".toList p).2 h
    simp only [match_pri, h0, ↓reduceIte, methodName_eq]
    rfl

/-- C11, scenario C: the line `PUB start(pin) : ok | tmp` under node `root` begins with
`pub` and leaves exactly one record, `root:start` of kind `f`; no record is named `ok`,
`tmp` or `pin`. -/
theorem match_pub_scenario :
    startsWith CaseInsensitive "pub".toList "PUB start(pin) : ok | tmp".toList = true ∧
    (match_pub atRoot "PUB start(pin) : ok | tmp".toList).db =
      [("root:start".toList, "start\troot.spin\tPUB start(pin) : ok | tmp\tf".toList)] :=
  ⟨by decide,
   ((match_pub_pri_name atRoot "PUB start(pin) : ok | tmp".toList).1 (by decide)).trans
     (by decide)⟩

end SpinParser
namespace SpinParser

/-! ## `match_object` in one equation -/

theorem objectInfo_eq (value : QString) (h : 3 ≤ (split '\t' value).length)
    (name file : QString) :
    objectInfo value name file =
      .ok ((split '\t' value).length, subnodeOf value, referredFile value) := by
  obtain ⟨n, sub, h1⟩ := objectInfo_ok value h name file
  have h0 : (split '\t' value).length ≠ 0 := by omega
  have e0 := listAt_of_lt (split '\t' value) 0 (by omega)
  have e2 := listAt_of_lt (split '\t' value) 2 (by omega)
  have h2 : (objectInfo value name file).map (fun r => (r.1, r.2.1)) =
      .ok ((split '\t' value).length, subnodeOf value) := by
    unfold objectInfo
    simp only [h0, ↓reduceIte, e0, e2, bind, Except.bind, pure, Except.pure]
    rfl
  rw [h1] at h2
  simp only [Except.map, Except.ok.injEq, Prod.mk.injEq] at h2
  rw [h1, h2.1, h2.2]

theorem match_object_unfold (fs : FileSystem)
    (rec : QString → QString → SpinParser → Except Fault SpinParser)
    (st : SpinParser) (p : QString) :
    match_object fs rec st p =
      if objectLen p > 0 then
        objectInfo (objectTag st.currentFile p) [] [] >>= fun r =>
          if fs.fileExists (checkFile fs st r.2.2) = false then pure st
          else rec r.2.2 (st.objectNode ++ ['/'] ++ r.2.1)
            (SpinParser.mk
              (DB.insert (st.objectNode ++ ['/'] ++ r.2.1 ++ KEY_ELEMENT_SEP ++ objectName p)
                (objectTag st.currentFile p) st.db)
              st.spinFiles st.libraryPath st.currentFile st.objectNode)
      else pure st := by
  rfl

/-- `match_object` either returns the state as it is, or inserts the record of the line
under `objectNode/subnode:name` and hands over to the recursive call. -/
theorem match_object_eq (fs : FileSystem)
    (rec : QString → QString → SpinParser → Except Fault SpinParser)
    (st : SpinParser) (p : QString) :
    match_object fs rec st p =
      if descends fs st p = true then
        rec (referredFile (objectTag st.currentFile p))
          (st.objectNode ++ ['/'] ++ subnodeOf (objectTag st.currentFile p))
          (SpinParser.mk
            (DB.insert (st.objectNode ++ ['/'] ++ subnodeOf (objectTag st.currentFile p) ++
              KEY_ELEMENT_SEP ++ objectName p) (objectTag st.currentFile p) st.db)
            st.spinFiles st.libraryPath st.currentFile st.objectNode)
      else .ok st := by
  have hoi := objectInfo_eq (objectTag st.currentFile p)
    (by have := four_le_length_split_mkTag (objectName p) st.currentFile p
          [SpinKinds_letter K_OBJECT]
        simp only [objectTag]; omega) [] []
  rw [match_object_unfold, hoi]
  by_cases hlen : objectLen p > 0
  · by_cases hex : fs.fileExists
        (checkFile fs st (referredFile (objectTag st.currentFile p))) = true
    · have hd : descends fs st p = true := by simp [descends, hlen, hex]
      simp only [hlen, hd, ↓reduceIte, bind, Except.bind, hex, Bool.true_eq_false]
    · have hd : ¬ descends fs st p = true := by simp [descends, hex]
      simp only [Bool.not_eq_true] at hex
      simp only [hlen, hd, ↓reduceIte, bind, Except.bind, hex, pure, Except.pure,
        Bool.false_eq_true]
  · have hd : ¬ descends fs st p = true := by simp [descends, hlen]
    simp only [hlen, hd, ↓reduceIte, pure, Except.pure, Bool.false_eq_true]

end SpinParser
namespace SpinParser

/-- C14: when the file `checkFile` returns for the reference of an `OBJ`-state line does
not exist, `match_object` returns the parser state as it found it, whatever the
recursive call would do: the database is unchanged, the walk does not descend, and no
fault is reported. -/
theorem match_object_unresolved (fs : FileSystem)
    (rec : QString → QString → SpinParser → Except Fault SpinParser)
    (st : SpinParser) (p : QString)
    (h : fs.fileExists (checkFile fs st (referredFile (objectTag st.currentFile p))) = false) :
    match_object fs rec st p = .ok st := by
  rw [match_object_eq]
  have hd : ¬ descends fs st p = true := by simp [descends, h]
  rw [if_neg hd]

/-- C14, at the line `lcd : "display"` in a file system that has no `display.spin`: the
state comes back unchanged even when every recursive call would fail. -/
theorem match_object_unresolved_display :
    fsPubRoot.fileExists (checkFile fsPubRoot atRoot
      (referredFile (objectTag atRoot.currentFile "lcd : \"display\"".toList))) = false ∧
    match_object fsPubRoot (fun _ _ _ => .error Fault.outOfFuel) atRoot
      "lcd : \"display\"".toList = .ok atRoot :=
  ⟨by decide, match_object_unresolved fsPubRoot _ atRoot _ (by decide)⟩

end SpinParser

/-! ## Lines inside a block comment -/

theorem contains_char (c : Char) (s : QString) :
    contains s [c] CaseSensitive = decide (c ∈ s) := by
  simp only [contains, indexOfOpt_char]
  by_cases h : c ∈ s <;> simp [h]

theorem mem_of_mem_trimmed (c : Char) (s : QString) (h : c ∈ trimmed s) : c ∈ s := by
  simp only [trimmed, List.mem_reverse] at h
  exact (List.dropWhile_suffix _).subset ((List.dropWhile_suffix _).subset h |> List.mem_reverse.1)

namespace SpinParser

theorem stripLine_inside (raw : QString) (h1 : '{' ∉ raw) (h2 : '}' ∉ raw) :
    stripLine true raw = (true, none) := by
  have c1 : contains (trimmed raw) ['{'] CaseSensitive = false := by
    rw [contains_char]
    exact decide_eq_false (fun h => h1 (mem_of_mem_trimmed _ _ h))
  have c2 : contains (trimmed raw) ['}'] CaseSensitive = false := by
    rw [contains_char]
    exact decide_eq_false (fun h => h2 (mem_of_mem_trimmed _ _ h))
  simp [stripLine, c1, c2]

/-- C16: lines that hold neither `{` nor `}` and are reached with the block-comment flag
set are passed over, however many they are: the walk goes on with the lines after them
with the same database, the same section state and the flag still set. -/
theorem block_comment_lines_skipped (fs : FileSystem) (autocomplete : Bool)
    (rec : QString → QString → SpinParser → Except Fault SpinParser)
    (fileName objnode : QString) (block rest : List QString) (state : SpinKind)
    (st : SpinParser) (hne : block ≠ [])
    (hblock : ∀ raw ∈ block, '{' ∉ raw ∧ '}' ∉ raw) :
    parseLines fs autocomplete rec fileName objnode (block ++ rest) state true st =
      parseLines fs autocomplete rec fileName objnode rest state true
        (SpinParser.mk st.db st.spinFiles st.libraryPath fileName objnode) := by
  induction block generalizing st with
  | nil => exact absurd rfl hne
  | cons raw more ih =>
    have hraw := hblock raw (List.mem_cons_self _ _)
    have hstep : ∀ tail, parseLines fs autocomplete rec fileName objnode (raw :: tail) state
        true st = parseLines fs autocomplete rec fileName objnode tail state true
          (SpinParser.mk st.db st.spinFiles st.libraryPath fileName objnode) := by
      intro tail
      rw [parseLines]
      simp only [stripLine_inside raw hraw.1 hraw.2]
    rw [List.cons_append, hstep]
    cases more with
    | nil => rfl
    | cons r2 more2 =>
      exact ih _ (List.cons_ne_nil _ _) (fun r hr => hblock r (List.mem_cons_of_mem _ hr))

/-- C16, scenario F: in the file with a `{` line, two `PUB foo` lines and a `}` line the
two `PUB foo` lines are passed over, and the parse of the file leaves the database
empty. -/
theorem block_comment_scenario :
    (∀ raw ∈ ["PUB foo".toList, "PUB foo".toList], '{' ∉ raw ∧ '}' ∉ raw) ∧
    parseLines fsBlockComment true (findSpinTags fsBlockComment true 0) "root.spin".toList
        "root".toList (["PUB foo".toList, "PUB foo".toList] ++ [['}']]) K_CONST true fresh =
      parseLines fsBlockComment true (findSpinTags fsBlockComment true 0) "root.spin".toList
        "root".toList [['}']] K_CONST true
        (SpinParser.mk fresh.db fresh.spinFiles fresh.libraryPath "root.spin".toList
          "root".toList) ∧
    (spinFileTree fsBlockComment true 1 fresh "root.spin".toList []).map (fun r => r.2.db) =
      .ok [] :=
  ⟨by decide,
   block_comment_lines_skipped fsBlockComment true _ _ _ _ _ K_CONST fresh (by decide)
     (by decide),
   by decide!⟩

end SpinParser

/-! ## Facts about `trimmed` -/

theorem trimmed_eq_rdropWhile (s : QString) :
    trimmed s = (s.dropWhile isSpace).rdropWhile isSpace := rfl

theorem dropWhile_eq_cons (p : Char → Bool) (s : QString) (a : Char) (rest : QString)
    (h : s.dropWhile p = a :: rest) : p a = false := by
  induction s with
  | nil => simp at h
  | cons c s ih =>
    by_cases hc : p c = true
    · simp only [List.dropWhile_cons, hc, ↓reduceIte] at h
      exact ih h
    · simp only [List.dropWhile_cons, hc, Bool.false_eq_true, ↓reduceIte, List.cons.injEq] at h
      rw [← h.1]
      simpa using hc

theorem dropWhile_trimmed (s : QString) : (trimmed s).dropWhile isSpace = trimmed s := by
  obtain ⟨r, hr⟩ := List.rdropWhile_prefix isSpace (l := s.dropWhile isSpace)
  rw [← trimmed_eq_rdropWhile] at hr
  cases ht : trimmed s with
  | nil => rfl
  | cons a t =>
    rw [ht, List.cons_append] at hr
    have ha := dropWhile_eq_cons isSpace s a _ hr.symm
    simp [List.dropWhile_cons, ha]

theorem trimmed_trimmed (s : QString) : trimmed (trimmed s) = trimmed s := by
  conv_lhs => rw [trimmed_eq_rdropWhile, dropWhile_trimmed, trimmed_eq_rdropWhile]
  rw [List.rdropWhile_idempotent, ← trimmed_eq_rdropWhile]

namespace SpinParser

/-! ## The section state -/

theorem classifyLoop_line_of_trimmed (kws : List KeyWord) (state : SpinKind) (line : QString)
    (h : trimmed line = line) : (classifyLoop kws state line).2 = line := by
  induction kws with
  | nil => rfl
  | cons kw rest ih =>
    simp only [classifyLoop, h]
    split
    · exact ih
    · split
      · split
        · rfl
        · exact ih
      · exact ih

theorem classifyLoop_line (state : SpinKind) (line : QString) :
    (classifyLoop spin_keywords state line).2 = trimmed line := by
  have h := classifyLoop_line_of_trimmed [keyObj, keyPub, keyPri, keyVar, keyDat, keyNull]
    state (trimmed line) (trimmed_trimmed line)
  rw [spin_keywords, classifyLoop]
  have hk : ¬ keyCon.kind = K_NONE := by decide
  simp only [hk, ↓reduceIte]
  split
  · split
    · rfl
    · exact h
  · exact h

theorem classifyLoop_state (kws : List KeyWord) (state : SpinKind) (line : QString) :
    (classifyLoop kws state line).1 =
      if (classifyLoop kws K_NONE line).1 ≠ K_NONE then (classifyLoop kws K_NONE line).1
      else state := by
  induction kws generalizing line with
  | nil => simp [classifyLoop]
  | cons kw rest ih =>
    simp only [classifyLoop]
    split
    · exact ih line
    · split
      · split
        · rename_i hty
          simp only [ne_eq, hty, not_false_eq_true, ↓reduceIte]
        · exact ih (trimmed line)
      · exact ih (trimmed line)

end SpinParser

/-! ## The keyword loop -/

theorem c_tolower_cases (c t : Char) (h : c_tolower c = t) :
    c = t ∨ c = Char.ofNat (t.toNat - 32) := by
  unfold c_tolower at h
  split at h
  · right
    rename_i hu
    have hv : (c.toNat + 32).isValidChar := by
      left; omega
    have ht : t.toNat = c.toNat + 32 := by
      rw [← h]
      simp only [Char.ofNat, hv, ↓reduceDIte]
      rfl
    rw [ht, Nat.add_sub_cancel]
    exact (Char.ofNat_toNat c).symm
  · left; exact h

end SimpleIDE

namespace SimpleIDE
open SpinParser CaseSensitivity SpinKind Examples
namespace SpinParser

theorem keywordAtStart_three (t0 t1 t2 : Char) (l : QString)
    (h : keywordAtStart [t0, t1, t2] l = true) (hd : l.drop 3 = []) :
    ∃ a b c, l = [a, b, c] ∧ (a = t0 ∨ a = Char.ofNat (t0.toNat - 32)) ∧
      (b = t1 ∨ b = Char.ofNat (t1.toNat - 32)) ∧
      (c = t2 ∨ c = Char.ofNat (t2.toNat - 32)) := by
  match l, h, hd with
  | [a, b, c], h, _ =>
    simp only [keywordAtStart, Bool.and_true, Bool.and_eq_true, beq_iff_eq] at h
    exact ⟨a, b, c, rfl, c_tolower_cases _ _ h.1, c_tolower_cases _ _ h.2.1,
      c_tolower_cases _ _ h.2.2⟩
  | [], h, _ => simp [keywordAtStart] at h
  | [_], h, _ => simp [keywordAtStart] at h
  | [_, _], h, _ => simp [keywordAtStart] at h
  | _ :: _ :: _ :: _ :: _, _, hd => simp at hd

/-- On a line that is just a keyword, in either case, `tokentype` finds its kind. -/
theorem tokentype_exact (kw : KeyWord)
    (hkw : kw ∈ [keyCon, keyObj, keyPub, keyPri, keyVar, keyDat]) (l : QString)
    (h : keywordAtStart kw.token l = true) (hd : l.drop kw.token.length = []) :
    tokentype l = kw.kind := by
  simp only [List.mem_cons, List.mem_singleton, List.not_mem_nil, or_false] at hkw
  rcases hkw with rfl | rfl | rfl | rfl | rfl | rfl <;>
    (obtain ⟨a, b, c, rfl, ha, hb, hc⟩ := keywordAtStart_three _ _ _ l h hd
     rcases ha with rfl | rfl <;> rcases hb with rfl | rfl <;> rcases hc with rfl | rfl <;>
       decide)

theorem tokentype_token (kw : KeyWord)
    (hkw : kw ∈ [keyCon, keyObj, keyPub, keyPri, keyVar, keyDat]) :
    tokentype kw.token = kw.kind ∧ kw.kind ≠ K_NONE ∧ kw.skip = 0 := by
  simp only [List.mem_cons, List.mem_singleton, List.not_mem_nil, or_false] at hkw
  rcases hkw with rfl | rfl | rfl | rfl | rfl | rfl <;> decide

theorem takeWhile_name_nonempty (x : QString)
    (hx : ∀ d t, x = d :: t → c_isspace d = false) :
    decide ((x.takeWhile (fun c => !(c_isspace c || c == '(' || c == ','))).length > 0) =
      nameFollows x := by
  cases x with
  | nil => simp [nameFollows]
  | cons d t =>
    have hd := hx d t rfl
    by_cases h1 : d = '('
    · subst h1; simp [List.takeWhile_cons, nameFollows]
    · by_cases h2 : d = ','
      · subst h2; simp [List.takeWhile_cons, nameFollows]
      · simp [List.takeWhile_cons, hd, h1, h2, nameFollows]

theorem extract_name_nonempty (c : Char) (rest : QString) :
    decide ((extract_names (1 + 0) (c :: rest) []).2.length > 0) =
      nameFollows ((c :: rest).dropWhile c_isspace) :=
  takeWhile_name_nonempty ((c :: rest).dropWhile c_isspace)
    (fun d t h => dropWhile_eq_cons c_isspace (c :: rest) d t h)

/-- `match_keyword` on the C string of a line gives the kind of the keyword when the line
is a keyword line for it and `K_NONE` otherwise. -/
theorem match_keyword_eq (kw : KeyWord)
    (hkw : kw ∈ [keyCon, keyObj, keyPub, keyPri, keyVar, keyDat]) (l : QString) :
    match_keyword l kw = if keywordLine kw.token l = true then kw.kind else K_NONE := by
  obtain ⟨htok, _, hskip⟩ := tokentype_token kw hkw
  unfold match_keyword keywordLine
  by_cases hs : keywordAtStart kw.token l = true
  · simp only [hs, Bool.not_true, Bool.false_eq_true, ↓reduceIte, Bool.true_and]
    cases hd : l.drop kw.token.length with
    | nil =>
      simp only [↓reduceIte]
      exact tokentype_exact kw hkw l hs hd
    | cons c rest =>
      by_cases hc : c_isspace c = true
      · have hn := extract_name_nonempty c rest
        simp only [hc, Bool.not_true, Bool.false_eq_true, ↓reduceIte, Bool.true_and, hskip,
          htok]
        rw [← hn]
        by_cases hl : (extract_names (1 + 0) (c :: rest) []).2.length > 0
        · simp [hl]
        · simp [hl]
      · simp [hc]
  · simp [hs]

end SpinParser

theorem foldCase_lower (t : Char) (h1 : 0x61 ≤ t.toNat) (h2 : t.toNat ≤ 0x7a) :
    foldCase t = t := by
  simp only [foldCase]
  split_ifs <;> first | rfl | omega

theorem charEq_of_c_tolower (t c : Char) (h1 : 0x61 ≤ t.toNat) (h2 : t.toNat ≤ 0x7a)
    (h : c_tolower (if c.toNat ≤ 0xff then c else '?') = t) :
    charEq CaseInsensitive t c = true := by
  simp only [charEq, beq_iff_eq, foldCase_lower t h1 h2]
  by_cases hc : c.toNat ≤ 0xff
  · simp only [hc, ↓reduceIte] at h
    unfold c_tolower at h
    split at h
    · rename_i hu
      simp only [foldCase, hu, and_self, ↓reduceIte]
      exact h.symm
    · subst h
      exact (foldCase_lower c h1 h2).symm
  · simp only [hc, ↓reduceIte] at h
    have : c_tolower '?' = '?' := by decide
    rw [this] at h
    subst h
    exact absurd h1 (by decide)

namespace SpinParser

/-- A C string that starts with a keyword comes from a line that starts with it in the
sense of `QString::indexOf`. -/
theorem startsWith_of_keywordAtStart (token : QString)
    (htok : ∀ t ∈ token, 0x61 ≤ t.toNat ∧ t.toNat ≤ 0x7a) (s : QString)
    (h : keywordAtStart token (cstr (toLatin1 s)) = true) :
    startsWith CaseInsensitive token s = true := by
  induction token generalizing s with
  | nil => cases s <;> rfl
  | cons t ts ih =>
    cases s with
    | nil => simp [keywordAtStart, cstr, toLatin1] at h
    | cons c s' =>
      have hcons : cstr (toLatin1 (c :: s')) =
          if ((if c.toNat ≤ 0xff then c else '?').toNat != 0) = true
          then (if c.toNat ≤ 0xff then c else '?') :: cstr (toLatin1 s') else [] := by
        simp only [cstr, toLatin1, List.map_cons, List.takeWhile_cons]
      rw [hcons] at h
      by_cases hz : ((if c.toNat ≤ 0xff then c else '?').toNat != 0) = true
      · rw [if_pos hz] at h
        simp only [keywordAtStart, Bool.and_eq_true, beq_iff_eq] at h
        have ht := htok t (List.mem_cons_self _ _)
        simp only [startsWith, Bool.and_eq_true]
        exact ⟨charEq_of_c_tolower t c ht.1 ht.2 h.1,
          ih (fun t' ht' => htok t' (List.mem_cons_of_mem _ ht')) s' h.2⟩
      · rw [if_neg hz] at h
        simp [keywordAtStart] at h

theorem token_lower (kw : KeyWord)
    (hkw : kw ∈ [keyCon, keyObj, keyPub, keyPri, keyVar, keyDat]) :
    ∀ t ∈ kw.token, 0x61 ≤ t.toNat ∧ t.toNat ≤ 0x7a := by
  simp only [List.mem_cons, List.mem_singleton, List.not_mem_nil, or_false] at hkw
  rcases hkw with rfl | rfl | rfl | rfl | rfl | rfl <;> decide

theorem classifyLoop_find (kws : List KeyWord)
    (hk : ∀ kw ∈ kws, kw ∈ [keyCon, keyObj, keyPub, keyPri, keyVar, keyDat])
    (state : SpinKind) (line : QString) :
    (classifyLoop (kws ++ [keyNull]) state line).1 =
      match kws.find? (fun kw => keywordLine kw.token (cstr (toLatin1 (trimmed line)))) with
      | some kw => kw.kind
      | none => state := by
  induction kws generalizing line with
  | nil => rfl
  | cons kw rest ih =>
    have hkw := hk kw (List.mem_cons_self _ _)
    have hrest := ih (fun k hk' => hk k (List.mem_cons_of_mem _ hk')) (trimmed line)
    rw [trimmed_trimmed] at hrest
    obtain ⟨_, hkind, _⟩ := tokentype_token kw hkw
    have hmk := match_keyword_eq kw hkw (cstr (toLatin1 (trimmed line)))
    simp only [List.cons_append, classifyLoop, hkind, ↓reduceIte, List.find?_cons]
    by_cases hline : keywordLine kw.token (cstr (toLatin1 (trimmed line))) = true
    · have hstart : keywordAtStart kw.token (cstr (toLatin1 (trimmed line))) = true := by
        simp only [keywordLine, Bool.and_eq_true] at hline
        exact hline.1
      have hguard := (indexOf_eq_zero_iff CaseInsensitive kw.token (trimmed line)).2
        (startsWith_of_keywordAtStart kw.token (token_lower kw hkw) _ hstart)
      rw [hline] at hmk
      simp only [↓reduceIte] at hmk
      simp only [hguard, ↓reduceIte, hmk, ne_eq, hkind, not_false_eq_true, hline]
    · simp only [Bool.not_eq_true] at hline
      rw [hline] at hmk
      simp only [Bool.false_eq_true, ↓reduceIte] at hmk
      simp only [hmk, ne_eq, not_true_eq_false, ↓reduceIte, ite_self, hline]
      exact hrest

/-- C19, amended: the keyword loop of the full mode yields, for every line, the kind of
the first keyword of `con`, `obj`, `pub`, `pri`, `var`, `dat` for which the trimmed
line, seen as a C string in Latin-1, starts with the keyword in either case and then
either ends or goes on with white space followed by a character other than `(` and `,`;
when there is no such keyword it yields `K_NONE`. -/
theorem classifiedKind_eq (line : QString) :
    classifiedKind line =
      match [keyCon, keyObj, keyPub, keyPri, keyVar, keyDat].find?
          (fun kw => keywordLine kw.token (cstr (toLatin1 (trimmed line)))) with
      | some kw => kw.kind
      | none => K_NONE :=
  classifyLoop_find [keyCon, keyObj, keyPub, keyPri, keyVar, keyDat] (fun _ h => h) K_NONE
    line

/-- C19, refuted: the line `PUB (x)` begins with `PUB` followed by white space and the
keyword loop yields `K_NONE` for it, as it does for `DAT ,`; it yields `K_PUB` for
`PUB x`, `K_CONST` for `con`, and `K_NONE` for `CONSTANT = 1`. -/
theorem keyword_without_name_not_classified :
    classifiedKind "PUB (x)".toList = K_NONE ∧
    classifiedKind "DAT ,".toList = K_NONE ∧
    classifiedKind "PUB x".toList = K_PUB ∧
    classifiedKind "con".toList = K_CONST ∧
    classifiedKind "CONSTANT = 1".toList = K_NONE := by
  decide

end SpinParser

namespace SpinParser

/-! ## One step of the loop over the lines -/

theorem checkFile_congr (fs : FileSystem) (st st' : SpinParser) (fileName : QString)
    (hl : st.libraryPath = st'.libraryPath) (hc : st.currentFile = st'.currentFile) :
    checkFile fs st fileName = checkFile fs st' fileName := by
  unfold checkFile
  rw [hl, hc]

theorem checkFile_of_exists (fs : FileSystem) (st : SpinParser) (fileName : QString)
    (h : fs.fileExists fileName = true) : checkFile fs st fileName = fileName := by
  unfold checkFile
  simp only [h, ↓reduceIte]

theorem descends_congr (fs : FileSystem) (st st' : SpinParser) (p : QString)
    (hl : st.libraryPath = st'.libraryPath) (hc : st.currentFile = st'.currentFile) :
    descends fs st p = descends fs st' p := by
  unfold descends
  rw [checkFile_congr fs st st' _ hl hc, hc]

theorem parseLines_skip (fs : FileSystem) (autocomplete : Bool)
    (rec : QString → QString → SpinParser → Except Fault SpinParser)
    (fileName objnode raw : QString) (rest : List QString) (state : SpinKind)
    (blockComment flag : Bool) (st : SpinParser)
    (h : stripLine blockComment raw = (flag, none)) :
    parseLines fs autocomplete rec fileName objnode (raw :: rest) state blockComment st =
      parseLines fs autocomplete rec fileName objnode rest state flag
        (SpinParser.mk st.db st.spinFiles st.libraryPath fileName objnode) := by
  rw [parseLines]
  simp only [h]

theorem parseLines_line (fs : FileSystem) (autocomplete : Bool)
    (rec : QString → QString → SpinParser → Except Fault SpinParser)
    (fileName objnode raw : QString) (rest : List QString) (state : SpinKind)
    (blockComment flag : Bool) (line : QString) (st : SpinParser)
    (h : stripLine blockComment raw = (flag, some line)) :
    parseLines fs autocomplete rec fileName objnode (raw :: rest) state blockComment st =
      (dispatch fs autocomplete rec (classifyLine autocomplete state line).1
          (SpinParser.mk st.db st.spinFiles st.libraryPath fileName objnode)
          (classifyLine autocomplete state line).2 >>= fun st1 =>
        parseLines fs autocomplete rec fileName objnode rest
          (classifyLine autocomplete state line).1 flag st1) := by
  rw [parseLines]
  simp only [h]
  unfold classifyLine
  generalize dispatch fs autocomplete rec _ _ _ = d
  cases d <;> rfl

theorem objectCalls_skip (fs : FileSystem) (autocomplete : Bool) (lib fileName raw : QString)
    (rest : List QString) (state : SpinKind) (blockComment flag : Bool)
    (h : stripLine blockComment raw = (flag, none)) :
    objectCalls fs autocomplete lib fileName (raw :: rest) state blockComment =
      objectCalls fs autocomplete lib fileName rest state flag := by
  rw [objectCalls]
  simp only [h]

theorem objectCalls_line (fs : FileSystem) (autocomplete : Bool) (lib fileName raw : QString)
    (rest : List QString) (state : SpinKind) (blockComment flag : Bool) (line : QString)
    (h : stripLine blockComment raw = (flag, some line)) :
    objectCalls fs autocomplete lib fileName (raw :: rest) state blockComment =
      (if (classifyLine autocomplete state line).1 = K_OBJECT ∧
          descends fs (lineContext lib fileName) (classifyLine autocomplete state line).2 = true
        then [referredFile (objectTag fileName (classifyLine autocomplete state line).2)]
        else []) ++
        objectCalls fs autocomplete lib fileName rest
          (classifyLine autocomplete state line).1 flag := by
  rw [objectCalls]
  simp only [h]

/-- A line at which the walk descends is handed to the recursive call. -/
theorem dispatch_descends (fs : FileSystem) (autocomplete : Bool)
    (rec : QString → QString → SpinParser → Except Fault SpinParser)
    (state : SpinKind) (st : SpinParser) (line : QString)
    (hs : state = K_OBJECT) (hd : descends fs st line = true) :
    dispatch fs autocomplete rec state st line =
      rec (referredFile (objectTag st.currentFile line))
        (st.objectNode ++ ['/'] ++ subnodeOf (objectTag st.currentFile line))
        (SpinParser.mk
          (DB.insert (st.objectNode ++ ['/'] ++ subnodeOf (objectTag st.currentFile line) ++
            KEY_ELEMENT_SEP ++ objectName line) (objectTag st.currentFile line) st.db)
          st.spinFiles st.libraryPath st.currentFile st.objectNode) := by
  subst hs
  have h : dispatch fs autocomplete rec K_OBJECT st line = match_object fs rec st line := by
    cases autocomplete <;> rfl
  rw [h, match_object_eq, if_pos hd]

/-- Any other line is handled without a recursive call, and the library path stays. -/
theorem dispatch_quiet (fs : FileSystem) (autocomplete : Bool)
    (rec : QString → QString → SpinParser → Except Fault SpinParser)
    (state : SpinKind) (st : SpinParser) (line : QString)
    (h : ¬ (state = K_OBJECT ∧ descends fs st line = true)) :
    ∃ st1, dispatch fs autocomplete rec state st line = .ok st1 ∧
      st1.libraryPath = st.libraryPath := by
  have hR : ∀ st1, dispatch fs autocomplete (fun _ _ _ => .error Fault.outOfFuel) state st
      line = .ok st1 → st1.libraryPath = st.libraryPath :=
    dispatch_preserves (fun s => s.libraryPath = st.libraryPath) (fun _ _ _ _ _ _ h => h)
      fs autocomplete _ (fun _ _ _ _ _ h => by cases h) state st line rfl
  by_cases hs : state = K_OBJECT
  · subst hs
    have hd : ¬ descends fs st line = true := fun hd => h ⟨rfl, hd⟩
    have h1 : dispatch fs autocomplete rec K_OBJECT st line = match_object fs rec st line := by
      cases autocomplete <;> rfl
    exact ⟨st, by rw [h1, match_object_eq, if_neg hd], rfl⟩
  · have h1 : dispatch fs autocomplete rec state st line =
        dispatch fs autocomplete (fun _ _ _ => .error Fault.outOfFuel) state st line := by
      cases autocomplete <;> cases state <;> first | exact absurd rfl hs | rfl
    have h2 : ∃ st1, dispatch fs autocomplete (fun _ _ _ => .error Fault.outOfFuel) state st
        line = .ok st1 := by
      cases autocomplete <;> cases state <;> first | exact absurd rfl hs | exact ⟨_, rfl⟩
    obtain ⟨st1, h2⟩ := h2
    exact ⟨st1, by rw [h1, h2], hR st1 h2⟩

end SpinParser

namespace SpinParser

/-! ## Walks that return and walks that do not -/

/-- The loop over the lines returns when every recursive call it makes returns. -/
theorem parseLines_returns (fs : FileSystem) (autocomplete : Bool)
    (rec : QString → QString → SpinParser → Except Fault SpinParser)
    (lib fileName objnode : QString)
    (hlib : ∀ f n s, s.libraryPath = lib → ∀ s', rec f n s = .ok s' → s'.libraryPath = lib)
    (lines : List QString) :
    ∀ (state : SpinKind) (blockComment : Bool),
      (∀ sub ∈ objectCalls fs autocomplete lib fileName lines state blockComment,
        ∀ node s, s.libraryPath = lib → s.currentFile = fileName →
          ∃ s', rec sub node s = .ok s') →
      ∀ st : SpinParser, st.libraryPath = lib →
        ∃ st', parseLines fs autocomplete rec fileName objnode lines state blockComment st =
          .ok st' := by
  induction lines with
  | nil => intro state blockComment _ st _; exact ⟨st, rfl⟩
  | cons raw rest ih =>
    intro state blockComment hrec st hst
    rcases hs : stripLine blockComment raw with ⟨flag, _ | line⟩
    · rw [parseLines_skip fs autocomplete rec fileName objnode raw rest state blockComment
        flag st hs]
      rw [objectCalls_skip fs autocomplete lib fileName raw rest state blockComment flag hs]
        at hrec
      exact ih state flag hrec _ hst
    · rw [parseLines_line fs autocomplete rec fileName objnode raw rest state blockComment
        flag line st hs]
      rw [objectCalls_line fs autocomplete lib fileName raw rest state blockComment flag
        line hs] at hrec
      have hrest := fun sub hsub => hrec sub (List.mem_append_right _ hsub)
      have hcg := descends_congr fs
        (SpinParser.mk st.db st.spinFiles st.libraryPath fileName objnode)
        (lineContext lib fileName) (classifyLine autocomplete state line).2 hst rfl
      by_cases hd : (classifyLine autocomplete state line).1 = K_OBJECT ∧
          descends fs (SpinParser.mk st.db st.spinFiles st.libraryPath fileName objnode)
            (classifyLine autocomplete state line).2 = true
      · rw [dispatch_descends fs autocomplete rec _ _ _ hd.1 hd.2]
        have hmem : referredFile (objectTag fileName (classifyLine autocomplete state line).2)
            ∈ (if (classifyLine autocomplete state line).1 = K_OBJECT ∧
                descends fs (lineContext lib fileName)
                  (classifyLine autocomplete state line).2 = true
              then [referredFile (objectTag fileName (classifyLine autocomplete state line).2)]
              else []) ++
              objectCalls fs autocomplete lib fileName rest
                (classifyLine autocomplete state line).1 flag := by
          rw [← hcg, if_pos hd]
          exact List.mem_append_left _ (List.mem_singleton.mpr rfl)
        have key : ∀ node s, s.libraryPath = lib → s.currentFile = fileName →
            ∃ st', (rec (referredFile
                (objectTag fileName (classifyLine autocomplete state line).2)) node s >>=
              fun st1 => parseLines fs autocomplete rec fileName objnode rest
                (classifyLine autocomplete state line).1 flag st1) = .ok st' := by
          intro node s hs hc
          obtain ⟨s1, h1⟩ := hrec _ hmem node s hs hc
          rw [h1]
          exact ih _ flag hrest s1 (hlib _ _ _ hs _ h1)
        exact key _ _ hst rfl
      · obtain ⟨st1, h1, h2⟩ := dispatch_quiet fs autocomplete rec _ _ _ hd
        rw [h1]
        exact ih _ flag hrest st1 (h2.trans hst)

/-- The loop over the lines runs out of fuel when it makes a recursive call and every
recursive call it makes runs out of fuel. -/
theorem parseLines_outOfFuel (fs : FileSystem) (autocomplete : Bool)
    (rec : QString → QString → SpinParser → Except Fault SpinParser)
    (lib fileName objnode : QString)
    (lines : List QString) :
    ∀ (state : SpinKind) (blockComment : Bool),
      (∀ sub ∈ objectCalls fs autocomplete lib fileName lines state blockComment,
        ∀ node s, s.libraryPath = lib → s.currentFile = fileName →
          rec sub node s = .error Fault.outOfFuel) →
      objectCalls fs autocomplete lib fileName lines state blockComment ≠ [] →
      ∀ st : SpinParser, st.libraryPath = lib →
        parseLines fs autocomplete rec fileName objnode lines state blockComment st =
          .error Fault.outOfFuel := by
  induction lines with
  | nil => intro state blockComment _ hne; exact absurd rfl hne
  | cons raw rest ih =>
    intro state blockComment hrec hne st hst
    rcases hs : stripLine blockComment raw with ⟨flag, _ | line⟩
    · rw [parseLines_skip fs autocomplete rec fileName objnode raw rest state blockComment
        flag st hs]
      rw [objectCalls_skip fs autocomplete lib fileName raw rest state blockComment flag hs]
        at hrec hne
      exact ih state flag hrec hne _ hst
    · rw [parseLines_line fs autocomplete rec fileName objnode raw rest state blockComment
        flag line st hs]
      rw [objectCalls_line fs autocomplete lib fileName raw rest state blockComment flag
        line hs] at hrec hne
      have hrest := fun sub hsub => hrec sub (List.mem_append_right _ hsub)
      have hcg := descends_congr fs
        (SpinParser.mk st.db st.spinFiles st.libraryPath fileName objnode)
        (lineContext lib fileName) (classifyLine autocomplete state line).2 hst rfl
      by_cases hd : (classifyLine autocomplete state line).1 = K_OBJECT ∧
          descends fs (SpinParser.mk st.db st.spinFiles st.libraryPath fileName objnode)
            (classifyLine autocomplete state line).2 = true
      · rw [dispatch_descends fs autocomplete rec _ _ _ hd.1 hd.2]
        have hmem : referredFile (objectTag fileName (classifyLine autocomplete state line).2)
            ∈ (if (classifyLine autocomplete state line).1 = K_OBJECT ∧
                descends fs (lineContext lib fileName)
                  (classifyLine autocomplete state line).2 = true
              then [referredFile (objectTag fileName (classifyLine autocomplete state line).2)]
              else []) ++
              objectCalls fs autocomplete lib fileName rest
                (classifyLine autocomplete state line).1 flag := by
          rw [← hcg, if_pos hd]
          exact List.mem_append_left _ (List.mem_singleton.mpr rfl)
        have key : ∀ node s, s.libraryPath = lib → s.currentFile = fileName →
            (rec (referredFile
                (objectTag fileName (classifyLine autocomplete state line).2)) node s >>=
              fun st1 => parseLines fs autocomplete rec fileName objnode rest
                (classifyLine autocomplete state line).1 flag st1) =
              .error Fault.outOfFuel := by
          intro node s hs hc
          rw [hrec _ hmem node s hs hc]
          rfl
        exact key _ _ hst rfl
      · obtain ⟨st1, h1, h2⟩ := dispatch_quiet fs autocomplete rec _ _ _ hd
        rw [h1]
        rw [← hcg, if_neg hd, List.nil_append] at hne
        exact ih _ flag hrest hne st1 (h2.trans hst)

theorem findSpinTags_libraryPath (fs : FileSystem) (autocomplete : Bool) (fuel : Nat)
    (lib f n : QString) (s : SpinParser) (h : s.libraryPath = lib) (s' : SpinParser)
    (hs : findSpinTags fs autocomplete fuel f n s = .ok s') : s'.libraryPath = lib :=
  findSpinTags_preserves (fun s => s.libraryPath = lib) (fun _ _ _ h => h)
    (fun _ _ _ _ _ _ h => h) fs autocomplete fuel f n s h s' hs

theorem findSpinTagsBody_readable (fs : FileSystem) (autocomplete : Bool)
    (rec : QString → QString → SpinParser → Except Fault SpinParser)
    (fileName objnode filestr : QString) (st : SpinParser)
    (hex : fs.fileExists (checkFile fs st fileName) = true)
    (hread : fs.readAll (checkFile fs st fileName) = some filestr) :
    findSpinTagsBody fs autocomplete rec fileName objnode st =
      parseLines fs autocomplete rec (checkFile fs st fileName) objnode (fileLines filestr)
        K_CONST false st := by
  unfold findSpinTagsBody
  simp only [hex, hread, Bool.true_eq_false, ↓reduceIte]
  rfl

theorem findSpinTagsBody_other (fs : FileSystem) (autocomplete : Bool)
    (rec : QString → QString → SpinParser → Except Fault SpinParser)
    (fileName objnode : QString) (st : SpinParser)
    (h : fs.fileExists (checkFile fs st fileName) = false ∨
      fs.readAll (checkFile fs st fileName) = none) :
    findSpinTagsBody fs autocomplete rec fileName objnode st = .ok st := by
  unfold findSpinTagsBody
  by_cases hex : fs.fileExists (checkFile fs st fileName) = false
  · simp only [hex, ↓reduceIte]
    rfl
  · rcases h with h | h
    · exact absurd h hex
    · simp only [hex, h, ↓reduceIte]
      rfl

/-- A set of existing files each of which holds a reference, every reference at which
its walk descends being a file of the set again: a walk of any of them runs out of fuel,
whatever the fuel. -/
theorem findSpinTags_closed_set (fs : FileSystem) (autocomplete : Bool) (lib : QString)
    (S : QString → Prop)
    (hS : ∀ f, S f → fs.fileExists f = true ∧ fileCalls fs autocomplete lib f ≠ [] ∧
      ∀ sub ∈ fileCalls fs autocomplete lib f, S sub)
    (fuel : Nat) :
    ∀ (f objnode : QString) (st : SpinParser), S f → st.libraryPath = lib →
      findSpinTags fs autocomplete fuel f objnode st = .error Fault.outOfFuel := by
  induction fuel with
  | zero => intro f objnode st _ _; rfl
  | succ fuel ih =>
    intro f objnode st hf hst
    obtain ⟨hex, hne, hsub⟩ := hS f hf
    have hcf : checkFile fs st f = f := checkFile_of_exists fs st f hex
    rw [findSpinTags]
    cases hread : fs.readAll f with
    | none => simp [fileCalls, hread] at hne
    | some filestr =>
      simp only [fileCalls, hread] at hne hsub
      rw [findSpinTagsBody_readable fs autocomplete _ f objnode filestr st (by rw [hcf, hex])
        (by rw [hcf, hread]), hcf]
      exact parseLines_outOfFuel fs autocomplete _ lib f objnode _ K_CONST false
        (fun sub hmem node s hs _ => ih sub node s (hsub sub hmem) hs) hne st hst

end SpinParser

namespace SpinParser

/-- C17, counterexample: the walker keeps no record of the files it has parsed.  When a
file declares an object that resolves to itself, or `a.spin` declares `b.spin` and
`b.spin` declares `a.spin`, the walk of `a.spin` does not return: it makes a further
recursive call at every depth, so it runs out of fuel whatever the fuel. -/
theorem cyclic_objects_never_return :
    (∀ fuel, findSpinTags fsSelf true fuel "a.spin".toList "root".toList fresh =
      .error Fault.outOfFuel) ∧
    (∀ fuel, findSpinTags fsCycle true fuel "a.spin".toList "root".toList fresh =
      .error Fault.outOfFuel) := by
  constructor
  · intro fuel
    refine findSpinTags_closed_set fsSelf true [] (fun f => f = "a.spin".toList) ?_ fuel _ _ _
      rfl rfl
    intro f hf
    subst hf
    have hc : fileCalls fsSelf true [] "a.spin".toList = ["a.spin".toList] := by decide
    rw [hc]
    exact ⟨by decide, by decide, fun sub hsub => List.mem_singleton.mp hsub⟩
  · intro fuel
    refine findSpinTags_closed_set fsCycle true []
      (fun f => f = "a.spin".toList ∨ f = "b.spin".toList) ?_ fuel _ _ _ (Or.inl rfl) rfl
    intro f hf
    have ha : fileCalls fsCycle true [] "a.spin".toList = ["b.spin".toList] := by decide
    have hb : fileCalls fsCycle true [] "b.spin".toList = ["a.spin".toList] := by decide
    rcases hf with hf | hf
    · subst hf
      rw [ha]
      exact ⟨by decide, by decide, fun sub hsub => Or.inr (List.mem_singleton.mp hsub)⟩
    · subst hf
      rw [hb]
      exact ⟨by decide, by decide, fun sub hsub => Or.inl (List.mem_singleton.mp hsub)⟩

/-- C17, amended: `findSpinTags` returns when the object graph has no cycle.  If the
files can be ranked so that every reference at which the walk of an existing file
descends resolves to a file of lower rank, then the walk of `fileName` returns a state
as soon as the fuel exceeds the rank of the file it resolves to. -/
theorem findSpinTags_returns_of_rank (fs : FileSystem) (autocomplete : Bool) (lib : QString)
    (rank : QString → Nat)
    (hrank : ∀ f, fs.fileExists f = true → ∀ sub ∈ fileCalls fs autocomplete lib f,
      rank (checkFile fs (lineContext lib f) sub) < rank f)
    (fuel : Nat) :
    ∀ (fileName objnode : QString) (st : SpinParser), st.libraryPath = lib →
      rank (checkFile fs st fileName) < fuel →
      ∃ st', findSpinTags fs autocomplete fuel fileName objnode st = .ok st' := by
  induction fuel with
  | zero => intro fileName objnode st _ h; omega
  | succ fuel ih =>
    intro fileName objnode st hst hfuel
    rw [findSpinTags]
    by_cases hex : fs.fileExists (checkFile fs st fileName) = true
    · cases hread : fs.readAll (checkFile fs st fileName) with
      | none => exact ⟨st, findSpinTagsBody_other fs autocomplete _ _ _ st (Or.inr hread)⟩
      | some filestr =>
        rw [findSpinTagsBody_readable fs autocomplete _ fileName objnode filestr st hex hread]
        have hr := hrank _ hex
        simp only [fileCalls, hread] at hr
        refine parseLines_returns fs autocomplete _ lib _ objnode
          (fun f n s hs s' h => findSpinTags_libraryPath fs autocomplete fuel lib f n s hs s' h)
          _ K_CONST false ?_ st hst
        intro sub hsub node s hs hc
        refine ih sub node s hs ?_
        have := hr sub hsub
        rw [checkFile_congr fs s (lineContext lib (checkFile fs st fileName)) sub hs hc]
        omega
    · exact ⟨st, findSpinTagsBody_other fs autocomplete _ _ _ st
        (Or.inl (by simpa using hex))⟩

/-- C17, amended, for the project of scenario E: `root.spin` declares `display.spin`,
which declares nothing; with `root.spin` ranked 1 and every other file 0, fuel 2 is
enough for the walk of `root.spin` to return. -/
theorem findSpinTags_returns_display :
    fresh.libraryPath = [] ∧
    (if checkFile fsDisplay fresh "root.spin".toList = "root.spin".toList then 1 else 0) < 2 ∧
    ∃ st', findSpinTags fsDisplay true 2 "root.spin".toList "root".toList fresh = .ok st' :=
  ⟨rfl, by decide,
    findSpinTags_returns_of_rank fsDisplay true []
      (fun f => if f = "root.spin".toList then 1 else 0)
      (by
        intro f hex sub hsub
        have hf : "root.spin".toList = f ∨ "display.spin".toList = f := by
          simpa [fsDisplay, mkFS] using hex
        have h1 : fileCalls fsDisplay true [] "root.spin".toList = ["display.spin".toList] := by
          decide
        have h2 : fileCalls fsDisplay true [] "display.spin".toList = [] := by decide
        rcases hf with hf | hf
        · subst hf
          rw [h1] at hsub
          rw [List.mem_singleton.mp hsub]
          decide
        · subst hf
          rw [h2] at hsub
          cases hsub)
      2 "root.spin".toList "root".toList fresh rfl (by decide)⟩

end SpinParser

namespace DB

/-! ## Databases as sets of records -/

theorem mem_keys_iff (db : DB) (k : QString) : k ∈ keys db ↔ ∃ v, (k, v) ∈ db := by
  simp [keys]

theorem mem_insert_iff (key value : QString) (db : DB) (h : Ordered db)
    (x : QString × QString) :
    x ∈ insert key value db ↔ x = (key, value) ∨ (x ∈ db ∧ x.1 ≠ key) := by
  induction db with
  | nil => simp [insert]
  | cons e rest ih =>
    obtain ⟨k0, v0⟩ := e
    simp only [Ordered, List.pairwise_cons] at h
    obtain ⟨h1, h2⟩ := h
    simp only [insert]
    by_cases hlt : qlt key k0 = true
    · simp only [hlt, ↓reduceIte, List.mem_cons]
      constructor
      · rintro (hx | hx | hx)
        · exact Or.inl hx
        · refine Or.inr ⟨Or.inl hx, ?_⟩
          rw [hx]
          intro (hk : k0 = key)
          subst hk
          rw [qlt_irrefl] at hlt
          cases hlt
        · refine Or.inr ⟨Or.inr hx, ?_⟩
          intro hk
          have := qlt_asymm _ _ (h1 x hx)
          rw [hk] at this
          rw [this] at hlt
          cases hlt
      · rintro (hx | ⟨hx | hx, _⟩)
        · exact Or.inl hx
        · exact Or.inr (Or.inl hx)
        · exact Or.inr (Or.inr hx)
    · by_cases hgt : qlt k0 key = true
      · simp only [hlt, hgt, ↓reduceIte, Bool.false_eq_true, List.mem_cons, ih h2]
        constructor
        · rintro (hx | hx | ⟨hx, hne⟩)
          · refine Or.inr ⟨Or.inl hx, ?_⟩
            rw [hx]
            intro (hk : k0 = key)
            subst hk
            rw [qlt_irrefl] at hgt
            cases hgt
          · exact Or.inl hx
          · exact Or.inr ⟨Or.inr hx, hne⟩
        · rintro (hx | ⟨hx | hx, hne⟩)
          · exact Or.inr (Or.inl hx)
          · exact Or.inl hx
          · exact Or.inr (Or.inr ⟨hx, hne⟩)
      · have hk : key = k0 := qlt_total key k0 (by simpa using hlt) (by simpa using hgt)
        subst hk
        simp only [hlt, ↓reduceIte, Bool.false_eq_true, List.mem_cons]
        constructor
        · rintro (hx | hx)
          · exact Or.inl hx
          · refine Or.inr ⟨Or.inr hx, ?_⟩
            intro hk
            have := h1 x hx
            rw [hk, qlt_irrefl] at this
            cases this
        · rintro (hx | ⟨hx | hx, hne⟩)
          · exact Or.inl hx
          · rw [hx] at hne
            exact absurd rfl hne
          · exact Or.inr hx

theorem insertAll_append (r1 r2 : List (QString × QString)) (db : DB) :
    insertAll (r1 ++ r2) db = insertAll r2 (insertAll r1 db) := by
  simp [insertAll, List.foldl_append]

theorem ordered_insertAll (recs : List (QString × QString)) :
    ∀ db : DB, Ordered db → Ordered (insertAll recs db) := by
  induction recs with
  | nil => intro db h; exact h
  | cons kv rest ih => intro db h; exact ih _ (ordered_insert _ _ _ h)

theorem ordered_nil : Ordered ([] : DB) := by
  simp [Ordered]

/-- Inserting a list of records into a database gives the records the list leaves in an
empty database, and the records of the database whose keys the list does not insert. -/
theorem mem_insertAll (recs : List (QString × QString)) (db : DB) (h : Ordered db)
    (x : QString × QString) :
    x ∈ insertAll recs db ↔
      x ∈ insertAll recs [] ∨ (x ∈ db ∧ x.1 ∉ keys (insertAll recs [])) := by
  induction recs using List.reverseRecOn with
  | nil => simp [insertAll, keys]
  | append_singleton recs kv ih =>
    have e : ∀ d : DB, insertAll (recs ++ [kv]) d = insert kv.1 kv.2 (insertAll recs d) := by
      intro d
      rw [insertAll_append]
      rfl
    rw [e, e, mem_insert_iff _ _ _ (ordered_insertAll recs db h),
      mem_insert_iff _ _ _ (ordered_insertAll recs [] ordered_nil), ih, mem_keys_insert]
    tauto

/-- Two databases in key order that hold the same records are equal. -/
theorem ordered_ext (a b : DB) (ha : Ordered a) (hb : Ordered b)
    (h : ∀ x, x ∈ a ↔ x ∈ b) : a = b := by
  have irr : ∀ x : QString × QString, ¬ qlt x.1 x.1 = true := by
    intro x
    rw [qlt_irrefl]
    simp
  have nd : ∀ d : DB, Ordered d → d.Nodup := by
    intro d hd
    unfold List.Nodup
    refine List.Pairwise.imp ?_ hd
    intro x y hxy hEq
    rw [hEq] at hxy
    exact irr y hxy
  have nda := nd a ha
  have ndb := nd b hb
  have hp : a.Perm b := (List.perm_ext_iff_of_nodup nda ndb).mpr h
  haveI : IsAntisymm (QString × QString) (fun x y => qlt x.1 y.1 = true) :=
    ⟨fun x y hxy hyx => by
      have := qlt_asymm _ _ hxy
      rw [this] at hyx
      cases hyx⟩
  exact List.eq_of_perm_of_sorted hp ha hb

end DB

namespace SpinParser

/-! ## What a line inserts does not depend on the database -/

theorem foldl_enumItem_inserts (cur node p : QString) (items : List QString) :
    ∃ recs, ∀ (st : SpinParser) (db : DB), st.currentFile = cur → st.objectNode = node →
      items.foldl (enumItem st p) db = DB.insertAll recs db := by
  induction items with
  | nil => exact ⟨[], fun _ _ _ _ => rfl⟩
  | cons i rest ih =>
    obtain ⟨recs, hr⟩ := ih
    by_cases h : (toInt (trimmed i)).isSome = true
    · refine ⟨recs, fun st db hc hn => ?_⟩
      simp only [List.foldl_cons, enumItem, h, ↓reduceIte]
      exact hr st db hc hn
    · refine ⟨(node ++ KEY_ELEMENT_SEP ++ trimmed i, mkTag (trimmed i) cur p ['e']) :: recs,
        fun st db hc hn => ?_⟩
      simp only [List.foldl_cons, enumItem, h, ↓reduceIte]
      rw [hr st _ hc hn, hc, hn]
      rfl

theorem foldl_declItem_inserts (cur node p : QString) (kind : SpinKind)
    (items : List QString) :
    ∃ recs, ∀ (st : SpinParser) (db : DB), st.currentFile = cur → st.objectNode = node →
      items.foldl (declItem st p kind) db = DB.insertAll recs db := by
  induction items with
  | nil => exact ⟨[], fun _ _ _ _ => rfl⟩
  | cons i rest ih =>
    obtain ⟨recs, hr⟩ := ih
    refine ⟨(node ++ KEY_ELEMENT_SEP ++ trimmed (if contains i ['['] CaseSensitive
        then mid i 0 (indexOf i ['['] CaseSensitive) else i),
      mkTag (trimmed (if contains i ['['] CaseSensitive
        then mid i 0 (indexOf i ['['] CaseSensitive) else i)) cur p
        [SpinKinds_letter kind]) :: recs, fun st db hc hn => ?_⟩
    simp only [List.foldl_cons, declItem]
    rw [hr st _ hc hn, hc, hn]
    rfl

theorem record_inserts (cur node s p letter : QString) :
    ∃ recs, ∀ st : SpinParser, st.currentFile = cur → st.objectNode = node →
      SpinParser.mk (DB.insert (st.objectNode ++ KEY_ELEMENT_SEP ++ s)
          (mkTag s st.currentFile p letter) st.db) st.spinFiles st.libraryPath
          st.currentFile st.objectNode =
        SpinParser.mk (DB.insertAll recs st.db) st.spinFiles st.libraryPath st.currentFile
          st.objectNode :=
  ⟨[(node ++ KEY_ELEMENT_SEP ++ s, mkTag s cur p letter)], fun st hc hn => by
    rw [hc, hn]
    rfl⟩

theorem ite_inserts (cur node : QString) {c : Prop} [Decidable c]
    {F G : SpinParser → SpinParser}
    (hF : c → ∃ recs, ∀ st : SpinParser, st.currentFile = cur → st.objectNode = node →
      F st = SpinParser.mk (DB.insertAll recs st.db) st.spinFiles st.libraryPath
        st.currentFile st.objectNode)
    (hG : ¬ c → ∃ recs, ∀ st : SpinParser, st.currentFile = cur → st.objectNode = node →
      G st = SpinParser.mk (DB.insertAll recs st.db) st.spinFiles st.libraryPath
        st.currentFile st.objectNode) :
    ∃ recs, ∀ st : SpinParser, st.currentFile = cur → st.objectNode = node →
      (if c then F st else G st) = SpinParser.mk (DB.insertAll recs st.db) st.spinFiles
        st.libraryPath st.currentFile st.objectNode := by
  by_cases h : c
  · simp only [h, ↓reduceIte]
    exact hF h
  · simp only [h, ↓reduceIte]
    exact hG h

theorem unchanged_inserts (cur node : QString) :
    ∃ recs, ∀ st : SpinParser, st.currentFile = cur → st.objectNode = node →
      st = SpinParser.mk (DB.insertAll recs st.db) st.spinFiles st.libraryPath
        st.currentFile st.objectNode :=
  ⟨[], fun _ _ _ => rfl⟩

theorem enum_inserts (cur node p : QString) (items : List QString) :
    ∃ recs, ∀ st : SpinParser, st.currentFile = cur → st.objectNode = node →
      SpinParser.mk (items.foldl (enumItem st p) st.db) st.spinFiles st.libraryPath
          st.currentFile st.objectNode =
        SpinParser.mk (DB.insertAll recs st.db) st.spinFiles st.libraryPath st.currentFile
          st.objectNode :=
  (foldl_enumItem_inserts cur node p items).imp (fun recs hr st hc hn => by
    rw [hr st st.db hc hn])

theorem decl_inserts (cur node p : QString) (kind : SpinKind) (items : List QString) :
    ∃ recs, ∀ st : SpinParser, st.currentFile = cur → st.objectNode = node →
      SpinParser.mk (items.foldl (declItem st p kind) st.db) st.spinFiles st.libraryPath
          st.currentFile st.objectNode =
        SpinParser.mk (DB.insertAll recs st.db) st.spinFiles st.libraryPath st.currentFile
          st.objectNode :=
  (foldl_declItem_inserts cur node p kind items).imp (fun recs hr st hc hn => by
    rw [hr st st.db hc hn])

theorem match_constant_inserts (cur node p : QString) :
    ∃ recs, ∀ st : SpinParser, st.currentFile = cur → st.objectNode = node →
      match_constant st p = SpinParser.mk (DB.insertAll recs st.db) st.spinFiles
        st.libraryPath st.currentFile st.objectNode := by
  unfold match_constant
  dsimp only
  refine ite_inserts cur node (fun _ => enum_inserts cur node _ _)
    (fun _ => ite_inserts cur node (fun _ => ite_inserts cur node
      (fun _ => record_inserts cur node _ _ _) (fun _ => unchanged_inserts cur node))
      (fun _ => unchanged_inserts cur node))

theorem match_dat_inserts (cur node p : QString) :
    ∃ recs, ∀ st : SpinParser, st.currentFile = cur → st.objectNode = node →
      match_dat st p = SpinParser.mk (DB.insertAll recs st.db) st.spinFiles
        st.libraryPath st.currentFile st.objectNode := by
  unfold match_dat
  dsimp only
  refine ite_inserts cur node (fun _ => ite_inserts cur node
    (fun _ => decl_inserts cur node _ _ _) (fun _ => unchanged_inserts cur node))
    (fun _ => unchanged_inserts cur node)

theorem match_var_inserts (cur node p : QString) :
    ∃ recs, ∀ st : SpinParser, st.currentFile = cur → st.objectNode = node →
      match_var st p = SpinParser.mk (DB.insertAll recs st.db) st.spinFiles
        st.libraryPath st.currentFile st.objectNode := by
  unfold match_var
  dsimp only
  refine ite_inserts cur node (fun _ => ite_inserts cur node (fun _ => ite_inserts cur node
    (fun _ => decl_inserts cur node _ _ _) (fun _ => unchanged_inserts cur node))
    (fun _ => unchanged_inserts cur node)) (fun _ => unchanged_inserts cur node)

theorem match_pri_inserts (cur node p : QString) :
    ∃ recs, ∀ st : SpinParser, st.currentFile = cur → st.objectNode = node →
      match_pri st p = SpinParser.mk (DB.insertAll recs st.db) st.spinFiles
        st.libraryPath st.currentFile st.objectNode := by
  unfold match_pri
  dsimp only
  exact ite_inserts cur node (fun _ => record_inserts cur node _ _ _)
    (fun _ => unchanged_inserts cur node)

theorem match_pub_inserts (cur node p : QString) :
    ∃ recs, ∀ st : SpinParser, st.currentFile = cur → st.objectNode = node →
      match_pub st p = SpinParser.mk (DB.insertAll recs st.db) st.spinFiles
        st.libraryPath st.currentFile st.objectNode := by
  unfold match_pub
  dsimp only
  exact ite_inserts cur node (fun _ => record_inserts cur node _ _ _)
    (fun _ => unchanged_inserts cur node)

end SpinParser

namespace SpinParser

/-! ## The walk treats every database alike -/

theorem uniform_of_inserts (C : SpinParser → Prop) (cur node : QString)
    (hC : ∀ st, C st → st.currentFile = cur ∧ st.objectNode = node)
    (F : SpinParser → SpinParser)
    (h : ∃ recs, ∀ st : SpinParser, st.currentFile = cur → st.objectNode = node →
      F st = SpinParser.mk (DB.insertAll recs st.db) st.spinFiles st.libraryPath
        st.currentFile st.objectNode) :
    Uniform C (fun st => .ok (F st)) := by
  obtain ⟨recs, hr⟩ := h
  refine Or.inr ⟨recs, fun st hst => ⟨F st, rfl, ?_, ?_⟩⟩
  · rw [hr st (hC st hst).1 (hC st hst).2]
  · rw [hr st (hC st hst).1 (hC st hst).2]

theorem uniform_congr (C : SpinParser → Prop) (f g : SpinParser → Except Fault SpinParser)
    (h : ∀ st, C st → f st = g st) (hg : Uniform C g) : Uniform C f := by
  rcases hg with hg | ⟨recs, hg⟩
  · exact Or.inl (fun st hst => by rw [h st hst, hg st hst])
  · exact Or.inr ⟨recs, fun st hst => by rw [h st hst]; exact hg st hst⟩

theorem uniform_bind (C C' : SpinParser → Prop) (f g : SpinParser → Except Fault SpinParser)
    (hf : Uniform C f) (hC : ∀ st st', C st → f st = .ok st' → C' st')
    (hg : Uniform C' g) : Uniform C (fun st => f st >>= g) := by
  rcases hf with hf | ⟨r1, hf⟩
  · refine Or.inl (fun st hst => ?_)
    show f st >>= g = _
    rw [hf st hst]
    rfl
  · rcases hg with hg | ⟨r2, hg⟩
    · refine Or.inl (fun st hst => ?_)
      obtain ⟨st1, h1, _, _⟩ := hf st hst
      show f st >>= g = _
      rw [h1]
      exact hg st1 (hC st st1 hst h1)
    · refine Or.inr ⟨r1 ++ r2, fun st hst => ?_⟩
      obtain ⟨st1, h1, hdb, hlib⟩ := hf st hst
      obtain ⟨st2, h2, hdb2, hlib2⟩ := hg st1 (hC st st1 hst h1)
      refine ⟨st2, ?_, ?_, hlib2.trans hlib⟩
      · show f st >>= g = _
        rw [h1]
        exact h2
      · rw [hdb2, hdb, DB.insertAll_append]

theorem dispatch_uniform (fs : FileSystem) (autocomplete : Bool)
    (rec : QString → QString → SpinParser → Except Fault SpinParser)
    (lib cur node : QString)
    (hrec : ∀ sub n, Uniform (fun s => s.libraryPath = lib ∧ s.currentFile = cur) (rec sub n))
    (state : SpinKind) (line : QString) :
    Uniform (fun s => s.libraryPath = lib ∧ s.currentFile = cur ∧ s.objectNode = node)
      (fun st => dispatch fs autocomplete rec state st line) := by
  have hC : ∀ st : SpinParser,
      st.libraryPath = lib ∧ st.currentFile = cur ∧ st.objectNode = node →
      st.currentFile = cur ∧ st.objectNode = node := fun st h => h.2
  by_cases hs : state = K_OBJECT
  · subst hs
    by_cases hd : descends fs (lineContext lib cur) line = true
    · refine uniform_congr _ _
        (fun st => (fun st1 => .ok (SpinParser.mk
            (DB.insert (node ++ ['/'] ++ subnodeOf (objectTag cur line) ++
              KEY_ELEMENT_SEP ++ objectName line) (objectTag cur line) st1.db)
            st1.spinFiles st1.libraryPath cur node)) st >>=
          rec (referredFile (objectTag cur line))
            (node ++ ['/'] ++ subnodeOf (objectTag cur line))) ?_ ?_
      · intro st hst
        rw [dispatch_descends fs autocomplete rec K_OBJECT st line rfl
          (by rw [descends_congr fs st (lineContext lib cur) line hst.1 hst.2.1]; exact hd),
          hst.2.1, hst.2.2]
        rfl
      · refine uniform_bind _ (fun s => s.libraryPath = lib ∧ s.currentFile = cur) _ _ ?_ ?_
          (hrec _ _)
        · exact Or.inr ⟨[(_, _)], fun st _ => ⟨_, rfl, rfl, rfl⟩⟩
        · intro st st' hst h
          cases h
          exact ⟨hst.1, rfl⟩
    · refine uniform_congr _ _ (fun st => .ok st) ?_
        (uniform_of_inserts _ cur node hC (fun st => st) (unchanged_inserts cur node))
      intro st hst
      have h1 : dispatch fs autocomplete rec K_OBJECT st line = match_object fs rec st line := by
        cases autocomplete <;> rfl
      rw [h1, match_object_eq, if_neg]
      rw [descends_congr fs st (lineContext lib cur) line hst.1 hst.2.1]
      exact hd
  · cases autocomplete
    · refine uniform_congr _ _ (fun st => .ok st) ?_
        (uniform_of_inserts _ cur node hC (fun st => st) (unchanged_inserts cur node))
      intro st _
      cases state <;> first | exact absurd rfl hs | rfl
    · cases state
      · exact uniform_of_inserts _ cur node hC (fun st => st) (unchanged_inserts cur node)
      · exact uniform_of_inserts _ cur node hC (fun st => match_constant st line)
          (match_constant_inserts cur node line)
      · exact uniform_of_inserts _ cur node hC (fun st => match_pub st line)
          (match_pub_inserts cur node line)
      · exact uniform_of_inserts _ cur node hC (fun st => match_pri st line)
          (match_pri_inserts cur node line)
      · exact absurd rfl hs
      · exact uniform_of_inserts _ cur node hC (fun st => match_var st line)
          (match_var_inserts cur node line)
      · exact uniform_of_inserts _ cur node hC (fun st => match_dat st line)
          (match_dat_inserts cur node line)

theorem parseLines_uniform (fs : FileSystem) (autocomplete : Bool)
    (rec : QString → QString → SpinParser → Except Fault SpinParser)
    (lib fileName objnode : QString)
    (hrec : ∀ sub n,
      Uniform (fun s => s.libraryPath = lib ∧ s.currentFile = fileName) (rec sub n))
    (lines : List QString) :
    ∀ (state : SpinKind) (blockComment : Bool),
      Uniform (fun s => s.libraryPath = lib)
        (parseLines fs autocomplete rec fileName objnode lines state blockComment) := by
  induction lines with
  | nil =>
    intro state blockComment
    exact Or.inr ⟨[], fun st _ => ⟨st, rfl, rfl, rfl⟩⟩
  | cons raw rest ih =>
    intro state blockComment
    rcases hs : stripLine blockComment raw with ⟨flag, _ | line⟩
    · refine uniform_congr _ _ _ (fun st _ => parseLines_skip fs autocomplete rec fileName
        objnode raw rest state blockComment flag st hs) ?_
      rcases ih state flag with h | ⟨recs, h⟩
      · exact Or.inl (fun st hst => h _ hst)
      · exact Or.inr ⟨recs, fun st hst => h _ hst⟩
    · refine uniform_congr _ _ _ (fun st _ => parseLines_line fs autocomplete rec fileName
        objnode raw rest state blockComment flag line st hs) ?_
      have hd := dispatch_uniform fs autocomplete rec lib fileName objnode hrec
        (classifyLine autocomplete state line).1 (classifyLine autocomplete state line).2
      have hb := uniform_bind _ (fun s => s.libraryPath = lib) _ _ hd
        (fun st st' hst h => by
          rcases hd with hd | ⟨recs, hd⟩
          · cases h.symm.trans (hd st hst)
          · obtain ⟨st1, h1, _, hl⟩ := hd st hst
            cases h.symm.trans h1
            exact hl.trans hst.1)
        (ih (classifyLine autocomplete state line).1 flag)
      rcases hb with h | ⟨recs, h⟩
      · exact Or.inl (fun st hst => h _ ⟨hst, rfl, rfl⟩)
      · exact Or.inr ⟨recs, fun st hst => h _ ⟨hst, rfl, rfl⟩⟩

theorem findSpinTags_uniform (fs : FileSystem) (autocomplete : Bool) (lib cur : QString)
    (fuel : Nat) :
    ∀ (fileName objnode : QString),
      Uniform (fun s => s.libraryPath = lib ∧ s.currentFile = cur)
        (findSpinTags fs autocomplete fuel fileName objnode) := by
  induction fuel generalizing cur with
  | zero => intro fileName objnode; exact Or.inl (fun _ _ => rfl)
  | succ fuel ih =>
    intro fileName objnode
    have hcf : ∀ st : SpinParser, st.libraryPath = lib ∧ st.currentFile = cur →
        checkFile fs st fileName = checkFile fs (lineContext lib cur) fileName :=
      fun st hst => checkFile_congr fs st (lineContext lib cur) fileName hst.1 hst.2
    have hquiet : Uniform (fun s => s.libraryPath = lib ∧ s.currentFile = cur)
        (fun st => .ok st) := Or.inr ⟨[], fun st _ => ⟨st, rfl, rfl, rfl⟩⟩
    by_cases hex : fs.fileExists (checkFile fs (lineContext lib cur) fileName) = true
    · cases hread : fs.readAll (checkFile fs (lineContext lib cur) fileName) with
      | none =>
        refine uniform_congr _ _ _ (fun st hst => ?_) hquiet
        rw [findSpinTags]
        exact findSpinTagsBody_other fs autocomplete _ _ _ st
          (Or.inr (by rw [hcf st hst]; exact hread))
      | some filestr =>
        have hp := parseLines_uniform fs autocomplete (findSpinTags fs autocomplete fuel) lib
          (checkFile fs (lineContext lib cur) fileName) objnode (fun sub n => ih _ sub n)
          (fileLines filestr) K_CONST false
        refine uniform_congr _ _ (parseLines fs autocomplete (findSpinTags fs autocomplete fuel)
            (checkFile fs (lineContext lib cur) fileName) objnode (fileLines filestr)
            K_CONST false) (fun st hst => ?_) ?_
        · rw [findSpinTags, findSpinTagsBody_readable fs autocomplete _ fileName objnode
            filestr st (by rw [hcf st hst]; exact hex) (by rw [hcf st hst]; exact hread),
            hcf st hst]
        · rcases hp with h | ⟨recs, h⟩
          · exact Or.inl (fun st hst => h st hst.1)
          · exact Or.inr ⟨recs, fun st hst => h st hst.1⟩
    · refine uniform_congr _ _ _ (fun st hst => ?_) hquiet
      rw [findSpinTags]
      exact findSpinTagsBody_other fs autocomplete _ _ _ st
        (Or.inl (by rw [hcf st hst]; simpa using hex))

end SpinParser

namespace SpinParser

/-! ## The walk over one block after the other -/

theorem flagAfter_cons (raw : QString) (rest : List QString) (blockComment flag : Bool)
    (o : Option QString) (h : stripLine blockComment raw = (flag, o)) :
    flagAfter (raw :: rest) blockComment = flagAfter rest flag := by
  rw [flagAfter, h]

theorem stateAfter_skip (autocomplete : Bool) (raw : QString) (rest : List QString)
    (state : SpinKind) (blockComment flag : Bool)
    (h : stripLine blockComment raw = (flag, none)) :
    stateAfter autocomplete (raw :: rest) state blockComment =
      stateAfter autocomplete rest state flag := by
  rw [stateAfter]
  simp only [h]

theorem stateAfter_line (autocomplete : Bool) (raw : QString) (rest : List QString)
    (state : SpinKind) (blockComment flag : Bool) (line : QString)
    (h : stripLine blockComment raw = (flag, some line)) :
    stateAfter autocomplete (raw :: rest) state blockComment =
      stateAfter autocomplete rest (classifyLine autocomplete state line).1 flag := by
  rw [stateAfter]
  simp only [h]

/-- The loop over the lines of two lists one after the other is the loop over the first
followed by the loop over the second, entered with the section state and the flag the
first list leaves. -/
theorem parseLines_append (fs : FileSystem) (autocomplete : Bool)
    (rec : QString → QString → SpinParser → Except Fault SpinParser)
    (fileName objnode : QString) (l1 l2 : List QString) :
    ∀ (state : SpinKind) (blockComment : Bool) (st : SpinParser),
      parseLines fs autocomplete rec fileName objnode (l1 ++ l2) state blockComment st =
        (parseLines fs autocomplete rec fileName objnode l1 state blockComment st >>=
          fun st1 => parseLines fs autocomplete rec fileName objnode l2
            (stateAfter autocomplete l1 state blockComment) (flagAfter l1 blockComment) st1) := by
  induction l1 with
  | nil => intro state blockComment st; rfl
  | cons raw rest ih =>
    intro state blockComment st
    rcases hs : stripLine blockComment raw with ⟨flag, _ | line⟩
    · rw [List.cons_append, parseLines_skip fs autocomplete rec fileName objnode raw _ state
        blockComment flag st hs, parseLines_skip fs autocomplete rec fileName objnode raw _
        state blockComment flag st hs, ih, stateAfter_skip autocomplete raw rest state
        blockComment flag hs, flagAfter_cons raw rest blockComment flag _ hs]
    · rw [List.cons_append, parseLines_line fs autocomplete rec fileName objnode raw _ state
        blockComment flag line st hs, parseLines_line fs autocomplete rec fileName objnode raw
        _ state blockComment flag line st hs, stateAfter_line autocomplete raw rest state
        blockComment flag line hs, flagAfter_cons raw rest blockComment flag _ hs]
      generalize dispatch fs autocomplete rec _ _ _ = d
      cases d with
      | error e => rfl
      | ok st1 => exact ih _ _ st1

/-- A line the keyword classification gives a kind sets the section state, whatever the
state before it. -/
theorem classifyLine_of_keyword (autocomplete : Bool) (line : QString)
    (h : (classifyLine autocomplete K_NONE line).1 ≠ K_NONE) (state : SpinKind) :
    classifyLine autocomplete state line = classifyLine autocomplete K_NONE line := by
  cases autocomplete
  · simp only [classifyLine, Bool.false_eq_true, ↓reduceIte] at h ⊢
    unfold classifyTree at h ⊢
    dsimp only at h ⊢
    generalize (if indexOf (trimmed line) "obj".toList CaseInsensitive = 0
      then match_keyword (cstr (toLatin1 (trimmed line))) keyObj else K_CONST) = ty at h ⊢
    by_cases h1 : indexOfWords (trimmed line) tokenWords = 0
    · rw [if_pos h1] at h
      by_cases h2 : ty ≠ K_NONE
      · rw [if_pos h1, if_pos h1, if_pos h2, if_pos h2]
      · rw [if_neg h2] at h
        exact absurd rfl h
    · rw [if_neg h1] at h
      exact absurd rfl h
  · simp only [classifyLine, ↓reduceIte] at h ⊢
    refine Prod.ext ?_ ?_
    · rw [classifyLoop_state, if_pos h]
    · rw [classifyLoop_line, classifyLoop_line]

end SpinParser

namespace SpinParser

theorem sectionBlock_cons (autocomplete : Bool) (block : List QString)
    (h : sectionBlock autocomplete block = true) :
    ∃ raw rest flag line, block = raw :: rest ∧ stripLine false raw = (flag, some line) ∧
      (classifyLine autocomplete K_NONE line).1 ≠ K_NONE := by
  cases block with
  | nil => simp [sectionBlock] at h
  | cons raw rest =>
    rcases hs : stripLine false raw with ⟨flag, _ | line⟩
    · simp [sectionBlock, hs] at h
    · refine ⟨raw, rest, flag, line, rfl, hs, ?_⟩
      simpa [sectionBlock, hs] using h

/-- The walk over a block that a section-keyword line introduces does not depend on the
section state it is entered with. -/
theorem parseLines_sectionBlock (fs : FileSystem) (autocomplete : Bool)
    (rec : QString → QString → SpinParser → Except Fault SpinParser)
    (fileName objnode : QString) (block : List QString)
    (h : sectionBlock autocomplete block = true) (state : SpinKind) (st : SpinParser) :
    parseLines fs autocomplete rec fileName objnode block state false st =
      parseLines fs autocomplete rec fileName objnode block K_CONST false st := by
  obtain ⟨raw, rest, flag, line, rfl, hs, hk⟩ := sectionBlock_cons autocomplete block h
  rw [parseLines_line fs autocomplete rec fileName objnode raw rest state false flag line st hs,
    parseLines_line fs autocomplete rec fileName objnode raw rest K_CONST false flag line st
      hs, classifyLine_of_keyword autocomplete line hk state,
    classifyLine_of_keyword autocomplete line hk K_CONST]

theorem stateAfter_sectionBlock (autocomplete : Bool) (block : List QString)
    (h : sectionBlock autocomplete block = true) (state : SpinKind) :
    stateAfter autocomplete block state false = stateAfter autocomplete block K_CONST false := by
  obtain ⟨raw, rest, flag, line, rfl, hs, hk⟩ := sectionBlock_cons autocomplete block h
  rw [stateAfter_line autocomplete raw rest state false flag line hs,
    stateAfter_line autocomplete raw rest K_CONST false flag line hs,
    classifyLine_of_keyword autocomplete line hk state,
    classifyLine_of_keyword autocomplete line hk K_CONST]

/-- The walk over blocks that each start with a section-keyword line and end outside a
block comment is the walk over each block on its own, one after the other. -/
theorem parseLines_blocks (fs : FileSystem) (autocomplete : Bool)
    (rec : QString → QString → SpinParser → Except Fault SpinParser)
    (fileName objnode : QString) (blocks : List (List QString)) :
    (∀ block ∈ blocks, sectionBlock autocomplete block = true) →
    (∀ block ∈ blocks, flagAfter block false = false) →
    ∀ (state : SpinKind) (st : SpinParser),
      parseLines fs autocomplete rec fileName objnode blocks.flatten state false st =
        blocks.foldlM (fun s block =>
          parseLines fs autocomplete rec fileName objnode block K_CONST false s) st := by
  induction blocks with
  | nil => intro _ _ state st; rfl
  | cons block rest ih =>
    intro hsec hbal state st
    rw [List.flatten_cons, parseLines_append, List.foldlM_cons,
      hbal block (List.mem_cons_self _ _),
      parseLines_sectionBlock fs autocomplete rec fileName objnode block
        (hsec block (List.mem_cons_self _ _)) state st]
    congr 1
    funext st1
    exact ih (fun b hb => hsec b (List.mem_cons_of_mem _ hb))
      (fun b hb => hbal b (List.mem_cons_of_mem _ hb)) _ st1

section Blocks

variable (fs : FileSystem) (autocomplete : Bool) (fuel : Nat) (lib file node : QString)

theorem block_uniform (block : List QString) :
    Uniform (fun s => s.libraryPath = lib)
      (parseLines fs autocomplete (findSpinTags fs autocomplete fuel) file node block
        K_CONST false) :=
  parseLines_uniform fs autocomplete _ lib file node
    (fun sub n => findSpinTags_uniform fs autocomplete lib file fuel sub n) block K_CONST false

theorem blocks_outOfFuel (blocks : List (List QString))
    (h : ∃ block ∈ blocks, ∀ st : SpinParser, st.libraryPath = lib →
      parseLines fs autocomplete (findSpinTags fs autocomplete fuel) file node block
        K_CONST false st = .error Fault.outOfFuel) :
    ∀ st : SpinParser, st.libraryPath = lib →
      blocks.foldlM (fun s block =>
        parseLines fs autocomplete (findSpinTags fs autocomplete fuel) file node block
          K_CONST false s) st = .error Fault.outOfFuel := by
  induction blocks with
  | nil =>
    obtain ⟨b, hb, _⟩ := h
    cases hb
  | cons b0 rest ih =>
    intro st hst
    obtain ⟨b, hb, hbad⟩ := h
    rw [List.foldlM_cons]
    rcases block_uniform fs autocomplete fuel lib file node b0 with h0 | ⟨recs, h0⟩
    · rw [h0 st hst]
      rfl
    · obtain ⟨st1, h1, _, hl⟩ := h0 st hst
      rcases List.mem_cons.mp hb with hb | hb
      · subst hb
        rw [hbad st hst] at h1
        cases h1
      · rw [h1]
        exact ih ⟨b, hb, hbad⟩ st1 (hl.trans hst)

theorem blockRecords_of_recs (block : List QString) (recs : List (QString × QString))
    (h : ∀ st : SpinParser, st.libraryPath = lib → ∃ st',
      parseLines fs autocomplete (findSpinTags fs autocomplete fuel) file node block
        K_CONST false st = .ok st' ∧ st'.db = DB.insertAll recs st.db ∧
        st'.libraryPath = st.libraryPath) :
    blockRecords fs autocomplete fuel lib file node block = .ok (DB.insertAll recs []) := by
  obtain ⟨st1, h1, hdb, _⟩ := h ⟨[], [], lib, file, node⟩ rfl
  rw [blockRecords, h1]
  simp only [Except.map, hdb]

/-- When every block returns and the blocks are independent, the walk over the blocks
leaves the records of the blocks, and the records it found whose keys no block stores. -/
theorem blocks_records (blocks : List (List QString))
    (hok : ∀ block ∈ blocks, ∃ recs, ∀ st : SpinParser, st.libraryPath = lib → ∃ st',
      parseLines fs autocomplete (findSpinTags fs autocomplete fuel) file node block
        K_CONST false st = .ok st' ∧ st'.db = DB.insertAll recs st.db ∧
        st'.libraryPath = st.libraryPath)
    (hind : ∀ b1 ∈ blocks, ∀ b2 ∈ blocks,
      independentBlocks fs autocomplete fuel lib file node b1 b2) :
    ∀ st : SpinParser, st.libraryPath = lib → DB.Ordered st.db →
      ∃ st', blocks.foldlM (fun s block =>
          parseLines fs autocomplete (findSpinTags fs autocomplete fuel) file node block
            K_CONST false s) st = .ok st' ∧ DB.Ordered st'.db ∧
        ∀ x, x ∈ st'.db ↔
          (∃ block ∈ blocks, ∃ d,
            blockRecords fs autocomplete fuel lib file node block = .ok d ∧ x ∈ d) ∨
          (x ∈ st.db ∧ ∀ block ∈ blocks, ∀ d,
            blockRecords fs autocomplete fuel lib file node block = .ok d →
              x.1 ∉ DB.keys d) := by
  induction blocks with
  | nil =>
    intro st _ hord
    exact ⟨st, rfl, hord, fun x => by simp⟩
  | cons b0 rest ih =>
    intro st hst hord
    obtain ⟨recs, h0⟩ := hok b0 (List.mem_cons_self _ _)
    have hrec0 := blockRecords_of_recs fs autocomplete fuel lib file node b0 recs h0
    obtain ⟨st1, h1, hdb1, hl1⟩ := h0 st hst
    have hord1 : DB.Ordered st1.db := by
      rw [hdb1]
      exact DB.ordered_insertAll recs _ hord
    obtain ⟨st2, h2, hord2, hmem2⟩ := ih
      (fun b hb => hok b (List.mem_cons_of_mem _ hb))
      (fun b1 hb1 b2 hb2 => hind b1 (List.mem_cons_of_mem _ hb1) b2
        (List.mem_cons_of_mem _ hb2)) st1 (hl1.trans hst) hord1
    refine ⟨st2, ?_, hord2, fun x => ?_⟩
    · rw [List.foldlM_cons, h1]
      exact h2
    · have hm1 : x ∈ st1.db ↔ x ∈ DB.insertAll recs [] ∨
          (x ∈ st.db ∧ x.1 ∉ DB.keys (DB.insertAll recs [])) := by
        rw [hdb1]
        exact DB.mem_insertAll recs st.db hord x
      rw [hmem2, hm1]
      constructor
      · rintro (⟨b, hb, d, hd, hx⟩ | ⟨hx | ⟨hx, hk⟩, hrest⟩)
        · exact Or.inl ⟨b, List.mem_cons_of_mem _ hb, d, hd, hx⟩
        · exact Or.inl ⟨b0, List.mem_cons_self _ _, _, hrec0, hx⟩
        · refine Or.inr ⟨hx, fun b hb d hd => ?_⟩
          rcases List.mem_cons.mp hb with hb | hb
          · subst hb
            rw [hrec0] at hd
            cases hd
            exact hk
          · exact hrest b hb d hd
      · rintro (⟨b, hb, d, hd, hx⟩ | ⟨hx, hnone⟩)
        · rcases List.mem_cons.mp hb with hb | hb
          · subst hb
            rw [hrec0] at hd
            cases hd
            by_cases hex : ∃ b2 ∈ rest, ∃ d2,
                blockRecords fs autocomplete fuel lib file node b2 = .ok d2 ∧ x.1 ∈ DB.keys d2
            · obtain ⟨b2, hb2, d2, hd2, hk2⟩ := hex
              obtain ⟨v2, hv2⟩ := (DB.mem_keys_iff d2 x.1).mp hk2
              have hv : x.2 = v2 :=
                hind b (List.mem_cons_self _ _) b2 (List.mem_cons_of_mem _ hb2) _ d2 hrec0 hd2
                  x.1 x.2 v2 hx hv2
              refine Or.inl ⟨b2, hb2, d2, hd2, ?_⟩
              rw [← hv] at hv2
              exact hv2
            · refine Or.inr ⟨Or.inl hx, fun b2 hb2 d2 hd2 hk2 => hex ⟨b2, hb2, d2, hd2, hk2⟩⟩
          · exact Or.inl ⟨b, hb, d, hd, hx⟩
        · refine Or.inr ⟨Or.inr ⟨hx, ?_⟩, fun b hb d hd =>
            hnone b (List.mem_cons_of_mem _ hb) d hd⟩
          exact hnone b0 (List.mem_cons_self _ _) _ hrec0

end Blocks

end SpinParser

namespace SpinParser

/-- C18, counterexample: the `CON` block that declares `x` and the `PUB` block that
declares `x` each start with a section-keyword line and hold no block comment, and both
store their record under `root:x`.  Parsed as `CON` then `PUB` the database holds the
method record, parsed as `PUB` then `CON` it holds the constant record. -/
theorem dependent_blocks_order_matters :
    sectionBlock true blockCon = true ∧ sectionBlock true blockPubX = true ∧
    flagAfter blockCon false = false ∧ flagAfter blockPubX false = false ∧
    fsConThenPub.readAll "root.spin".toList =
      some ("\n".toList.intercalate [blockCon, blockPubX].flatten) ∧
    fsPubThenCon.readAll "root.spin".toList =
      some ("\n".toList.intercalate [blockPubX, blockCon].flatten) ∧
    (findSpinTags fsConThenPub true 1 "root.spin".toList "root".toList fresh).map
        SpinParser.db =
      .ok [("root:x".toList, "x\troot.spin\tPUB x\tf".toList)] ∧
    (findSpinTags fsPubThenCon true 1 "root.spin".toList "root".toList fresh).map
        SpinParser.db =
      .ok [("root:x".toList, "x\troot.spin\tx = 1\tc".toList)] := by
  refine ⟨by decide, by decide, by decide, by decide, by decide, by decide, ?_, ?_⟩
  · decide!
  · decide!

/-- C18, amended: take blocks of lines that each start with a section-keyword line (the
first line is not skipped and the classifier gives it a kind) and each end outside a
block comment, and that are independent: no key is stored with different values by two
of them.  Then the loop of `findSpinTags` over the blocks in any order leaves the same
database (or runs out of fuel in every order), whatever ordered database it starts
from. -/
theorem independent_blocks_permutation (fs : FileSystem) (autocomplete : Bool) (fuel : Nat)
    (file node : QString) (blocks blocks' : List (List QString))
    (hperm : blocks.Perm blocks')
    (hsec : ∀ block ∈ blocks, sectionBlock autocomplete block = true)
    (hbal : ∀ block ∈ blocks, flagAfter block false = false)
    (st : SpinParser) (hord : DB.Ordered st.db)
    (hind : ∀ b1 ∈ blocks, ∀ b2 ∈ blocks,
      independentBlocks fs autocomplete fuel st.libraryPath file node b1 b2) :
    (parseLines fs autocomplete (findSpinTags fs autocomplete fuel) file node
        blocks'.flatten K_CONST false st).map SpinParser.db =
      (parseLines fs autocomplete (findSpinTags fs autocomplete fuel) file node
        blocks.flatten K_CONST false st).map SpinParser.db := by
  have hmem : ∀ b, b ∈ blocks' ↔ b ∈ blocks := fun b => hperm.mem_iff.symm
  rw [parseLines_blocks fs autocomplete _ file node blocks hsec hbal K_CONST st,
    parseLines_blocks fs autocomplete _ file node blocks'
      (fun b hb => hsec b ((hmem b).mp hb)) (fun b hb => hbal b ((hmem b).mp hb)) K_CONST st]
  by_cases hbad : ∃ block ∈ blocks, ∀ s : SpinParser, s.libraryPath = st.libraryPath →
      parseLines fs autocomplete (findSpinTags fs autocomplete fuel) file node block
        K_CONST false s = .error Fault.outOfFuel
  · rw [blocks_outOfFuel fs autocomplete fuel st.libraryPath file node blocks hbad st rfl]
    obtain ⟨b, hb, h⟩ := hbad
    rw [blocks_outOfFuel fs autocomplete fuel st.libraryPath file node blocks'
      ⟨b, (hmem b).mpr hb, h⟩ st rfl]
  · have hok : ∀ block ∈ blocks, ∃ recs, ∀ s : SpinParser,
        s.libraryPath = st.libraryPath → ∃ s',
        parseLines fs autocomplete (findSpinTags fs autocomplete fuel) file node block
          K_CONST false s = .ok s' ∧ s'.db = DB.insertAll recs s.db ∧
          s'.libraryPath = s.libraryPath := by
      intro block hb
      rcases block_uniform fs autocomplete fuel st.libraryPath file node block with h | h
      · exact absurd ⟨block, hb, h⟩ hbad
      · exact h
    obtain ⟨s1, h1, ho1, hm1⟩ := blocks_records fs autocomplete fuel st.libraryPath file node
      blocks hok hind st rfl hord
    obtain ⟨s2, h2, ho2, hm2⟩ := blocks_records fs autocomplete fuel st.libraryPath file node
      blocks' (fun b hb => hok b ((hmem b).mp hb))
      (fun b1 hb1 b2 hb2 => hind b1 ((hmem b1).mp hb1) b2 ((hmem b2).mp hb2)) st rfl hord
    rw [h1, h2]
    simp only [Except.map]
    congr 1
    refine DB.ordered_ext _ _ ho2 ho1 (fun x => ?_)
    rw [hm1, hm2]
    simp only [hmem]

/-- C18, amended, for the `CON` block that declares `x` and the `PUB` block that
declares `y`: either order leaves the two records `root:x` and `root:y`. -/
theorem independent_blocks_con_pub :
    (parseLines fsPubRoot true (findSpinTags fsPubRoot true 1) "root.spin".toList
        "root".toList [blockPubY, blockCon].flatten K_CONST false fresh).map SpinParser.db =
      (parseLines fsPubRoot true (findSpinTags fsPubRoot true 1) "root.spin".toList
        "root".toList [blockCon, blockPubY].flatten K_CONST false fresh).map SpinParser.db ∧
    (parseLines fsPubRoot true (findSpinTags fsPubRoot true 1) "root.spin".toList
        "root".toList [blockCon, blockPubY].flatten K_CONST false fresh).map SpinParser.db =
      .ok [("root:x".toList, "x\troot.spin\tx = 1\tc".toList),
        ("root:y".toList, "y\troot.spin\tPUB y\tf".toList)] :=
  ⟨independent_blocks_permutation fsPubRoot true 1 "root.spin".toList "root".toList
    [blockCon, blockPubY] [blockPubY, blockCon] (List.Perm.swap _ _ _)
    (by decide) (by decide) fresh DB.ordered_nil
    (by
      have e1 : blockRecords fsPubRoot true 1 fresh.libraryPath "root.spin".toList
          "root".toList blockCon =
          .ok [("root:x".toList, "x\troot.spin\tx = 1\tc".toList)] := by decide
      have e2 : blockRecords fsPubRoot true 1 fresh.libraryPath "root.spin".toList
          "root".toList blockPubY =
          .ok [("root:y".toList, "y\troot.spin\tPUB y\tf".toList)] := by decide
      intro b1 hb1 b2 hb2 d1 d2 h1 h2 k v1 v2 m1 m2
      simp only [List.mem_cons, List.mem_singleton, List.not_mem_nil, or_false] at hb1 hb2
      rcases hb1 with rfl | rfl <;> rcases hb2 with rfl | rfl
      all_goals
        first
        | rw [e1] at h1
        | rw [e2] at h1
      all_goals
        first
        | rw [e1] at h2
        | rw [e2] at h2
      all_goals
        cases h1
        cases h2
        simp only [List.mem_singleton, Prod.mk.injEq] at m1 m2
      · rw [m1.2, m2.2]
      · have := m1.1.symm.trans m2.1
        exact absurd this (by decide)
      · have := m1.1.symm.trans m2.1
        exact absurd this (by decide)
      · rw [m1.2, m2.2]),
    by decide!⟩

end SpinParser

namespace SpinParser

/-! ## The brace scan -/

/-- C21: the brace scan appends the character that follows a `}` without examining it,
and the NUL character when the `}` is the last character of the line.  So `a}` strips to
`a` followed by NUL, a character the raw line does not hold; `}{x` strips to `{x` with
the flag clear, although the last brace of the line is `{`; `a}}b` keeps its second `}`;
and the line `PUB a {c}` is stored under the name `a`, a blank and NUL. -/
theorem braceScan_appends_past_closing_brace :
    stripLine false "a\x7d".toList = (false, some ['a', Char.ofNat 0]) ∧
    stripLine false "\x7d\x7bx".toList = (false, some "\x7bx".toList) ∧
    stripLine false "a\x7d\x7db".toList = (false, some "a\x7db".toList) ∧
    (parseLines fsPubRoot true (findSpinTags fsPubRoot true 1) "root.spin".toList
        "root".toList ["PUB a \x7bc\x7d".toList] K_CONST false fresh).map SpinParser.db =
      .ok [("root:a ".toList ++ [Char.ofNat 0],
        "a ".toList ++ [Char.ofNat 0] ++ "\troot.spin\tPUB a ".toList ++ [Char.ofNat 0] ++
          "\tf".toList)] := by
  refine ⟨by decide, by decide, by decide, ?_⟩
  decide!

theorem braceScan_open (blockComment : Bool) (line rest : QString) :
    braceScan blockComment line ('{' :: rest) = braceScan true line rest := by
  rw [braceScan.eq_def]
  simp

theorem braceScan_other (blockComment : Bool) (line : QString) (d : Char) (rest : QString)
    (h1 : d ≠ '{') (h2 : d ≠ '}') :
    braceScan blockComment line (d :: rest) =
      braceScan blockComment (if blockComment = false then line ++ [d] else line) rest := by
  rw [braceScan.eq_def]
  simp [h1, h2]

theorem braceScan_comment_tail (c : QString) (h1 : '{' ∉ c) (h2 : '}' ∉ c) :
    ∀ line, braceScan true line (c ++ ['}']) = (false, line ++ [Char.ofNat 0]) := by
  induction c with
  | nil => intro line; rw [braceScan.eq_def]; simp
  | cons d c ih =>
    intro line
    have hd1 : d ≠ '{' := fun h => h1 (by simp [h])
    have hd2 : d ≠ '}' := fun h => h2 (by simp [h])
    rw [List.cons_append, braceScan_other true line d _ hd1 hd2]
    simp only [Bool.true_eq_false, ↓reduceIte]
    exact ih (fun h => h1 (List.mem_cons_of_mem _ h)) (fun h => h2 (List.mem_cons_of_mem _ h))
      line

theorem trimmed_comment (c : QString) : trimmed ('{' :: c ++ ['}']) = '{' :: c ++ ['}'] := by
  have h1 : ('{' :: c ++ ['}']).dropWhile isSpace = '{' :: c ++ ['}'] := by
    rw [List.cons_append, List.dropWhile_cons_of_neg (by decide)]
  rw [trimmed_eq_rdropWhile, h1]
  exact List.rdropWhile_concat_neg _ _ _ (by decide)

/-- C22: a line that consists of one block comment, reached with the block-comment flag
clear, does not strip to the empty string: the scan reads the character past the `}`,
which is the NUL character, so the stripped line is one NUL character long.  The line
is not skipped: the loop classifies it and hands it to `dispatch`. -/
theorem comment_only_line_is_dispatched (c : QString) (h1 : '{' ∉ c) (h2 : '}' ∉ c) :
    stripLine false ('{' :: c ++ ['}']) = (false, some [Char.ofNat 0]) ∧
    ∀ (fs : FileSystem) (autocomplete : Bool)
      (rec : QString → QString → SpinParser → Except Fault SpinParser)
      (fileName objnode : QString) (rest : List QString) (state : SpinKind) (st : SpinParser),
      parseLines fs autocomplete rec fileName objnode (('{' :: c ++ ['}']) :: rest) state
          false st =
        (dispatch fs autocomplete rec (classifyLine autocomplete state [Char.ofNat 0]).1
            (SpinParser.mk st.db st.spinFiles st.libraryPath fileName objnode)
            (classifyLine autocomplete state [Char.ofNat 0]).2 >>= fun st1 =>
          parseLines fs autocomplete rec fileName objnode rest
            (classifyLine autocomplete state [Char.ofNat 0]).1 false st1) := by
  have hs : stripLine false ('{' :: c ++ ['}']) = (false, some [Char.ofNat 0]) := by
    have hc : contains ('{' :: c ++ ['}']) ['{'] CaseSensitive = true := by
      rw [contains_char]
      simp
    have hb : braceScan false [] ('{' :: c ++ ['}']) = (false, [Char.ofNat 0]) := by
      rw [List.cons_append, braceScan_open]
      exact braceScan_comment_tail c h1 h2 []
    unfold stripLine
    simp only [trimmed_comment, hc, Bool.true_or, ↓reduceIte, hb]
    decide
  exact ⟨hs, fun fs autocomplete rec fileName objnode rest state st =>
    parseLines_line fs autocomplete rec fileName objnode _ rest state false false _ st hs⟩

/-- C22, for the line `{c}`: it strips to one NUL character and is not skipped. -/
theorem comment_only_line_c :
    '{' ∉ ['c'] ∧ '}' ∉ ['c'] ∧
    stripLine false "\x7bc\x7d".toList = (false, some [Char.ofNat 0]) :=
  ⟨by decide, by decide, (comment_only_line_is_dispatched ['c'] (by decide) (by decide)).1⟩

end SpinParser

namespace SpinParser

/-! ## The file search of `checkFile` -/

theorem find_of_firstSuch (p : QString → Bool) (l : List QString) (s : QString)
    (h : FirstSuch p l s) : l.find? p = some s := by
  obtain ⟨pre, post, rfl, hpre, hs⟩ := h
  induction pre with
  | nil => simp [List.find?, hs]
  | cons t pre ih =>
    have ht : p t = false := hpre t (List.mem_cons_self _ _)
    simp only [List.cons_append, List.find?, ht]
    exact ih (fun u hu => hpre u (List.mem_cons_of_mem _ hu))

theorem find_none_of_all (p : QString → Bool) (l : List QString)
    (h : ∀ t ∈ l, p t = false) : l.find? p = none := by
  induction l with
  | nil => rfl
  | cons t l ih =>
    simp only [List.find?, h t (List.mem_cons_self _ _)]
    exact ih (fun u hu => h u (List.mem_cons_of_mem _ hu))

theorem checkFile_unfold (fs : FileSystem) (st : SpinParser) (ref : QString) :
    checkFile fs st ref =
      if fs.fileExists ref = true then ref
      else if fs.fileExists (st.libraryPath ++ ref) = true then st.libraryPath ++ ref
      else
        match (fs.entryList (dirPath st.currentFile)).find?
            (fun s => compareEq CaseInsensitive s (baseName ref)) with
        | some s => dirPath st.currentFile ++ s
        | none =>
          match (fs.entryList st.libraryPath).find?
              (fun s => contains s (baseName ref) CaseInsensitive) with
          | some s => st.libraryPath ++ ['/'] ++ s
          | none => ref :=
  rfl

/-- C23: `checkFile` returns the reference when it exists; else the library path
followed by the reference when that exists; else the directory of the current file
followed by the first entry of that directory that equals the base name of the
reference case-insensitively; else the library path, `/` and the first entry of the
library directory that contains the base name case-insensitively; else the reference.
When the entries the two directories list exist as files, the result is an existing
path or the reference itself. -/
theorem checkFile_result (fs : FileSystem) (st : SpinParser) (ref : QString) :
    (fs.fileExists ref = true → checkFile fs st ref = ref) ∧
    (fs.fileExists ref = false → fs.fileExists (st.libraryPath ++ ref) = true →
      checkFile fs st ref = st.libraryPath ++ ref) ∧
    (fs.fileExists ref = false → fs.fileExists (st.libraryPath ++ ref) = false →
      ∀ s, FirstSuch (fun t => compareEq CaseInsensitive t (baseName ref))
          (fs.entryList (dirPath st.currentFile)) s →
        checkFile fs st ref = dirPath st.currentFile ++ s) ∧
    (fs.fileExists ref = false → fs.fileExists (st.libraryPath ++ ref) = false →
      (∀ t ∈ fs.entryList (dirPath st.currentFile),
        compareEq CaseInsensitive t (baseName ref) = false) →
      ∀ s, FirstSuch (fun t => contains t (baseName ref) CaseInsensitive)
          (fs.entryList st.libraryPath) s →
        checkFile fs st ref = st.libraryPath ++ ['/'] ++ s) ∧
    (fs.fileExists ref = false → fs.fileExists (st.libraryPath ++ ref) = false →
      (∀ t ∈ fs.entryList (dirPath st.currentFile),
        compareEq CaseInsensitive t (baseName ref) = false) →
      (∀ t ∈ fs.entryList st.libraryPath,
        contains t (baseName ref) CaseInsensitive = false) →
      checkFile fs st ref = ref) ∧
    ((∀ s ∈ fs.entryList (dirPath st.currentFile),
        fs.fileExists (dirPath st.currentFile ++ s) = true) →
      (∀ s ∈ fs.entryList st.libraryPath,
        fs.fileExists (st.libraryPath ++ ['/'] ++ s) = true) →
      fs.fileExists (checkFile fs st ref) = true ∨ checkFile fs st ref = ref) := by
  rw [checkFile_unfold]
  refine ⟨?_, ?_, ?_, ?_, ?_, ?_⟩
  · intro h
    rw [if_pos h]
  · intro h1 h2
    rw [if_neg (by simp [h1]), if_pos h2]
  · intro h1 h2 s hs
    rw [if_neg (by simp [h1]), if_neg (by simp [h2]), find_of_firstSuch _ _ _ hs]
  · intro h1 h2 hd s hs
    rw [if_neg (by simp [h1]), if_neg (by simp [h2]), find_none_of_all _ _ hd,
      find_of_firstSuch _ _ _ hs]
  · intro h1 h2 hd hl
    rw [if_neg (by simp [h1]), if_neg (by simp [h2]), find_none_of_all _ _ hd,
      find_none_of_all _ _ hl]
  · intro hd hl
    by_cases h1 : fs.fileExists ref = true
    · rw [if_pos h1]
      exact Or.inl h1
    · rw [if_neg h1]
      by_cases h2 : fs.fileExists (st.libraryPath ++ ref) = true
      · rw [if_pos h2]
        exact Or.inl h2
      · rw [if_neg h2]
        cases hf : (fs.entryList (dirPath st.currentFile)).find?
            (fun s => compareEq CaseInsensitive s (baseName ref)) with
        | some s => exact Or.inl (hd s (List.mem_of_find?_eq_some hf))
        | none =>
          cases hg : (fs.entryList st.libraryPath).find?
              (fun s => contains s (baseName ref) CaseInsensitive) with
          | some s => exact Or.inl (hl s (List.mem_of_find?_eq_some hg))
          | none => exact Or.inr rfl

/-- C23, in a project whose directory `src/` lists `Helper.spin` and whose library `lib`
lists `Display.spin`: the reference `helper.spin` resolves to `src/Helper.spin`, the
reference `display` to `lib/Display.spin`, and both results exist. -/
theorem checkFile_result_library :
    checkFile fsLibrary inSrc "helper.spin".toList = "src/Helper.spin".toList ∧
    checkFile fsLibrary inSrc "display".toList = "lib/Display.spin".toList ∧
    (fsLibrary.fileExists (checkFile fsLibrary inSrc "display".toList) = true ∨
      checkFile fsLibrary inSrc "display".toList = "display".toList) :=
  ⟨(checkFile_result fsLibrary inSrc "helper.spin".toList).2.2.1 (by decide) (by decide)
      "Helper.spin".toList ⟨["root.spin".toList], [], by decide, by decide, by decide⟩,
    (checkFile_result fsLibrary inSrc "display".toList).2.2.2.1 (by decide) (by decide)
      (by decide) "Display.spin".toList ⟨[], [], by decide, by decide, by decide⟩,
    (checkFile_result fsLibrary inSrc "display".toList).2.2.2.2.2 (by decide) (by decide)⟩

end SpinParser

namespace SpinParser

/-! ## The records a walk inserts -/

section Records

variable (P : QString × QString → Prop)

theorem insert_records (key value : QString) (db : DB) (hP : P (key, value))
    (h : ∀ kv ∈ db, P kv) : ∀ kv ∈ DB.insert key value db, P kv := by
  intro kv hkv
  rcases DB.mem_insert key value db kv hkv with hk | hk
  · rw [hk]
    exact hP
  · exact h kv hk

theorem foldl_enumItem_records (st : SpinParser) (p : QString)
    (hP : ∀ name line letter, P (st.objectNode ++ KEY_ELEMENT_SEP ++ name,
      mkTag name st.currentFile line [letter]))
    (items : List QString) :
    ∀ db : DB,
      AllRecords P (SpinParser.mk db st.spinFiles st.libraryPath st.currentFile
        st.objectNode) →
      AllRecords P (SpinParser.mk (items.foldl (enumItem st p) db) st.spinFiles
        st.libraryPath st.currentFile st.objectNode) := by
  induction items with
  | nil => intro db h; exact h
  | cons i rest ih =>
    intro db h
    apply ih
    simp only [enumItem]
    split
    · exact h
    · exact insert_records P _ _ _ (hP _ _ _) h

theorem foldl_declItem_records (st : SpinParser) (p : QString) (kind : SpinKind)
    (hP : ∀ name line letter, P (st.objectNode ++ KEY_ELEMENT_SEP ++ name,
      mkTag name st.currentFile line [letter]))
    (items : List QString) :
    ∀ db : DB,
      AllRecords P (SpinParser.mk db st.spinFiles st.libraryPath st.currentFile
        st.objectNode) →
      AllRecords P (SpinParser.mk (items.foldl (declItem st p kind) db) st.spinFiles
        st.libraryPath st.currentFile st.objectNode) := by
  induction items with
  | nil => intro db h; exact h
  | cons i rest ih =>
    intro db h
    apply ih
    exact insert_records P _ _ _ (hP _ _ _) h

theorem record_state_records (st : SpinParser) (name line : QString) (letter : Char)
    (hP : ∀ name line letter, P (st.objectNode ++ KEY_ELEMENT_SEP ++ name,
      mkTag name st.currentFile line [letter]))
    (h : AllRecords P st) :
    AllRecords P (SpinParser.mk
      (DB.insert (st.objectNode ++ KEY_ELEMENT_SEP ++ name)
        (mkTag name st.currentFile line [letter]) st.db)
      st.spinFiles st.libraryPath st.currentFile st.objectNode) :=
  insert_records P _ _ _ (hP _ _ _) h

theorem match_constant_records (st : SpinParser) (p : QString)
    (hP : ∀ name line letter, P (st.objectNode ++ KEY_ELEMENT_SEP ++ name,
      mkTag name st.currentFile line [letter]))
    (h : AllRecords P st) : AllRecords P (match_constant st p) := by
  unfold match_constant
  dsimp only
  refine ite_state (AllRecords P) (fun _ => ?_)
    (fun _ => ite_state (AllRecords P)
      (fun _ => ite_state (AllRecords P) (fun _ => ?_) (fun _ => h))
      (fun _ => h))
  · exact foldl_enumItem_records P st _ hP _ _ h
  · exact record_state_records P st _ _ _ hP h

theorem match_dat_records (st : SpinParser) (p : QString)
    (hP : ∀ name line letter, P (st.objectNode ++ KEY_ELEMENT_SEP ++ name,
      mkTag name st.currentFile line [letter]))
    (h : AllRecords P st) : AllRecords P (match_dat st p) := by
  unfold match_dat
  dsimp only
  refine ite_state (AllRecords P)
    (fun _ => ite_state (AllRecords P) (fun _ => ?_) (fun _ => h)) (fun _ => h)
  exact foldl_declItem_records P st p K_DAT hP _ _ h

theorem match_var_records (st : SpinParser) (p : QString)
    (hP : ∀ name line letter, P (st.objectNode ++ KEY_ELEMENT_SEP ++ name,
      mkTag name st.currentFile line [letter]))
    (h : AllRecords P st) : AllRecords P (match_var st p) := by
  unfold match_var
  dsimp only
  refine ite_state (AllRecords P)
    (fun _ => ite_state (AllRecords P)
      (fun _ => ite_state (AllRecords P) (fun _ => ?_) (fun _ => h))
      (fun _ => h)) (fun _ => h)
  exact foldl_declItem_records P st p K_VAR hP _ _ h

theorem match_pri_records (st : SpinParser) (p : QString)
    (hP : ∀ name line letter, P (st.objectNode ++ KEY_ELEMENT_SEP ++ name,
      mkTag name st.currentFile line [letter]))
    (h : AllRecords P st) : AllRecords P (match_pri st p) := by
  unfold match_pri
  dsimp only
  exact ite_state (AllRecords P)
    (fun _ => record_state_records P st _ _ _ hP h) (fun _ => h)

theorem match_pub_records (st : SpinParser) (p : QString)
    (hP : ∀ name line letter, P (st.objectNode ++ KEY_ELEMENT_SEP ++ name,
      mkTag name st.currentFile line [letter]))
    (h : AllRecords P st) : AllRecords P (match_pub st p) := by
  unfold match_pub
  dsimp only
  exact ite_state (AllRecords P)
    (fun _ => record_state_records P st _ _ _ hP h) (fun _ => h)

theorem dispatch_records (fs : FileSystem) (autocomplete : Bool)
    (rec : QString → QString → SpinParser → Except Fault SpinParser)
    (state : SpinKind) (st : SpinParser) (line : QString)
    (hP : ∀ name line letter, P (st.objectNode ++ KEY_ELEMENT_SEP ++ name,
      mkTag name st.currentFile line [letter]))
    (hobj : ∀ sub name line, P (st.objectNode ++ ['/'] ++ sub ++ KEY_ELEMENT_SEP ++ name,
      mkTag name st.currentFile line [SpinKinds_letter K_OBJECT]))
    (hrec : ∀ f sub s s', rec f (st.objectNode ++ ['/'] ++ sub) s = .ok s' →
      (∀ kv ∈ s.db, P kv) → ∀ kv ∈ s'.db, P kv)
    (h : ∀ kv ∈ st.db, P kv) :
    ∀ st', dispatch fs autocomplete rec state st line = .ok st' → ∀ kv ∈ st'.db, P kv := by
  have hquiet : ∀ st', (Except.ok st : Except Fault SpinParser) = .ok st' →
      ∀ kv ∈ st'.db, P kv := by
    intro st' he
    cases he
    exact h
  have hobject : ∀ st', match_object fs rec st line = .ok st' → ∀ kv ∈ st'.db, P kv := by
    intro st' he
    rw [match_object_eq] at he
    by_cases hd : descends fs st line = true
    · rw [if_pos hd] at he
      exact hrec _ _ _ _ he (insert_records P _ _ _ (hobj _ _ _) h)
    · rw [if_neg hd] at he
      exact hquiet st' he
  have hpure : ∀ s : SpinParser, (∀ kv ∈ s.db, P kv) →
      ∀ st', (pure s : Except Fault SpinParser) = .ok st' → ∀ kv ∈ st'.db, P kv := by
    intro s hs st' he
    cases he
    exact hs
  unfold dispatch
  cases autocomplete
  · cases state
    case K_OBJECT => exact hobject
    all_goals exact hquiet
  · cases state
    · exact hquiet
    · exact hpure _ (match_constant_records P st line hP h)
    · exact hpure _ (match_pub_records P st line hP h)
    · exact hpure _ (match_pri_records P st line hP h)
    · exact hobject
    · exact hpure _ (match_var_records P st line hP h)
    · exact hpure _ (match_dat_records P st line hP h)

/-- The walk over the lines of `fileName` under `objnode`, from any state: when the
records of the lines, built with `fileName` and `objnode`, and the records the recursive
calls add satisfy `P`, so do all the records after the walk. -/
theorem parseLines_records (fs : FileSystem) (autocomplete : Bool)
    (rec : QString → QString → SpinParser → Except Fault SpinParser)
    (fileName objnode : QString)
    (hP : ∀ name line letter, P (objnode ++ KEY_ELEMENT_SEP ++ name,
      mkTag name fileName line [letter]))
    (hobj : ∀ sub name line, P (objnode ++ ['/'] ++ sub ++ KEY_ELEMENT_SEP ++ name,
      mkTag name fileName line [SpinKinds_letter K_OBJECT]))
    (hrec : ∀ f sub s s', rec f (objnode ++ ['/'] ++ sub) s = .ok s' →
      (∀ kv ∈ s.db, P kv) → ∀ kv ∈ s'.db, P kv)
    (lines : List QString) :
    ∀ (state : SpinKind) (blockComment : Bool) (st : SpinParser), (∀ kv ∈ st.db, P kv) →
      ∀ st', parseLines fs autocomplete rec fileName objnode lines state blockComment st =
        .ok st' → ∀ kv ∈ st'.db, P kv := by
  induction lines with
  | nil =>
    intro state blockComment st h st' he
    cases he
    exact h
  | cons raw rest ih =>
    intro state blockComment st h st' he
    rcases hs : stripLine blockComment raw with ⟨flag, _ | line⟩
    · rw [parseLines_skip fs autocomplete rec fileName objnode raw rest state blockComment
        flag st hs] at he
      exact ih state flag (SpinParser.mk st.db st.spinFiles st.libraryPath fileName objnode) h
        st' he
    · rw [parseLines_line fs autocomplete rec fileName objnode raw rest state blockComment
        flag line st hs] at he
      cases hd : dispatch fs autocomplete rec (classifyLine autocomplete state line).1
          (SpinParser.mk st.db st.spinFiles st.libraryPath fileName objnode)
          (classifyLine autocomplete state line).2 with
      | error e =>
        rw [hd] at he
        cases he
      | ok st1 =>
        rw [hd] at he
        exact ih _ flag st1
          (dispatch_records P fs autocomplete rec _
            (SpinParser.mk st.db st.spinFiles st.libraryPath fileName objnode) _ hP hobj hrec
            h st1 hd) st' he

end Records

end SpinParser

namespace SpinParser

theorem walkRecord_key (depth : Nat) :
    ∀ (file node : QString) (kv : QString × QString), walkRecord depth file node kv →
      ∃ c rest, (c = ':' ∨ c = '/') ∧ kv.1 = node ++ c :: rest := by
  induction depth with
  | zero => intro file node kv h; exact absurd h (by simp [walkRecord])
  | succ depth ih =>
    intro file node kv h
    rcases h with ⟨name, line, letter, rfl⟩ | ⟨sub, name, line, rfl⟩ | ⟨childFile, sub, h⟩
    · exact ⟨':', name, Or.inl rfl, by simp [KEY_ELEMENT_SEP]⟩
    · exact ⟨'/', sub ++ KEY_ELEMENT_SEP ++ name, Or.inr rfl, by simp⟩
    · obtain ⟨c, rest, _, hk⟩ := ih childFile _ kv h
      exact ⟨'/', sub ++ c :: rest, Or.inr rfl, by rw [hk]; simp⟩

/-- Every record a walk leaves was in the database before the walk or is a record of the
walk. -/
theorem findSpinTags_records (fs : FileSystem) (autocomplete : Bool) (fuel : Nat) :
    ∀ (file node : QString) (st st' : SpinParser),
      findSpinTags fs autocomplete fuel file node st = .ok st' →
      ∀ kv ∈ st'.db, kv ∈ st.db ∨ walkRecord fuel (checkFile fs st file) node kv := by
  induction fuel with
  | zero =>
    intro file node st st' h
    simp [findSpinTags] at h
  | succ fuel ih =>
    intro file node st st' h
    rw [findSpinTags] at h
    by_cases hex : fs.fileExists (checkFile fs st file) = true
    · cases hread : fs.readAll (checkFile fs st file) with
      | none =>
        rw [findSpinTagsBody_other fs autocomplete _ file node st (Or.inr hread)] at h
        cases h
        exact fun kv hkv => Or.inl hkv
      | some filestr =>
        rw [findSpinTagsBody_readable fs autocomplete _ file node filestr st hex hread] at h
        refine parseLines_records
          (fun kv => kv ∈ st.db ∨ walkRecord (fuel + 1) (checkFile fs st file) node kv)
          fs autocomplete _ (checkFile fs st file) node ?_ ?_ ?_ _ K_CONST false st
          (fun kv hkv => Or.inl hkv) st' h
        · exact fun name line letter => Or.inr (Or.inl ⟨name, line, letter, rfl⟩)
        · exact fun sub name line => Or.inr (Or.inr (Or.inl ⟨sub, name, line, rfl⟩))
        · intro f sub s s' hs hall kv hkv
          rcases ih f _ s s' hs kv hkv with hk | hk
          · exact hall kv hk
          · exact Or.inr (Or.inr (Or.inr ⟨_, sub, hk⟩))
    · rw [findSpinTagsBody_other fs autocomplete _ file node st
        (Or.inl (by simpa using hex))] at h
      cases h
      exact fun kv hkv => Or.inl hkv

end SpinParser

namespace SpinParser

/-! ## Field accesses on the values of a parsed database -/

theorem tagItem_in_bounds (tabs : List QString) (h : 4 ≤ tabs.length) (field : Nat)
    (hf : field ≤ 3) : ∃ s, tagItem tabs field = .ok s := by
  have h3 := listAt_of_lt tabs 3 (by omega)
  have hfield := listAt_of_lt tabs field (by omega)
  have hlen : tabs.length > 2 := by omega
  exact ⟨_, by simp only [tagItem, hlen, ↓reduceIte, h3, hfield, bind, Except.bind]; rfl⟩

theorem appendIfKind_in_bounds (letter : Char) (tabs : List QString) (h : 4 ≤ tabs.length)
    (list : List QString) : ∃ list', appendIfKind letter tabs list = .ok list' := by
  have h3 := listAt_of_lt tabs 3 (by omega)
  obtain ⟨t2, ht2⟩ := tagItem_in_bounds tabs h 2 (by omega)
  simp only [appendIfKind, h3, ht2, bind, Except.bind]
  split
  · exact ⟨_, rfl⟩
  · exact ⟨_, rfl⟩

theorem constantsItem_in_bounds (tabs : List QString) (h : 4 ≤ tabs.length)
    (list : List QString) : ∃ list', constantsItem list tabs = .ok list' := by
  have h3 := listAt_of_lt tabs 3 (by omega)
  obtain ⟨t2, ht2⟩ := tagItem_in_bounds tabs h 2 (by omega)
  obtain ⟨t0, ht0⟩ := tagItem_in_bounds tabs h 0 (by omega)
  have hlen : tabs.length > 2 := by omega
  simp only [constantsItem, hlen, ↓reduceIte, h3, ht2, ht0, bind, Except.bind]
  split
  · exact ⟨_, rfl⟩
  · split
    · exact ⟨_, rfl⟩
    · exact ⟨_, rfl⟩

theorem if_in_bounds {c : Prop} [Decidable c] {a b : Except Fault (List QString)}
    (ha : ∃ l, a = .ok l) (hb : ∃ l, b = .ok l) : ∃ l, (if c then a else b) = .ok l := by
  split
  · exact ha
  · exact hb

theorem bind_in_bounds {a : Except Fault (List QString)}
    {f : List QString → Except Fault (List QString)}
    (ha : ∃ l, a = .ok l) (hf : ∀ l, ∃ l', f l = .ok l') : ∃ l, (a >>= f) = .ok l := by
  obtain ⟨l, hl⟩ := ha
  rw [hl]
  exact hf l

theorem spinSymbolsStep_in_bounds (db : DB) (file objname : QString)
    (h : ∀ kv ∈ db, 4 ≤ (split '\t' kv.2).length) (list : List QString) (key : QString)
    (hkey : key ∈ DB.keys db) :
    ∃ list', spinSymbolsStep db file objname list key = .ok list' := by
  have h4 := h _ (DB.value_mem db key hkey)
  obtain ⟨t2, ht2⟩ := tagItem_in_bounds _ h4 2 (by omega)
  have hitem : ∃ l, (do pure (list ++ [← tagItem (split '\t' (DB.value db key)) 2]) :
      Except Fault (List QString)) = .ok l := ⟨_, by rw [ht2]; rfl⟩
  unfold spinSymbolsStep
  exact if_in_bounds (if_in_bounds (if_in_bounds hitem ⟨_, rfl⟩) ⟨_, rfl⟩)
    (if_in_bounds (if_in_bounds hitem ⟨_, rfl⟩) ⟨_, rfl⟩)

theorem spinConstantsStep_in_bounds (db : DB) (file objname : QString)
    (h : ∀ kv ∈ db, 4 ≤ (split '\t' kv.2).length) (list : List QString) (key : QString)
    (hkey : key ∈ DB.keys db) :
    ∃ list', spinConstantsStep db file objname list key = .ok list' := by
  have h4 := h _ (DB.value_mem db key hkey)
  have hitem := constantsItem_in_bounds _ h4 list
  unfold spinConstantsStep
  exact if_in_bounds (if_in_bounds hitem ⟨_, rfl⟩) (if_in_bounds hitem ⟨_, rfl⟩)

theorem spinMethodsStep_in_bounds (db : DB) (file objname : QString)
    (h : ∀ kv ∈ db, 4 ≤ (split '\t' kv.2).length) (list : List QString) (key : QString)
    (hkey : key ∈ DB.keys db) :
    ∃ list', spinMethodsStep db file objname list key = .ok list' := by
  have h4 := h _ (DB.value_mem db key hkey)
  have hk := fun letter l => appendIfKind_in_bounds letter _ h4 l
  unfold spinMethodsStep
  exact if_in_bounds
    (if_in_bounds (if_in_bounds (bind_in_bounds (hk 'p' list) (hk 'f')) ⟨_, rfl⟩) ⟨_, rfl⟩)
    (if_in_bounds (if_in_bounds
      (bind_in_bounds (hk 'p' list) (fun l => bind_in_bounds (hk 'f' l) (hk 'o')))
      ⟨_, rfl⟩) ⟨_, rfl⟩)

theorem kindQueryStep_in_bounds (letter : Char) (db : DB) (objname : QString)
    (h : ∀ kv ∈ db, 4 ≤ (split '\t' kv.2).length) (list : List QString) (key : QString)
    (hkey : key ∈ DB.keys db) :
    ∃ list', kindQueryStep letter db objname list key = .ok list' := by
  have h4 := h _ (DB.value_mem db key hkey)
  unfold kindQueryStep
  exact if_in_bounds (if_in_bounds (appendIfKind_in_bounds letter _ h4 list) ⟨_, rfl⟩)
    ⟨_, rfl⟩

theorem foldlM_in_bounds (step : List QString → QString → Except Fault (List QString))
    (l : List QString) (hstep : ∀ acc a, a ∈ l → ∃ acc', step acc a = .ok acc')
    (acc : List QString) : ∃ out, l.foldlM step acc = .ok out := by
  obtain ⟨out, h, _⟩ := foldlM_ok_of_step (fun _ => True) step l
    (fun acc a ha _ => (hstep acc a ha).imp (fun _ h => ⟨h, trivial⟩)) acc trivial
  exact ⟨out, h⟩

/-- C25: in the database a parse leaves, every value has at least four tab-separated
fields.  So `tagItem` finds the fields 3 and `field` it reads, `objectInfo` finds the
fields 0 and 2, `spinFileTree` returns its list without an access out of bounds, and
each of the six queries returns its list for every file and object name. -/
theorem parsed_values_in_bounds (fs : FileSystem) (autocomplete : Bool) (fuel : Nat)
    (st : SpinParser) (file libpath : QString) (st1 : SpinParser)
    (h : findSpinTags fs autocomplete fuel file "root".toList
      (clearDB { st with libraryPath := libpath }) = .ok st1) :
    (∀ kv ∈ st1.db, 4 ≤ (split '\t' kv.2).length) ∧
    (∀ kv ∈ st1.db, ∀ field, field ≤ 3 → ∃ s, tagItem (split '\t' kv.2) field = .ok s) ∧
    (∀ kv ∈ st1.db, ∀ name f, ∃ r, objectInfo kv.2 name f = .ok r) ∧
    (∃ r, spinFileTree fs autocomplete fuel st file libpath = .ok r) ∧
    (∀ qfile objname,
      (∃ l, spinSymbols st1.db qfile objname = .ok l) ∧
      (∃ l, spinConstants st1.db qfile objname = .ok l) ∧
      (∃ l, spinMethods st1.db qfile objname = .ok l) ∧
      (∃ l, spinDat st1.db qfile objname = .ok l) ∧
      (∃ l, spinVars st1.db qfile objname = .ok l) ∧
      (∃ l, spinObjects st1.db qfile objname = .ok l)) := by
  obtain ⟨hord, hval, hfiles⟩ := findSpinTags_from_cleared fs autocomplete fuel file _ _ st1 h
  refine ⟨hval, ?_, ?_, ?_, ?_⟩
  · intro kv hkv field hf
    exact tagItem_in_bounds _ (hval kv hkv) field hf
  · intro kv hkv name f
    obtain ⟨n, sub, hr⟩ := objectInfo_ok kv.2 (Nat.le_of_succ_le (hval kv hkv)) name f
    exact ⟨_, hr⟩
  · obtain ⟨sub, f, hfold⟩ := foldlM_fileTreeStep st1.db hord
      (fun kv hkv => Nat.le_of_succ_le (hval kv hkv)) st1.db (fun _ hkv => hkv)
      ([], [], st1.spinFiles ++ [midFrom file (lastIndexOf file '/' + 1)])
    simp only [spinFileTree, h, bind, Except.bind, hfold, pure, Except.pure]
    exact ⟨_, rfl⟩
  · intro qfile objname
    exact ⟨foldlM_in_bounds _ _ (fun acc a ha =>
        spinSymbolsStep_in_bounds st1.db qfile objname hval acc a ha) [],
      foldlM_in_bounds _ _ (fun acc a ha =>
        spinConstantsStep_in_bounds st1.db qfile objname hval acc a ha) [],
      foldlM_in_bounds _ _ (fun acc a ha =>
        spinMethodsStep_in_bounds st1.db qfile objname hval acc a ha) [],
      foldlM_in_bounds _ _ (fun acc a ha =>
        kindQueryStep_in_bounds 'd' st1.db objname hval acc a ha) [],
      foldlM_in_bounds _ _ (fun acc a ha =>
        kindQueryStep_in_bounds 'v' st1.db objname hval acc a ha) [],
      foldlM_in_bounds _ _ (fun acc a ha =>
        kindQueryStep_in_bounds 'o' st1.db objname hval acc a ha) []⟩

/-- C25, for the project of scenario E: the parse returns, every value it stored has at
least four fields, and `spinFileTree` and `spinMethods` return their lists. -/
theorem parsed_values_in_bounds_display :
    ∃ st1, findSpinTags fsDisplay true 2 "root.spin".toList "root".toList
        (clearDB { fresh with libraryPath := [] }) = .ok st1 ∧
      (∀ kv ∈ st1.db, 4 ≤ (split '\t' kv.2).length) ∧
      (∃ r, spinFileTree fsDisplay true 2 fresh "root.spin".toList [] = .ok r) ∧
      (∃ l, spinMethods st1.db "root.spin".toList [] = .ok l) := by
  have hm : (findSpinTags fsDisplay true 2 "root.spin".toList "root".toList
      (clearDB { fresh with libraryPath := [] })).map SpinParser.db =
      .ok [("root/lcd:lcd".toList, "lcd\troot.spin\tOBJ lcd : \"display\"\to".toList),
        ("root/lcd:show".toList, "show\tdisplay.spin\tPUB show\tf".toList)] := by
    decide!
  obtain ⟨st1, h, _⟩ := map_ok _ _ _ hm
  have hall := parsed_values_in_bounds fsDisplay true 2 fresh "root.spin".toList [] st1 h
  exact ⟨st1, h, hall.1, hall.2.2.2.1, (hall.2.2.2.2 "root.spin".toList []).2.2.1⟩

end SpinParser

namespace SpinParser

/-! ## The section state -/

theorem keywordAtStart_token (token : QString) :
    ∀ l : QString, keywordAtStart token l = true →
      token = (l.take token.length).map c_tolower := by
  induction token with
  | nil => intro l _; rfl
  | cons t ts ih =>
    intro l h
    cases l with
    | nil => simp [keywordAtStart] at h
    | cons c p =>
      simp only [keywordAtStart, Bool.and_eq_true, beq_iff_eq] at h
      simp only [List.length_cons, List.take_succ_cons, List.map_cons, h.1]
      rw [← ih p h.2]

/-- A line is a keyword line of at most one of the six keywords. -/
theorem keywordLine_unique (kw1 kw2 : KeyWord)
    (h1 : kw1 ∈ [keyCon, keyObj, keyPub, keyPri, keyVar, keyDat])
    (h2 : kw2 ∈ [keyCon, keyObj, keyPub, keyPri, keyVar, keyDat]) (l : QString)
    (hl1 : keywordLine kw1.token l = true) (hl2 : keywordLine kw2.token l = true) :
    kw1 = kw2 := by
  simp only [keywordLine, Bool.and_eq_true] at hl1 hl2
  have e1 := keywordAtStart_token kw1.token l hl1.1
  have e2 := keywordAtStart_token kw2.token l hl2.1
  have hlen : kw1.token.length = kw2.token.length := by
    simp only [List.mem_cons, List.mem_singleton, List.not_mem_nil, or_false] at h1 h2
    rcases h1 with rfl | rfl | rfl | rfl | rfl | rfl <;>
      rcases h2 with rfl | rfl | rfl | rfl | rfl | rfl <;> rfl
  have htok : kw1.token = kw2.token := by
    rw [e1, e2, hlen]
  simp only [List.mem_cons, List.mem_singleton, List.not_mem_nil, or_false] at h1 h2
  rcases h1 with rfl | rfl | rfl | rfl | rfl | rfl <;>
    rcases h2 with rfl | rfl | rfl | rfl | rfl | rfl <;>
    first
    | rfl
    | exact absurd htok (by decide)

theorem sectionAfter_keyword (state : SpinKind) (line : QString) (kw : KeyWord)
    (hkw : kw ∈ [keyCon, keyObj, keyPub, keyPri, keyVar, keyDat])
    (h : keywordLine kw.token (cstr (toLatin1 (trimmed line))) = true) :
    sectionAfter state line = kw.kind := by
  unfold sectionAfter
  cases hf : [keyCon, keyObj, keyPub, keyPri, keyVar, keyDat].find?
      (fun kw => keywordLine kw.token (cstr (toLatin1 (trimmed line)))) with
  | none =>
    have := List.find?_eq_none.mp hf kw hkw
    simp only [h, not_true_eq_false] at this
  | some kw1 =>
    have hp := List.find?_some hf
    have hm := List.mem_of_find?_eq_some hf
    rw [keywordLine_unique kw1 kw hm hkw _ hp h]

theorem sectionAfter_plain (state : SpinKind) (line : QString)
    (h : ∀ kw ∈ [keyCon, keyObj, keyPub, keyPri, keyVar, keyDat],
      keywordLine kw.token (cstr (toLatin1 (trimmed line))) = false) :
    sectionAfter state line = state := by
  unfold sectionAfter
  rw [List.find?_eq_none.mpr (fun kw hkw => by simp [h kw hkw])]

theorem classifyLine_full (state : SpinKind) (line : QString) :
    classifyLine true state line = (sectionAfter state line, trimmed line) := by
  refine Prod.ext ?_ ?_
  · exact classifyLoop_find [keyCon, keyObj, keyPub, keyPri, keyVar, keyDat] (fun _ h => h)
      state line
  · exact classifyLoop_line state line

/-- C20: in the full mode the section state is `K_CONST` when the walk over the lines of
a file starts.  A line that is not passed over is handed, trimmed, to the extractor of
the state in force after the line, and the walk goes on in that state: it is the kind of
the keyword when the line is a keyword line of `con`, `obj`, `pub`, `pri`, `var` or
`dat`, and the state before the line when it is a keyword line of none of them, so that
such a line goes to the extractor of the most recent keyword line above it.  A line that
is passed over leaves the state as it is. -/
theorem section_state (fs : FileSystem)
    (rec : QString → QString → SpinParser → Except Fault SpinParser)
    (fileName objnode : QString) :
    (∀ file node st filestr, fs.fileExists (checkFile fs st file) = true →
      fs.readAll (checkFile fs st file) = some filestr →
      findSpinTagsBody fs true rec file node st =
        parseLines fs true rec (checkFile fs st file) node (fileLines filestr) K_CONST
          false st) ∧
    (∀ raw rest state blockComment st blockComment' line,
      stripLine blockComment raw = (blockComment', some line) →
      parseLines fs true rec fileName objnode (raw :: rest) state blockComment st =
        dispatch fs true rec (sectionAfter state line)
            (SpinParser.mk st.db st.spinFiles st.libraryPath fileName objnode)
            (trimmed line) >>= fun st' =>
          parseLines fs true rec fileName objnode rest (sectionAfter state line)
            blockComment' st') ∧
    (∀ state line kw, kw ∈ [keyCon, keyObj, keyPub, keyPri, keyVar, keyDat] →
      keywordLine kw.token (cstr (toLatin1 (trimmed line))) = true →
      sectionAfter state line = kw.kind) ∧
    (∀ state line,
      (∀ kw ∈ [keyCon, keyObj, keyPub, keyPri, keyVar, keyDat],
        keywordLine kw.token (cstr (toLatin1 (trimmed line))) = false) →
      sectionAfter state line = state) ∧
    (∀ raw rest state blockComment st blockComment',
      stripLine blockComment raw = (blockComment', none) →
      parseLines fs true rec fileName objnode (raw :: rest) state blockComment st =
        parseLines fs true rec fileName objnode rest state blockComment'
          (SpinParser.mk st.db st.spinFiles st.libraryPath fileName objnode)) ∧
    (∀ st line,
      dispatch fs true rec K_CONST st line = .ok (match_constant st line) ∧
      dispatch fs true rec K_DAT st line = .ok (match_dat st line) ∧
      dispatch fs true rec K_OBJECT st line = match_object fs rec st line ∧
      dispatch fs true rec K_PRI st line = .ok (match_pri st line) ∧
      dispatch fs true rec K_PUB st line = .ok (match_pub st line) ∧
      dispatch fs true rec K_VAR st line = .ok (match_var st line) ∧
      dispatch fs true rec K_NONE st line = .ok st) := by
  refine ⟨?_, ?_, ?_, ?_, ?_, ?_⟩
  · intro file node st filestr hex hread
    exact findSpinTagsBody_readable fs true rec file node filestr st hex hread
  · intro raw rest state blockComment st blockComment' line hstrip
    rw [parseLines_line fs true rec fileName objnode raw rest state blockComment
      blockComment' line st hstrip, classifyLine_full]
  · intro state line kw hkw h
    exact sectionAfter_keyword state line kw hkw h
  · intro state line h
    exact sectionAfter_plain state line h
  · intro raw rest state blockComment st blockComment' hstrip
    exact parseLines_skip fs true rec fileName objnode raw rest state blockComment
      blockComment' st hstrip
  · intro st line
    exact ⟨rfl, rfl, rfl, rfl, rfl, rfl, rfl⟩

/-- C20, for the lines `DAT` and `buf byte 0` met in the state `K_CONST`: `DAT` is a
keyword line of `dat`, so the state after it is `K_DAT`; `buf byte 0` is a keyword line
of no keyword, so it leaves the state `K_DAT` and goes to `match_dat`, which stores
`buf`. -/
theorem section_state_dat_line :
    sectionAfter K_CONST "DAT".toList = K_DAT ∧
    sectionAfter K_DAT "buf byte 0".toList = K_DAT ∧
    parseLines fsDat true (findSpinTags fsDat true 0) "root.spin".toList "root".toList
        ["DAT".toList, "buf byte 0".toList] K_CONST false fresh =
      (dispatch fsDat true (findSpinTags fsDat true 0) (sectionAfter K_CONST "DAT".toList)
          (SpinParser.mk fresh.db fresh.spinFiles fresh.libraryPath "root.spin".toList
            "root".toList)
          (trimmed "DAT".toList) >>= fun st' =>
        parseLines fsDat true (findSpinTags fsDat true 0) "root.spin".toList "root".toList
          ["buf byte 0".toList] (sectionAfter K_CONST "DAT".toList) false st') ∧
    (parseLines fsDat true (findSpinTags fsDat true 0) "root.spin".toList "root".toList
        ["DAT".toList, "buf byte 0".toList] K_CONST false fresh).map SpinParser.db =
      .ok [("root:buf".toList, "buf\troot.spin\tbuf byte 0\tx".toList)] :=
  ⟨(section_state fsDat (findSpinTags fsDat true 0) "root.spin".toList
      "root".toList).2.2.1 K_CONST "DAT".toList keyDat (by decide) (by decide),
   (section_state fsDat (findSpinTags fsDat true 0) "root.spin".toList
      "root".toList).2.2.2.1 K_DAT "buf byte 0".toList (by decide),
   (section_state fsDat (findSpinTags fsDat true 0) "root.spin".toList
      "root".toList).2.1 _ _ _ _ _ _ _ (by decide),
   by decide!⟩

end SpinParser

namespace SpinParser

/-! ## The parse context of every line -/

/-- A line that makes no recursive call leaves the database it found, with records
built from the parse context of the state added. -/
theorem dispatch_line_records (fs : FileSystem) (autocomplete : Bool)
    (rec : QString → QString → SpinParser → Except Fault SpinParser)
    (state : SpinKind) (st : SpinParser) (line : QString)
    (h : ¬ (state = K_OBJECT ∧ descends fs st line = true)) :
    ∃ st1, dispatch fs autocomplete rec state st line = .ok st1 ∧
      ∀ kv ∈ st1.db, kv ∈ st.db ∨ lineRecord st.currentFile st.objectNode kv := by
  have hP : ∀ name l letter,
      (fun kv => kv ∈ st.db ∨ lineRecord st.currentFile st.objectNode kv)
        (st.objectNode ++ KEY_ELEMENT_SEP ++ name, mkTag name st.currentFile l [letter]) :=
    fun name l letter => Or.inr ⟨name, l, letter, rfl⟩
  have h0 : AllRecords (fun kv => kv ∈ st.db ∨ lineRecord st.currentFile st.objectNode kv)
      st := fun kv hkv => Or.inl hkv
  by_cases hs : state = K_OBJECT
  · subst hs
    have hd : ¬ descends fs st line = true := fun hd => h ⟨rfl, hd⟩
    have h1 : dispatch fs autocomplete rec K_OBJECT st line = match_object fs rec st line := by
      cases autocomplete <;> rfl
    exact ⟨st, by rw [h1, match_object_eq, if_neg hd], h0⟩
  · cases autocomplete
    · refine ⟨st, ?_, h0⟩
      cases state <;> first | exact absurd rfl hs | rfl
    · cases state
      · exact ⟨st, rfl, h0⟩
      · exact ⟨_, rfl, match_constant_records _ st line hP h0⟩
      · exact ⟨_, rfl, match_pub_records _ st line hP h0⟩
      · exact ⟨_, rfl, match_pri_records _ st line hP h0⟩
      · exact absurd rfl hs
      · exact ⟨_, rfl, match_var_records _ st line hP h0⟩
      · exact ⟨_, rfl, match_dat_records _ st line hP h0⟩

/-- C24: the loop over the lines of the file `fileName` under the node `objnode` does
not read the parse context of the state it is in, so the context a recursive call
leaves behind does not reach the lines that follow.  For every state `st`, in particular
the state a recursive call returned: the walk is the walk from `st` with the context
set to `fileName` and `objnode`; an `OBJ` line that descends stores its record under
`objnode/sub:name` with the file `fileName`, calls the walk of the child under
`objnode/sub`, and the lines after it are walked from the state that call returns; and
any other line that is not passed over leaves the database it found with only records
of the key `objnode:name` and the file `fileName` added. -/
theorem parent_context_at_every_line (fs : FileSystem) (autocomplete : Bool)
    (rec : QString → QString → SpinParser → Except Fault SpinParser)
    (fileName objnode : QString) :
    (∀ raw rest state blockComment (st : SpinParser),
      parseLines fs autocomplete rec fileName objnode (raw :: rest) state blockComment st =
        parseLines fs autocomplete rec fileName objnode (raw :: rest) state blockComment
          (SpinParser.mk st.db st.spinFiles st.libraryPath fileName objnode)) ∧
    (∀ raw rest state blockComment (st : SpinParser) flag line,
      stripLine blockComment raw = (flag, some line) →
      (classifyLine autocomplete state line).1 = K_OBJECT →
      descends fs (SpinParser.mk st.db st.spinFiles st.libraryPath fileName objnode)
        (classifyLine autocomplete state line).2 = true →
      parseLines fs autocomplete rec fileName objnode (raw :: rest) state blockComment st =
        (rec (referredFile (objectTag fileName (classifyLine autocomplete state line).2))
            (objnode ++ ['/'] ++
              subnodeOf (objectTag fileName (classifyLine autocomplete state line).2))
            (SpinParser.mk
              (DB.insert
                (objnode ++ ['/'] ++
                  subnodeOf (objectTag fileName (classifyLine autocomplete state line).2) ++
                  KEY_ELEMENT_SEP ++ objectName (classifyLine autocomplete state line).2)
                (mkTag (objectName (classifyLine autocomplete state line).2) fileName
                  (classifyLine autocomplete state line).2 [SpinKinds_letter K_OBJECT])
                st.db)
              st.spinFiles st.libraryPath fileName objnode) >>= fun st1 =>
          parseLines fs autocomplete rec fileName objnode rest K_OBJECT flag st1)) ∧
    (∀ raw rest state blockComment (st : SpinParser) flag line,
      stripLine blockComment raw = (flag, some line) →
      ¬ ((classifyLine autocomplete state line).1 = K_OBJECT ∧
        descends fs (SpinParser.mk st.db st.spinFiles st.libraryPath fileName objnode)
          (classifyLine autocomplete state line).2 = true) →
      ∃ st1,
        dispatch fs autocomplete rec (classifyLine autocomplete state line).1
          (SpinParser.mk st.db st.spinFiles st.libraryPath fileName objnode)
          (classifyLine autocomplete state line).2 = .ok st1 ∧
        parseLines fs autocomplete rec fileName objnode (raw :: rest) state blockComment st =
          parseLines fs autocomplete rec fileName objnode rest
            (classifyLine autocomplete state line).1 flag st1 ∧
        ∀ kv ∈ st1.db, kv ∈ st.db ∨ lineRecord fileName objnode kv) := by
  refine ⟨?_, ?_, ?_⟩
  · intro raw rest state blockComment st
    rcases hs : stripLine blockComment raw with ⟨flag, _ | line⟩
    · rw [parseLines_skip fs autocomplete rec fileName objnode raw rest state blockComment
        flag st hs, parseLines_skip fs autocomplete rec fileName objnode raw rest state
        blockComment flag _ hs]
    · rw [parseLines_line fs autocomplete rec fileName objnode raw rest state blockComment
        flag line st hs, parseLines_line fs autocomplete rec fileName objnode raw rest state
        blockComment flag line _ hs]
  · intro raw rest state blockComment st flag line hs hk hd
    rw [parseLines_line fs autocomplete rec fileName objnode raw rest state blockComment
      flag line st hs, dispatch_descends fs autocomplete rec _ _ _ hk hd, hk]
    rfl
  · intro raw rest state blockComment st flag line hs hq
    obtain ⟨st1, h1, hrec⟩ := dispatch_line_records fs autocomplete rec _
      (SpinParser.mk st.db st.spinFiles st.libraryPath fileName objnode) _ hq
    refine ⟨st1, h1, ?_, hrec⟩
    rw [parseLines_line fs autocomplete rec fileName objnode raw rest state blockComment
      flag line st hs, h1]
    rfl

/-- C24, for the root file with the lines `OBJ`, `lcd : "display"` and `PUB after`: the
line `PUB after`, met in the state the walk of `display.spin` under `root/lcd` left
behind, is stored under `root:after` with the file `root.spin`; and so it is in the
parse of the whole file. -/
theorem parent_context_after_display :
    afterChild.currentFile = "display.spin".toList ∧
    afterChild.objectNode = "root/lcd".toList ∧
    (∃ st1,
      dispatch fsAfter true (findSpinTags fsAfter true 1)
        (classifyLine true K_OBJECT "PUB after".toList).1
        (SpinParser.mk afterChild.db afterChild.spinFiles afterChild.libraryPath
          "root.spin".toList "root".toList)
        (classifyLine true K_OBJECT "PUB after".toList).2 = .ok st1 ∧
      parseLines fsAfter true (findSpinTags fsAfter true 1) "root.spin".toList "root".toList
          ["PUB after".toList] K_OBJECT false afterChild =
        parseLines fsAfter true (findSpinTags fsAfter true 1) "root.spin".toList
          "root".toList [] (classifyLine true K_OBJECT "PUB after".toList).1 false st1 ∧
      ∀ kv ∈ st1.db, kv ∈ afterChild.db ∨ lineRecord "root.spin".toList "root".toList kv) ∧
    (parseLines fsAfter true (findSpinTags fsAfter true 1) "root.spin".toList "root".toList
        ["PUB after".toList] K_OBJECT false afterChild).map SpinParser.db =
      .ok [("root/lcd:lcd".toList, "lcd\troot.spin\tlcd : \"display\"\to".toList),
        ("root/lcd:show".toList, "show\tdisplay.spin\tPUB show\tf".toList),
        ("root:after".toList, "after\troot.spin\tPUB after\tf".toList)] ∧
    (findSpinTags fsAfter true 2 "root.spin".toList "root".toList fresh).map SpinParser.db =
      .ok [("root/lcd:lcd".toList, "lcd\troot.spin\tlcd : \"display\"\to".toList),
        ("root/lcd:show".toList, "show\tdisplay.spin\tPUB show\tf".toList),
        ("root:after".toList, "after\troot.spin\tPUB after\tf".toList)] :=
  ⟨rfl, rfl,
   (parent_context_at_every_line fsAfter true (findSpinTags fsAfter true 1)
      "root.spin".toList "root".toList).2.2 "PUB after".toList [] K_OBJECT false afterChild
      false "PUB after".toList (by decide) (by decide),
   by decide!, by decide!⟩

end SpinParser

end SimpleIDE
